import Mathlib

/-!
# Golomb-coded lossless audio and image codecs

A shallow embedding of `Golomb.h`, `audio_codec.cpp` and `image_codec.cpp`.

Conventions of the embedding:

* a C++ `unsigned int` is a `Nat`, reduced modulo `2^32` wherever the source
  computes a value that could leave the 32-bit range (`toU32`);
* a C++ `int` / `int32_t` is an `Int`, wrapped to two's complement by `toI32`,
  an `int16_t` by `toI16`;
* a `std::vector<bool>` is a `List Bool`, `push_back` is appending at the end;
* a function that may `throw` returns `Except`.
-/

/-! ## Machine integers -/

/-- The value of a 32-bit `unsigned int` that is assigned the integer `x`. -/
def toU32 (x : Int) : Nat := (x % 4294967296).toNat

/-- The value of a 32-bit two's complement `int` that is assigned the integer `x`. -/
def toI32 (x : Int) : Int := (x + 2147483648) % 4294967296 - 2147483648

/-- The value of an `int16_t` that is assigned the integer `x`. -/
def toI16 (x : Int) : Int := (x + 32768) % 65536 - 32768

/-- The loop behind `floorLog2`: halve `m` until it is below 2, counting the steps. -/
def floorLog2Aux : Nat → Nat → Nat
  | 0, _ => 0
  | fuel + 1, m => if m < 2 then 0 else floorLog2Aux fuel (m / 2) + 1

/-- The expression `static_cast<unsigned int>(std::floor(std::log2(m)))` for an unsigned
32-bit `m ≥ 1`. A 32-bit integer is an exact `double`, and the rounding error of `log2`
is far below the distance of `log2 m` to the next integer, so the expression is the
integer `floor (log2 m)`; it is computed here by repeated halving. -/
def floorLog2 (m : Nat) : Nat := floorLog2Aux m m

/-- Equality of results of a function that may throw is decidable. -/
instance instDecidableEqExcept {ε α : Type} [DecidableEq ε] [DecidableEq α] :
    DecidableEq (Except ε α)
  | .ok a, .ok b => if h : a = b then isTrue (by rw [h]) else isFalse (by intro h2; cases h2; exact h rfl)
  | .error a, .error b =>
    if h : a = b then isTrue (by rw [h]) else isFalse (by intro h2; cases h2; exact h rfl)
  | .ok _, .error _ => isFalse (by intro h; cases h)
  | .error _, .ok _ => isFalse (by intro h; cases h)

/-! ## Golomb.h -/

/-- The enum `GolombCoding::NegativeMode`, in the order of the source. -/
inductive NegativeMode
  | SIGN_MAGNITUDE
  | INTERLEAVED
  deriving DecidableEq

/-- The exceptions thrown by `GolombCoding`, one constructor per message. -/
inductive GolombError
  /-- "Golomb parameter m must be positive" -/
  | mNotPositive
  /-- "Start position out of bounds" -/
  | startOutOfBounds
  /-- "Incomplete unary code" -/
  | incompleteUnary
  /-- "Incomplete remainder code" -/
  | incompleteRemainder
  deriving DecidableEq

/-- The private fields of `class GolombCoding`. -/
structure GolombCoding where
  m : Nat
  b : Nat
  cutoff : Nat
  mode : NegativeMode
  deriving DecidableEq

namespace GolombCoding

/-- The method `calculateParameters`: throws when `m == 0`, otherwise sets
`b = floor(log2(m))` and `cutoff = (1 << (b + 1)) - m`. The shift is done in `int`
and the subtraction in `unsigned int`. For `m ≥ 2^31` the shift count is 32, which C++
leaves undefined (a compiled program may take `1 << 32` as 1); the model then takes
`2^32` reduced to 32 bits, a convention only: the claims that state the value of
`cutoff` are restricted to `m < 2^31`. -/
def calculateParameters (g : GolombCoding) : Except GolombError GolombCoding :=
  if g.m = 0 then
    .error .mNotPositive
  else
    let b := floorLog2 g.m
    let cutoff := toU32 (toI32 ((1 <<< (b + 1) : Nat) : Int) - (g.m : Int))
    .ok { g with b := b, cutoff := cutoff }

/-- The constructor `GolombCoding(m_param, neg_mode)`: initialises `m` and `mode` and runs
`calculateParameters`; `b` and `cutoff` hold no value before that call. -/
def new (m_param : Nat) (neg_mode : NegativeMode) : Except GolombError GolombCoding :=
  calculateParameters { m := m_param, b := 0, cutoff := 0, mode := neg_mode }

/-- The accessor `getM`. -/
def getM (g : GolombCoding) : Nat := g.m

/-- The accessor `getMode`. -/
def getMode (g : GolombCoding) : NegativeMode := g.mode

/-- The method `setM`: assigns `m` first, then runs `calculateParameters`. The first
component is the object after the call, the second tells whether the call threw. -/
def setM (g : GolombCoding) (new_m : Nat) : GolombCoding × Except GolombError Unit :=
  let g1 := { g with m := new_m }
  match calculateParameters g1 with
  | .ok g2 => (g2, .ok ())
  | .error e => (g1, .error e)

/-- The method `mapToUnsigned(int value)`. -/
def mapToUnsigned (g : GolombCoding) (value : Int) : Nat :=
  match g.mode with
  | .SIGN_MAGNITUDE => toU32 (toI32 |value|)
  | .INTERLEAVED =>
    if value ≥ 0 then toU32 (toI32 (2 * value))
    else toU32 (toI32 (toI32 (2 * toI32 (-value)) - 1))

/-- The method `mapToSigned(unsigned int value, bool isNegative = false)`. The `/` on
`int` truncates toward zero; `value / 2` and `value + 1` are unsigned. -/
def mapToSigned (g : GolombCoding) (value : Nat) (isNegative : Bool) : Int :=
  match g.mode with
  | .SIGN_MAGNITUDE =>
    if isNegative then toI32 (-(toI32 (value : Int))) else toI32 (value : Int)
  | .INTERLEAVED =>
    if value % 2 = 0 then toI32 ((value / 2 : Nat) : Int)
    else toI32 (-(Int.tdiv (toI32 (((value + 1) % 4294967296 : Nat) : Int)) 2))

/-- The loop `for (int i = k - 1; i >= 0; i--) bits.push_back((x >> i) & 1);`:
the `k` bits it appends, in order. -/
def pushBits (x : Nat) : Nat → List Bool
  | 0 => []
  | k + 1 => (((x >>> k) &&& 1) != 0) :: pushBits x k

/-- The method `encodeUnsigned(unsigned int n)`. -/
def encodeUnsigned (g : GolombCoding) (n : Nat) : List Bool :=
  let q := n / g.m
  let r := n % g.m
  let bits := List.replicate q false ++ [true]
  if r < g.cutoff then
    bits ++ pushBits r g.b
  else
    let adjusted := (r + g.cutoff) % 4294967296
    bits ++ pushBits adjusted (g.b + 1)

/-- The scan `while (pos < bits.size() && !bits[pos]) { q++; pos++; }` of
`decodeUnsigned`: the number of iterations it performs when `rest` are the bits from
`pos` on. -/
def zeroRun : List Bool → Nat
  | false :: rest => zeroRun rest + 1
  | _ => 0

/-- The loop `for (i = 0; i < count; i++) r = (r << 1) | bits[pos++];` of
`decodeUnsigned`: the final value of `r`. -/
def readBits (bits : List Bool) : Nat → Nat → Nat → Nat
  | 0, _, r => r
  | count + 1, pos, r =>
    readBits bits count (pos + 1) (((r <<< 1) % 4294967296) ||| (bits.getD pos false).toNat)

/-- The method `decodeUnsigned(bits, start)`; the result is the pair
`(n, bits consumed)`. -/
def decodeUnsigned (g : GolombCoding) (bits : List Bool) (start : Nat) :
    Except GolombError (Nat × Nat) :=
  if start ≥ bits.length then
    .error .startOutOfBounds
  else
    let run := zeroRun (bits.drop start)
    let q := run % 4294967296
    let pos := start + run
    if pos ≥ bits.length then
      .error .incompleteUnary
    else
      let pos := pos + 1
      if pos + g.b > bits.length then
        .error .incompleteRemainder
      else
        let r := readBits bits g.b pos 0
        let pos := pos + g.b
        if r < g.cutoff then
          .ok ((q * g.m + r) % 4294967296, pos - start)
        else if pos ≥ bits.length then
          .error .incompleteRemainder
        else
          let r := ((r <<< 1) % 4294967296) ||| (bits.getD pos false).toNat
          let pos := pos + 1
          .ok (toU32 ((q * g.m + r : Nat) - (g.cutoff : Int)), pos - start)

/-- The method `encode(int value)`. -/
def encode (g : GolombCoding) (value : Int) : List Bool :=
  match g.mode with
  | .SIGN_MAGNITUDE => [decide (value < 0)] ++ g.encodeUnsigned (g.mapToUnsigned value)
  | .INTERLEAVED => g.encodeUnsigned (g.mapToUnsigned value)

/-- The method `decode(bits, start)`; the result is the pair `(value, bitsUsed)`. -/
def decode (g : GolombCoding) (bits : List Bool) (start : Nat) :
    Except GolombError (Int × Nat) :=
  if start ≥ bits.length then
    .error .startOutOfBounds
  else
    match g.mode with
    | .SIGN_MAGNITUDE =>
      let isNegative := bits.getD start false
      match g.decodeUnsigned bits (start + 1) with
      | .error e => .error e
      | .ok (magnitude, magnitudeBits) =>
        .ok (g.mapToSigned magnitude isNegative, 1 + magnitudeBits)
    | .INTERLEAVED =>
      match g.decodeUnsigned bits start with
      | .error e => .error e
      | .ok (mapped, usedBits) => .ok (g.mapToSigned mapped false, usedBits)

end GolombCoding


/-! ## The bit stream -/

/-- Modelled from the spec: the class `BitStream` of `bit_stream/src/bit_stream.h` is not
among the sources. Following §4.2, a stream is an ordered sequence of bits; the write side
appends at the end and the read side consumes from the front. -/
abbrev BitStream := List Bool

namespace BitStream

/-- Modelled from the spec: `write_bit(b)` of the absent `BitStream` class appends the
bit `b` (§4.2). -/
def write_bit (bs : BitStream) (bit : Nat) : BitStream := bs ++ [bit != 0]

/-- The `n` low bits of `value`, most significant first. -/
def msbFirst (value : Nat) : Nat → List Bool
  | 0 => []
  | n + 1 => (value / 2 ^ n % 2 != 0) :: msbFirst value n

/-- Modelled from the spec: `write_n_bits(value, n)` of the absent `BitStream` class
appends the `n` low bits of `value`, MSB first (§4.2). -/
def write_n_bits (bs : BitStream) (value : Nat) (n : Nat) : BitStream :=
  bs ++ msbFirst value n

/-- Modelled from the spec: `read_bit()` of the absent `BitStream` class consumes the next
bit (§4.2); reading past the last bit is a read failure (§4.3), here `none`. -/
def read_bit : BitStream → Option (Nat × BitStream)
  | [] => none
  | c :: rest => some (c.toNat, rest)

/-- The loop of `read_n_bits`: `n` bits are read MSB first into `value`. -/
def readLoop : Nat → Nat → BitStream → Option (Nat × BitStream)
  | 0, value, bs => some (value, bs)
  | n + 1, value, bs =>
    match read_bit bs with
    | none => none
    | some (bit, rest) => readLoop n (2 * value + bit) rest

/-- Modelled from the spec: `read_n_bits(n)` of the absent `BitStream` class consumes `n`
bits and returns them as an unsigned value, MSB first, so that it returns `v` after
`write_n_bits(v, n)` (§4.2). -/
def read_n_bits (bs : BitStream) (n : Nat) : Option (Nat × BitStream) := readLoop n 0 bs

end BitStream

/-- The ways a run of a codec function ends without a result. -/
inductive CodecError
  /-- An exception thrown by `GolombCoding`. -/
  | golomb (e : GolombError)
  /-- A read past the last bit of the stream. -/
  | endOfStream
  /-- The iteration bound of a modelled `while` loop was reached. -/
  | loopBound
  deriving DecidableEq

/-- The constructor call `GolombCoding golomb(m, negativeMode)` inside the codecs. -/
def newCoder (m : Nat) (negativeMode : NegativeMode) : Except CodecError GolombCoding :=
  match GolombCoding.new m negativeMode with
  | .ok g => .ok g
  | .error e => .error (.golomb e)

/-- The loop `for (bool bit : encoded) bs.write_bit(bit ? 1 : 0);`. -/
def writeBits (bs : BitStream) (encoded : List Bool) : BitStream :=
  encoded.foldl (fun s bit => BitStream.write_bit s (if bit then 1 else 0)) bs

/-- The loop `for (int residual : residuals) { encoded = golomb.encode(residual); ... }`
that writes the codewords of a block. -/
def writeResiduals (golomb : GolombCoding) (bs : BitStream) (residuals : List Int) :
    BitStream :=
  residuals.foldl (fun s residual => writeBits s (golomb.encode residual)) bs

/-- The loop that collects the unary part of a codeword,
`while (bits.push_back(bs.read_bit() != 0), !bits.back()) {}` in `decodeChannel` and the
`do … while (bit == 0)` of `decodeImage`: bits are read and appended up to and including
the first one bit. -/
def readUnary : BitStream → Option (List Bool × BitStream)
  | [] => none
  | true :: rest => some ([true], rest)
  | false :: rest =>
    match readUnary rest with
    | none => none
    | some (bits, s) => some (false :: bits, s)

/-- The loop `for (j = 0; j < count; j++) bits.push_back(bs.read_bit() != 0);`. -/
def readAppend : Nat → List Bool → BitStream → Option (List Bool × BitStream)
  | 0, bits, bs => some (bits, bs)
  | count + 1, bits, bs =>
    match BitStream.read_bit bs with
    | none => none
    | some (bit, rest) => readAppend count (bits ++ [bit != 0]) rest

/-- The local `b` that `decodeChannel` and `decodeImage` recompute from the block's `m`:
`static_cast<unsigned int>(std::floor(std::log2(m)))`. -/
def localB (m : Nat) : Nat := floorLog2 m

/-- The local `cutoff` that `decodeChannel` and `decodeImage` recompute from the block's
`m`: `(1 << (b + 1)) - m`. -/
def localCutoff (m : Nat) : Nat :=
  toU32 (toI32 ((1 <<< (localB m + 1) : Nat) : Int) - (m : Int))

/-- The per-residual bit collection shared, statement for statement, by `decodeChannel`
(lines 173-192) and `decodeImage` (lines 240-263): collect the bits up to the first one
bit, collect `b` more bits, rebuild `r` from the last `b` collected bits, collect one more
bit when `r >= cutoff`, and hand the collected bits to `golomb.decode(bits, 0)`. -/
def readResidual (golomb : GolombCoding) (m : Nat) (bs : BitStream) :
    Except CodecError (Int × BitStream) :=
  match readUnary bs with
  | none => .error .endOfStream
  | some (bits, bs) =>
    let b := localB m
    let cutoff := localCutoff m
    match readAppend b bits bs with
    | none => .error .endOfStream
    | some (bits, bs) =>
      let r := GolombCoding.readBits bits b (bits.length - b) 0
      let more : Option (List Bool × BitStream) :=
        if r ≥ cutoff then readAppend 1 bits bs else some (bits, bs)
      match more with
      | none => .error .endOfStream
      | some (bits, bs) =>
        match golomb.decode bits 0 with
        | .error e => .error (.golomb e)
        | .ok (residual, _) => .ok (residual, bs)

/-- The function `std::clamp(val, lo, hi)` on integers. -/
def clampInt (val lo hi : Int) : Int := if val < lo then lo else if hi < val then hi else val

/-! ## audio_codec.cpp -/

namespace AudioCodec

/-- The `enum class PredictorType` of `audio_codec.cpp`, as its underlying `int`: the
decoder obtains it by `static_cast` from the header field, so it can hold any code. -/
abbrev PredictorType := Int

/-- The enumerator `PredictorType::ORDER_1`. -/
def ORDER_1 : PredictorType := 0
/-- The enumerator `PredictorType::ORDER_2`. -/
def ORDER_2 : PredictorType := 1
/-- The enumerator `PredictorType::ORDER_3`. -/
def ORDER_3 : PredictorType := 2

/-- The lambda `clamp` inside `predict`: `std::clamp(val, -32768, 32767)` cast to
`int16_t`. -/
def clamp (val : Int) : Int := toI16 (clampInt val (-32768) 32767)

/-- The function `predict(samples, index, predictor)`. The arithmetic is done in `int`
(the `int16_t` operands are promoted), so each expression is wrapped to 32 bits once. -/
def predict (samples : List Int) (index : Nat) (predictor : PredictorType) : Int :=
  if index = 0 then 0
  else if predictor = ORDER_1 then
    samples.getD (index - 1) 0
  else if predictor = ORDER_2 then
    if index < 2 then samples.getD (index - 1) 0
    else clamp (toI32 (2 * samples.getD (index - 1) 0 - samples.getD (index - 2) 0))
  else if predictor = ORDER_3 then
    if index < 2 then samples.getD (index - 1) 0
    else if index < 3 then
      clamp (toI32 (2 * samples.getD (index - 1) 0 - samples.getD (index - 2) 0))
    else
      clamp (toI32 (3 * samples.getD (index - 1) 0 - 3 * samples.getD (index - 2) 0 +
        samples.getD (index - 3) 0))
  else 0

/-- The function `estimateGolombParameter(residuals)`. The mean is a `double`; the sum of
the absolute values and the count are exact in a `double`, and the test `mean < 0.5` is
decided exactly as `2 * sum < count`. The remaining floating-point expression
`static_cast<unsigned int>(std::ceil(-1.0 / std::log2(mean / (mean + 1.0))))` is the
parameter `ceilLog`, a function of the sum and the count; `std::clamp(m, 1u, 65535u)` is
applied to its value. -/
def estimateGolombParameter (ceilLog : Nat → Nat → Nat) (residuals : List Int) : Nat :=
  if residuals.isEmpty then 1
  else
    let sum := (residuals.map Int.natAbs).sum
    let count := residuals.length
    if 2 * sum < count then 1
    else
      let m := ceilLog sum count
      if m < 1 then 1 else if 65535 < m then 65535 else m

/-- The function `convertToMidSide`, on one frame: `mid = (int16_t)((l + r) >> 1)`,
`side = (int16_t)(l - r)`; the shift is arithmetic. -/
def convertToMidSide1 (l r : Int) : Int × Int :=
  (toI16 (toI32 (l + r) / 2), toI16 (toI32 (l - r)))

/-- The function `convertFromMidSide`, on one frame:
`left = (int16_t)(m + (s >> 1) + (s & 1))`, `right = (int16_t)(m - (s >> 1))`. -/
def convertFromMidSide1 (m s : Int) : Int × Int :=
  (toI16 (toI32 (m + s / 2 + s % 2)), toI16 (toI32 (m - s / 2)))

/-- The function `convertToMidSide` on the two channel vectors; the loop runs over
`left.size()` frames. -/
def convertToMidSide (left right : List Int) : List Int × List Int :=
  ((List.range left.length).map (fun i =>
      (convertToMidSide1 (left.getD i 0) (right.getD i 0)).1),
   (List.range left.length).map (fun i =>
      (convertToMidSide1 (left.getD i 0) (right.getD i 0)).2))

/-- The function `convertFromMidSide` on the two channel vectors; the loop runs over
`mid.size()` frames. -/
def convertFromMidSide (mid side : List Int) : List Int × List Int :=
  ((List.range mid.length).map (fun i =>
      (convertFromMidSide1 (mid.getD i 0) (side.getD i 0)).1),
   (List.range mid.length).map (fun i =>
      (convertFromMidSide1 (mid.getD i 0) (side.getD i 0)).2))

/-- The residual loop of `encodeChannel` (lines 133-137) for the block `[pos, blockEnd)`:
`residual = (int)samples[i] - (int)predict(samples, i, predictor)`. -/
def blockResiduals (samples : List Int) (predictor : PredictorType) (pos blockEnd : Nat) :
    List Int :=
  (List.range' pos (blockEnd - pos)).map (fun i =>
    toI32 (samples.getD i 0 - predict samples i predictor))

/-- The `while (pos < numSamples)` loop of `encodeChannel`; `fuel` bounds the number of
iterations. -/
def encodeChannelLoop (ceilLog : Nat → Nat → Nat) (samples : List Int)
    (predictor : PredictorType) (adaptiveM : Bool) (fixedM : Nat)
    (negativeMode : NegativeMode) : Nat → Nat → BitStream → Except CodecError BitStream
  | 0, pos, bs => if pos < samples.length then .error .loopBound else .ok bs
  | fuel + 1, pos, bs =>
    if pos < samples.length then
      let blockEnd := min (pos + 1024) samples.length
      let residuals := blockResiduals samples predictor pos blockEnd
      let m := if adaptiveM then estimateGolombParameter ceilLog residuals else fixedM
      let bs := BitStream.write_n_bits bs m 16
      match newCoder m negativeMode with
      | .error e => .error e
      | .ok golomb =>
        let bs := writeResiduals golomb bs residuals
        encodeChannelLoop ceilLog samples predictor adaptiveM fixedM negativeMode fuel
          blockEnd bs
    else .ok bs

/-- The function `encodeChannel(samples, bs, predictor, adaptiveM, fixedM, negativeMode)`;
the result is the stream after the call. Every iteration of its loop advances `pos` by at
least one sample, so `samples.size()` iterations are enough. -/
def encodeChannel (ceilLog : Nat → Nat → Nat) (samples : List Int) (bs : BitStream)
    (predictor : PredictorType) (adaptiveM : Bool) (fixedM : Nat)
    (negativeMode : NegativeMode) : Except CodecError BitStream :=
  encodeChannelLoop ceilLog samples predictor adaptiveM fixedM negativeMode samples.length 0 bs

/-- The loop `for (i = 0; i < blockSize; i++)` of `decodeChannel`: one residual is read,
the sample is rebuilt as `clamp(prediction + residual)` and appended. -/
def decodeBlock (golomb : GolombCoding) (m : Nat) (predictor : PredictorType) :
    Nat → BitStream → List Int → Except CodecError (List Int × BitStream)
  | 0, bs, samples => .ok (samples, bs)
  | count + 1, bs, samples =>
    match readResidual golomb m bs with
    | .error e => .error e
    | .ok (residual, bs) =>
      let prediction := predict samples samples.length predictor
      let sample := clampInt (toI32 (prediction + residual)) (-32768) 32767
      decodeBlock golomb m predictor count bs (samples ++ [toI16 sample])

/-- The `while (pos < numSamples)` loop of `decodeChannel`; `fuel` bounds the number of
iterations. -/
def decodeChannelLoop (numSamples : Nat) (predictor : PredictorType)
    (negativeMode : NegativeMode) :
    Nat → Nat → BitStream → List Int → Except CodecError (List Int × BitStream)
  | 0, pos, bs, samples => if pos < numSamples then .error .loopBound else .ok (samples, bs)
  | fuel + 1, pos, bs, samples =>
    if pos < numSamples then
      match BitStream.read_n_bits bs 16 with
      | none => .error .endOfStream
      | some (m, bs) =>
        let blockEnd := min (pos + 1024) numSamples
        let blockSize := blockEnd - pos
        match newCoder m negativeMode with
        | .error e => .error e
        | .ok golomb =>
          match decodeBlock golomb m predictor blockSize bs samples with
          | .error e => .error e
          | .ok (samples, bs) =>
            decodeChannelLoop numSamples predictor negativeMode fuel blockEnd bs samples
    else .ok (samples, bs)

/-- The function `decodeChannel(bs, numSamples, predictor, negativeMode)`; the result is
the decoded samples and the stream after the call. -/
def decodeChannel (bs : BitStream) (numSamples : Nat) (predictor : PredictorType)
    (negativeMode : NegativeMode) : Except CodecError (List Int × BitStream) :=
  decodeChannelLoop numSamples predictor negativeMode numSamples 0 bs []

end AudioCodec

/-! ## image_codec.cpp -/

namespace ImageCodec

/-- The `enum class PredictorType` of `image_codec.cpp`, as its underlying `int`: the
decoder obtains it by `static_cast` from the header field, so it can hold any code. -/
abbrev PredictorType := Int

/-- The enumerator `PredictorType::LEFT`. -/
def LEFT : PredictorType := 0
/-- The enumerator `PredictorType::TOP`. -/
def TOP : PredictorType := 1
/-- The enumerator `PredictorType::TOP_LEFT`. -/
def TOP_LEFT : PredictorType := 2
/-- The enumerator `PredictorType::AVG`. -/
def AVG : PredictorType := 3
/-- The enumerator `PredictorType::PAETH`. -/
def PAETH : PredictorType := 4
/-- The enumerator `PredictorType::A_PLUS_HALF_B_MINUS_C`. -/
def A_PLUS_HALF_B_MINUS_C : PredictorType := 5
/-- The enumerator `PredictorType::B_PLUS_HALF_A_MINUS_C`. -/
def B_PLUS_HALF_A_MINUS_C : PredictorType := 6

/-- An 8-bit single-channel `cv::Mat`: its dimensions and its pixels in row-major
order. -/
structure Mat where
  rows : Nat
  cols : Nat
  data : List Nat
  deriving DecidableEq

/-- The read access `img.at<uint8_t>(row, col)`. -/
def Mat.pixelAt (img : Mat) (row col : Nat) : Nat := img.data.getD (row * img.cols + col) 0

/-- The write access `img.at<uint8_t>(row, col) = value`. -/
def Mat.setPixel (img : Mat) (row col : Nat) (value : Nat) : Mat :=
  { img with data := img.data.set (row * img.cols + col) value }

/-- The function `predict(img, row, col, predictor)`. The `switch` has no case for
`TOP_LEFT`, which therefore takes the `default` branch. -/
def predict (img : Mat) (row col : Nat) (predictor : PredictorType) : Int :=
  let left : Int := if col > 0 then (img.pixelAt row (col - 1) : Int) else 128
  let top : Int := if row > 0 then (img.pixelAt (row - 1) col : Int) else 128
  let topLeft : Int :=
    if row > 0 ∧ col > 0 then (img.pixelAt (row - 1) (col - 1) : Int) else 128
  if predictor = LEFT then left
  else if predictor = TOP then top
  else if predictor = AVG then Int.tdiv (left + top) 2
  else if predictor = PAETH then
    let p := left + top - topLeft
    let pa := |p - left|
    let pb := |p - top|
    let pc := |p - topLeft|
    if pa ≤ pb ∧ pa ≤ pc then left
    else if pb ≤ pc then top
    else topLeft
  else if predictor = A_PLUS_HALF_B_MINUS_C then left + Int.tdiv (top - topLeft) 2
  else if predictor = B_PLUS_HALF_A_MINUS_C then top + Int.tdiv (left - topLeft) 2
  else 128

/-- The copy of `estimateGolombParameter` in `image_codec.cpp`, modelled like the one of
`audio_codec.cpp`: the test `mean < 0.5` is exact, the floating-point expression
`static_cast<unsigned int>(std::ceil(-1.0 / std::log2(mean / (mean + 1.0))))` is the
parameter `ceilLog`, and `std::clamp(m, 1u, 65535u)` is applied to its value. -/
def estimateGolombParameter (ceilLog : Nat → Nat → Nat) (residuals : List Int) : Nat :=
  if residuals.isEmpty then 1
  else
    let sum := (residuals.map Int.natAbs).sum
    let count := residuals.length
    if 2 * sum < count then 1
    else
      let m := ceilLog sum count
      if m < 1 then 1 else if 65535 < m then 65535 else m

/-- The index pairs visited by
`for (row = 0; row < rows; row++) for (col = 0; col < cols; col++)`, in order. -/
def raster (rows cols : Nat) : List (Nat × Nat) :=
  (List.range rows).flatMap (fun row => (List.range cols).map (fun col => (row, col)))

/-- The variables of the pixel loop of `encodeImage`. -/
structure EncState where
  residuals : List Int
  pixelCount : Nat
  bs : BitStream
  deriving DecidableEq

/-- The body of the pixel loop of `encodeImage` (lines 140-161) at `(row, col)`. -/
def encodePixel (ceilLog : Nat → Nat → Nat) (img : Mat) (predictor : PredictorType)
    (adaptiveM : Bool) (fixedM : Nat) (negativeMode : NegativeMode) (totalPixels : Nat)
    (st : EncState) (rc : Nat × Nat) : Except CodecError EncState :=
  let pixel := img.pixelAt rc.1 rc.2
  let prediction := predict img rc.1 rc.2 predictor
  let residual := toI32 ((pixel : Int) - prediction)
  let residuals := st.residuals ++ [residual]
  let pixelCount := st.pixelCount + 1
  if residuals.length ≥ 256 ∨ pixelCount ≥ totalPixels then
    let m := if adaptiveM then estimateGolombParameter ceilLog residuals else fixedM
    let bs := BitStream.write_n_bits st.bs m 16
    match newCoder m negativeMode with
    | .error e => .error e
    | .ok golomb =>
      .ok { residuals := [], pixelCount := pixelCount, bs := writeResiduals golomb bs residuals }
  else
    .ok { residuals := residuals, pixelCount := pixelCount, bs := st.bs }

/-- The pixel loop of `encodeImage` over the positions still to visit. -/
def encodeLoop (ceilLog : Nat → Nat → Nat) (img : Mat) (predictor : PredictorType)
    (adaptiveM : Bool) (fixedM : Nat) (negativeMode : NegativeMode) (totalPixels : Nat) :
    List (Nat × Nat) → EncState → Except CodecError EncState
  | [], st => .ok st
  | rc :: rest, st =>
    match encodePixel ceilLog img predictor adaptiveM fixedM negativeMode totalPixels st rc with
    | .error e => .error e
    | .ok st => encodeLoop ceilLog img predictor adaptiveM fixedM negativeMode totalPixels rest st

/-- The payload part of `encodeImage` (lines 131-163): the stream after the pixel loop,
started on the stream `bs`. -/
def encodePixels (ceilLog : Nat → Nat → Nat) (img : Mat) (predictor : PredictorType)
    (adaptiveM : Bool) (fixedM : Nat) (negativeMode : NegativeMode) (bs : BitStream) :
    Except CodecError BitStream :=
  match encodeLoop ceilLog img predictor adaptiveM fixedM negativeMode (img.rows * img.cols)
      (raster img.rows img.cols) { residuals := [], pixelCount := 0, bs := bs } with
  | .error e => .error e
  | .ok st => .ok st.bs

/-- The variables of the pixel loop of `decodeImage`. -/
structure DecState where
  img : Mat
  pixelCount : Nat
  m : Nat
  bs : BitStream
  deriving DecidableEq

/-- The body of the pixel loop of `decodeImage` (lines 235-269) at `(row, col)`. -/
def decodePixel (predictor : PredictorType) (negativeMode : NegativeMode) (st : DecState)
    (rc : Nat × Nat) : Except CodecError DecState :=
  let header : Option (Nat × BitStream) :=
    if st.pixelCount % 256 = 0 then BitStream.read_n_bits st.bs 16 else some (st.m, st.bs)
  match header with
  | none => .error .endOfStream
  | some (m, bs) =>
    match newCoder m negativeMode with
    | .error e => .error e
    | .ok golomb =>
      match readResidual golomb m bs with
      | .error e => .error e
      | .ok (residual, bs) =>
        let prediction := predict st.img rc.1 rc.2 predictor
        let pixel := clampInt (toI32 (prediction + residual)) 0 255
        .ok { img := st.img.setPixel rc.1 rc.2 (pixel % 256).toNat,
              pixelCount := st.pixelCount + 1, m := m, bs := bs }

/-- The pixel loop of `decodeImage` over the positions still to visit. -/
def decodeLoop (predictor : PredictorType) (negativeMode : NegativeMode) :
    List (Nat × Nat) → DecState → Except CodecError DecState
  | [], st => .ok st
  | rc :: rest, st =>
    match decodePixel predictor negativeMode st rc with
    | .error e => .error e
    | .ok st => decodeLoop predictor negativeMode rest st

/-- The payload part of `decodeImage` (lines 228-271): the image and the stream after the
pixel loop. `m` is the value read from the header and `initial` the content of the
freshly allocated `cv::Mat img(height, width, CV_8UC1)`, which the source does not
initialise. -/
def decodePixels (height width : Nat) (predictor : PredictorType)
    (negativeMode : NegativeMode) (m : Nat) (initial : List Nat) (bs : BitStream) :
    Except CodecError (Mat × BitStream) :=
  match decodeLoop predictor negativeMode (raster height width)
      { img := { rows := height, cols := width, data := initial }, pixelCount := 0, m := m,
        bs := bs } with
  | .error e => .error e
  | .ok st => .ok (st.img, st.bs)

end ImageCodec

/-! ## Container headers and command-line options -/

/-- The value of a 64-bit two's complement `int64_t` that is assigned the integer `x`. -/
def toI64 (x : Int) : Int :=
  (x + 9223372036854775808) % 18446744073709551616 - 9223372036854775808

/-- The value of a 64-bit unsigned integer that is assigned the integer `x`. -/
def toU64 (x : Int) : Nat := (x % 18446744073709551616).toNat

/-- The cast `static_cast<int>(negativeMode)`: the enumerators of `NegativeMode` have no
initialisers, so they are numbered in the order of their declaration. -/
def NegativeMode.toInt : NegativeMode → Int
  | .SIGN_MAGNITUDE => 0
  | .INTERLEAVED => 1

/-- The cast `static_cast<GolombCoding::NegativeMode>(negMode)`. Every use of the mode in
`Golomb.h` is a test `mode == SIGN_MAGNITUDE`, so a code other than 0 acts as
`INTERLEAVED`. -/
def NegativeMode.ofInt (code : Int) : NegativeMode :=
  if code = 0 then .SIGN_MAGNITUDE else .INTERLEAVED

/-- The `size` bytes that `write(reinterpret_cast<const char*>(&x), size)` puts out for an
unsigned value: its object representation, least significant byte first (the format is
little-endian). -/
def leBytes (value : Nat) : Nat → List Nat
  | 0 => []
  | size + 1 => value % 256 :: leBytes (value / 256) size

/-- The unsigned value whose object representation, least significant byte first, is
`bytes`. -/
def leValue : List Nat → Nat
  | [] => 0
  | byte :: rest => byte + 256 * leValue rest

/-- The call `read(buffer, size)` on a file stream: the next `size` bytes and the bytes
after them, or `none` when the file ends before. -/
def readBytes (size : Nat) (file : List Nat) : Option (List Nat × List Nat) :=
  if size ≤ file.length then some (file.take size, file.drop size) else none

/-- The call `read(reinterpret_cast<char*>(&x), sizeof(int))` for an `int x`. -/
def readInt (file : List Nat) : Option (Int × List Nat) :=
  match readBytes 4 file with
  | none => none
  | some (bytes, rest) => some (toI32 (leValue bytes : Nat), rest)

/-- The call `read(reinterpret_cast<char*>(&x), sizeof(unsigned int))` for an
`unsigned int x`. -/
def readUnsigned (file : List Nat) : Option (Nat × List Nat) :=
  match readBytes 4 file with
  | none => none
  | some (bytes, rest) => some (leValue bytes, rest)

/-- The call `read(reinterpret_cast<char*>(&x), sizeof(int64_t))` for an `int64_t x`. -/
def readInt64 (file : List Nat) : Option (Int × List Nat) :=
  match readBytes 8 file with
  | none => none
  | some (bytes, rest) => some (toI64 (leValue bytes : Nat), rest)

/-- The ways reading a container header ends without the header fields. -/
inductive HeaderError
  /-- The magic check failed: "not a valid AGOL audio file" / "not a valid GIMG image
  file". -/
  | invalidMagic
  /-- A field read ran past the end of the file. The source does not test for it and
  goes on with unset variables; the model stops here. -/
  | shortRead
  deriving DecidableEq

namespace AudioCodec

/-- The `enum class StereoMode` of `audio_codec.cpp`, as its underlying `int`. -/
abbrev StereoMode := Int

/-- The enumerator `StereoMode::INDEPENDENT`. -/
def INDEPENDENT : StereoMode := 0
/-- The enumerator `StereoMode::MID_SIDE`. -/
def MID_SIDE : StereoMode := 1

/-- The four bytes of the string "AGOL". -/
def magicAGOL : List Nat := [65, 71, 79, 76]

/-- The header write of the audio encoder (`main`, lines 461-476): the magic, then each
field by its own `write` call. -/
def writeHeader (channels sampleRate frames : Int) (predictor : PredictorType)
    (stereoMode : StereoMode) (adaptiveM : Bool) (fixedM : Nat)
    (negativeMode : NegativeMode) : List Nat :=
  let predType : Int := toI32 predictor
  let stereoType : Int := toI32 stereoMode
  let adaptive : Int := if adaptiveM then 1 else 0
  let negMode : Int := negativeMode.toInt
  magicAGOL ++ leBytes (toU32 channels) 4 ++ leBytes (toU32 sampleRate) 4 ++
    leBytes (toU64 frames) 8 ++ leBytes (toU32 predType) 4 ++ leBytes (toU32 stereoType) 4 ++
    leBytes (toU32 adaptive) 4 ++ leBytes (fixedM % 4294967296) 4 ++
    leBytes (toU32 negMode) 4

/-- The variables that the audio decoder fills from the header (`main`, lines 247-261). -/
structure Header where
  channels : Int
  sampleRate : Int
  frames : Int
  predType : Int
  stereoType : Int
  adaptive : Int
  m : Nat
  negMode : Int
  deriving DecidableEq

/-- The cast `static_cast<PredictorType>(predType)` of the audio decoder. -/
def Header.predictor (h : Header) : PredictorType := h.predType

/-- The cast `static_cast<StereoMode>(stereoType)` of the audio decoder. -/
def Header.stereoMode (h : Header) : StereoMode := h.stereoType

/-- The cast `static_cast<GolombCoding::NegativeMode>(negMode)` of the audio decoder. -/
def Header.negativeMode (h : Header) : NegativeMode := NegativeMode.ofInt h.negMode

/-- The header read of the audio decoder (`main`, lines 240-261): the magic check, then
the fields in the order of the `read` calls. A short read of the magic leaves part of the
buffer unset; the model compares what was read. -/
def readHeader (file : List Nat) : Except HeaderError Header :=
  if file.take 4 ≠ magicAGOL then .error .invalidMagic
  else
    match readInt (file.drop 4) with
    | none => .error .shortRead
    | some (channels, file) =>
    match readInt file with
    | none => .error .shortRead
    | some (sampleRate, file) =>
    match readInt64 file with
    | none => .error .shortRead
    | some (frames, file) =>
    match readInt file with
    | none => .error .shortRead
    | some (predType, file) =>
    match readInt file with
    | none => .error .shortRead
    | some (stereoType, file) =>
    match readInt file with
    | none => .error .shortRead
    | some (adaptive, file) =>
    match readUnsigned file with
    | none => .error .shortRead
    | some (m, file) =>
    match readInt file with
    | none => .error .shortRead
    | some (negMode, _) =>
      .ok { channels := channels, sampleRate := sampleRate, frames := frames,
            predType := predType, stereoType := stereoType, adaptive := adaptive, m := m,
            negMode := negMode }

/-- The argument of `fs.seekg(...)` before the payload is read (`main`, line 279):
`4 + sizeof(int) * 6 + sizeof(int64_t) + sizeof(unsigned int)`. -/
def payloadOffset : Nat := 4 + 4 * 6 + 8 + 4

/-- The check of the `-m` option (`main`, lines 376-381): the `int` returned by `atoi` is
assigned to the `unsigned int fixedM`, which is rejected when `fixedM < 1`. The result is
the accepted `fixedM`. -/
def checkFixedM (atoiValue : Int) : Option Nat :=
  let fixedM := toU32 atoiValue
  if fixedM < 1 then none else some fixedM

end AudioCodec

namespace ImageCodec

/-- The four bytes of the string "GIMG". -/
def magicGIMG : List Nat := [71, 73, 77, 71]

/-- The header write of `encodeImage` (lines 111-124); `width` is `img.cols` and `height`
is `img.rows`. -/
def writeHeader (width height : Int) (predictor : PredictorType) (adaptiveM : Bool)
    (fixedM : Nat) (negativeMode : NegativeMode) : List Nat :=
  let predType : Int := toI32 predictor
  let adaptive : Int := if adaptiveM then 1 else 0
  let negMode : Int := negativeMode.toInt
  magicGIMG ++ leBytes (toU32 width) 4 ++ leBytes (toU32 height) 4 ++
    leBytes (toU32 predType) 4 ++ leBytes (toU32 adaptive) 4 ++
    leBytes (fixedM % 4294967296) 4 ++ leBytes (toU32 negMode) 4

/-- The variables that `decodeImage` fills from the header (lines 201-209). -/
structure Header where
  width : Int
  height : Int
  predType : Int
  adaptive : Int
  m : Nat
  negMode : Int
  deriving DecidableEq

/-- The cast `static_cast<PredictorType>(predType)` of `decodeImage`. -/
def Header.predictor (h : Header) : PredictorType := h.predType

/-- The cast `static_cast<GolombCoding::NegativeMode>(negMode)` of `decodeImage`. -/
def Header.negativeMode (h : Header) : NegativeMode := NegativeMode.ofInt h.negMode

/-- The header read of `decodeImage` (lines 194-209): the magic check, then the fields in
the order of the `read` calls. A short read of the magic leaves part of the buffer unset;
the model compares what was read. -/
def readHeader (file : List Nat) : Except HeaderError Header :=
  if file.take 4 ≠ magicGIMG then .error .invalidMagic
  else
    match readInt (file.drop 4) with
    | none => .error .shortRead
    | some (width, file) =>
    match readInt file with
    | none => .error .shortRead
    | some (height, file) =>
    match readInt file with
    | none => .error .shortRead
    | some (predType, file) =>
    match readInt file with
    | none => .error .shortRead
    | some (adaptive, file) =>
    match readUnsigned file with
    | none => .error .shortRead
    | some (m, file) =>
    match readInt file with
    | none => .error .shortRead
    | some (negMode, _) =>
      .ok { width := width, height := height, predType := predType, adaptive := adaptive,
            m := m, negMode := negMode }

/-- The argument of `fs.seekg(...)` before the payload is read (`decodeImage`, line 224):
`4 + sizeof(int) * 5 + sizeof(unsigned int)`. -/
def payloadOffset : Nat := 4 + 4 * 5 + 4

/-- The check of the `-m` option of the image encoder (`main`, lines 345-350), the same
statements as in the audio encoder. -/
def checkFixedM (atoiValue : Int) : Option Nat :=
  let fixedM := toU32 atoiValue
  if fixedM < 1 then none else some fixedM

end ImageCodec

/-! ## The payload part of the encoders and decoders -/

/-- Modelled from the spec: the read side of the absent `BitStream` class over a byte
source. Following §3 and §4.2, bits are packed MSB first within each byte: bit 7 of byte
`k` is bit `8·k` of the stream. -/
def BitStream.ofBytes (bytes : List Nat) : BitStream :=
  bytes.flatMap (fun byte => BitStream.msbFirst byte 8)

/-- The ways a run of an encoder or decoder program ends without a result. -/
inductive MainError
  /-- The header was not read. -/
  | header (e : HeaderError)
  /-- The payload loop failed (an exception, a read failure). -/
  | codec (e : CodecError)
  /-- "Error: only mono and stereo audio supported". -/
  | unsupportedChannels
  /-- The constructor of `cv::Mat` rejects a negative size. -/
  | allocation
  deriving DecidableEq

namespace AudioCodec

/-- The loop `for (i = 0; i < frames; i++) { left.push_back(samples[i * 2]);
right.push_back(samples[i * 2 + 1]); }` of the stereo encoder. -/
def deinterleave (samples : List Int) (frames : Nat) : List Int × List Int :=
  ((List.range frames).map (fun i => samples.getD (i * 2) 0),
   (List.range frames).map (fun i => samples.getD (i * 2 + 1) 0))

/-- The loop `for (i = 0; i < frames; i++) { samples.push_back(ch1[i]);
samples.push_back(ch2[i]); }` of the stereo decoder. -/
def interleave (ch1 ch2 : List Int) (frames : Nat) : List Int :=
  (List.range frames).flatMap (fun i => [ch1.getD i 0, ch2.getD i 0])

/-- The payload part of the audio encoder (`main`, lines 486-515): one channel stream for
mono; for stereo the two channel streams, (mid, side) in mid-side mode and (left, right)
otherwise; any other channel count is an error. The result is the stream after the
calls. -/
def encodePayload (ceilLog : Nat → Nat → Nat) (samples : List Int) (channels : Int)
    (frames : Nat) (bs : BitStream) (predictor : PredictorType) (stereoMode : StereoMode)
    (adaptiveM : Bool) (fixedM : Nat) (negativeMode : NegativeMode) :
    Except MainError BitStream :=
  if channels = 1 then
    match encodeChannel ceilLog samples bs predictor adaptiveM fixedM negativeMode with
    | .error e => .error (.codec e)
    | .ok bs => .ok bs
  else if channels = 2 then
    let (left, right) := deinterleave samples frames
    if stereoMode = MID_SIDE then
      let (mid, side) := convertToMidSide left right
      match encodeChannel ceilLog mid bs predictor adaptiveM fixedM negativeMode with
      | .error e => .error (.codec e)
      | .ok bs =>
        match encodeChannel ceilLog side bs predictor adaptiveM fixedM negativeMode with
        | .error e => .error (.codec e)
        | .ok bs => .ok bs
    else
      match encodeChannel ceilLog left bs predictor adaptiveM fixedM negativeMode with
      | .error e => .error (.codec e)
      | .ok bs =>
        match encodeChannel ceilLog right bs predictor adaptiveM fixedM negativeMode with
        | .error e => .error (.codec e)
        | .ok bs => .ok bs
  else .error .unsupportedChannels

/-- The payload part of the audio decoder (`main`, lines 283-310); `frames` is the header
value converted to `size_t`. For a channel count other than 1 and 2 the source decodes
nothing and `samples` stays empty. -/
def decodePayload (bs : BitStream) (channels : Int) (frames : Nat)
    (predictor : PredictorType) (stereoMode : StereoMode) (negativeMode : NegativeMode) :
    Except MainError (List Int) :=
  if channels = 1 then
    match decodeChannel bs frames predictor negativeMode with
    | .error e => .error (.codec e)
    | .ok (samples, _) => .ok samples
  else if channels = 2 then
    match decodeChannel bs frames predictor negativeMode with
    | .error e => .error (.codec e)
    | .ok (ch1, bs) =>
      match decodeChannel bs frames predictor negativeMode with
      | .error e => .error (.codec e)
      | .ok (ch2, _) =>
        if stereoMode = MID_SIDE then
          let (left, right) := convertFromMidSide ch1 ch2
          .ok (interleave left right frames)
        else
          .ok (interleave ch1 ch2 frames)
  else .ok []

/-- The decoding branch of `main` up to the decoded samples (lines 233-310): the header
read with its magic check, the seek to the payload, and the payload part. -/
def decodeFile (file : List Nat) : Except MainError (Header × List Int) :=
  match readHeader file with
  | .error e => .error (.header e)
  | .ok h =>
    let bs := BitStream.ofBytes (file.drop payloadOffset)
    match decodePayload bs h.channels (toU64 h.frames) h.predictor h.stereoMode
        h.negativeMode with
    | .error e => .error e
    | .ok samples => .ok (h, samples)

end AudioCodec

namespace ImageCodec

/-- The function `decodeImage` up to the decoded image (lines 188-271): the header read
with its magic check, the seek to the payload, the allocation of the output image and
the pixel loop. `initial` is the content of the freshly allocated image. -/
def decodeImage (file : List Nat) (initial : List Nat) : Except MainError (Header × Mat) :=
  match readHeader file with
  | .error e => .error (.header e)
  | .ok h =>
    let bs := BitStream.ofBytes (file.drop payloadOffset)
    if h.height < 0 ∨ h.width < 0 then .error .allocation
    else
      match decodePixels h.height.toNat h.width.toNat h.predictor h.negativeMode h.m initial
          bs with
      | .error e => .error (.codec e)
      | .ok (img, _) => .ok (h, img)

end ImageCodec
/-! ## Auxiliary definitions for the proofs -/

namespace GolombCoding

/-- The parameter invariant of a coder: `m` is a positive 32-bit value, `b` is
`floor(log2 m)` and `cutoff` is `2^(b+1) - m`. -/
def Valid (g : GolombCoding) : Prop :=
  1 ≤ g.m ∧ g.m < 4294967296 ∧ 2 ^ g.b ≤ g.m ∧ g.m < 2 ^ (g.b + 1) ∧
    g.cutoff = 2 ^ (g.b + 1) - g.m

instance instDecidableValid (g : GolombCoding) : Decidable g.Valid := by
  unfold Valid
  infer_instance

/-- One step of the remainder loop of `decodeUnsigned`: `r = (r << 1) | bit`. -/
def shiftIn (r : Nat) (c : Bool) : Nat := ((r <<< 1) % 4294967296) ||| c.toNat

/-- What `decodeUnsigned` does once it has scanned `q` zero bits and the terminating one
bit, when `tail` are the bits that follow the terminator. The consumed bit count includes
the unary part. -/
def decodeTail (g : GolombCoding) (q : Nat) (tail : List Bool) :
    Except GolombError (Nat × Nat) :=
  if g.b > tail.length then
    .error .incompleteRemainder
  else
    let r := (tail.take g.b).foldl shiftIn 0
    if r < g.cutoff then
      .ok ((q % 4294967296 * g.m + r) % 4294967296, q + 1 + g.b)
    else if g.b ≥ tail.length then
      .error .incompleteRemainder
    else
      .ok (toU32 ((q % 4294967296 * g.m + shiftIn r (tail.getD g.b false) : Nat) -
        (g.cutoff : Int)), q + 1 + g.b + 1)

/-- The remainder part of a codeword: what `encodeUnsigned` appends after the unary
terminator for the remainder `r`. -/
def remainderBits (g : GolombCoding) (r : Nat) : List Bool :=
  if r < g.cutoff then pushBits r g.b else pushBits ((r + g.cutoff) % 4294967296) (g.b + 1)

/-- The values a coder maps without leaving the 32-bit `int` range: every `int` but the
smallest in sign-magnitude mode, and `|n| < 2^30` in interleaved mode (where the mapping
doubles the magnitude). -/
def InRange (g : GolombCoding) (n : Int) : Prop :=
  match g.mode with
  | .SIGN_MAGNITUDE => -2147483648 < n ∧ n < 2147483648
  | .INTERLEAVED => -1073741824 < n ∧ n < 1073741824

instance instDecidableInRange (g : GolombCoding) (n : Int) : Decidable (g.InRange n) := by
  unfold InRange
  cases g.mode <;> simp only <;> infer_instance

end GolombCoding

/-- The value of a bit sequence read as a binary numeral, most significant bit first:
a remainder "written MSB first in `k` bits" is the sequence of length `k` with that
value. -/
def msbValue (bits : List Bool) : Nat := bits.foldl (fun acc c => 2 * acc + c.toNat) 0

/-- The range of an `int16_t`. -/
def IsInt16 (x : Int) : Prop := -32768 ≤ x ∧ x ≤ 32767

instance instDecidableIsInt16 (x : Int) : Decidable (IsInt16 x) := by
  unfold IsInt16
  infer_instance

namespace ImageCodec

/-- The position of the `k`-th pixel in raster order of an image with `cols` columns. -/
def posOf (cols k : Nat) : Nat × Nat := (k / cols, k % cols)

/-- The residual that `encodeImage` computes for the `k`-th pixel in raster order. -/
def resAt (img : Mat) (predictor : PredictorType) (k : Nat) : Int :=
  toI32 ((img.pixelAt (k / img.cols) (k % img.cols) : Int) -
    predict img (k / img.cols) (k % img.cols) predictor)

end ImageCodec

/-! ## Definitions that follow the words of the specification -/

/-- The function `clamp16(x) = max(−32768, min(32767, x))` of the specification, on exact
integers. -/
def clamp16 (x : Int) : Int := max (-32768) (min 32767 x)

/-- Integer division by two that truncates toward zero, as the specification reads `/ 2`:
the magnitude is halved and rounded down, and the sign is kept. -/
def truncHalf (x : Int) : Int := if x < 0 then -((-x) / 2) else x / 2

/-- The Paeth selection of the specification: with `p = A + B − C`, the one among `A`,
`B`, `C` with the smallest `|p − x|`, the first such in the order `A`, `B`, `C`. -/
def paethSpec (A B C : Int) : Int :=
  let p := A + B - C
  let smallest := min |p - A| (min |p - B| |p - C|)
  if |p - A| = smallest then A else if |p - B| = smallest then B else C

namespace ImageCodec

/-- The neighbour `A` (left) of the position `(row, col)`, 128 when it lies outside the
image: the local `left` of `predict`. -/
def neighbourA (img : Mat) (row col : Nat) : Int :=
  if col > 0 then (img.pixelAt row (col - 1) : Int) else 128

/-- The neighbour `B` (top) of the position `(row, col)`, 128 when it lies outside the
image: the local `top` of `predict`. -/
def neighbourB (img : Mat) (row col : Nat) : Int :=
  if row > 0 then (img.pixelAt (row - 1) col : Int) else 128

/-- The neighbour `C` (top-left) of the position `(row, col)`, 128 when it lies outside
the image: the local `topLeft` of `predict`. -/
def neighbourC (img : Mat) (row col : Nat) : Int :=
  if row > 0 ∧ col > 0 then (img.pixelAt (row - 1) (col - 1) : Int) else 128

end ImageCodec


/-! ## The block structure of a channel stream -/

namespace AudioCodec

/-- The number of iterations of the `while (pos < numSamples)` loops of `encodeChannel`
and `decodeChannel`, which advance `pos` by `BLOCK_SIZE = 1024` up to `n`: the ceiling of
`n / 1024`. -/
def blockCount (n : Nat) : Nat := (n + 1023) / 1024

/-- The value of `blockEnd - pos` in iteration `j` of the block loops, where
`pos = 1024 * j` and `blockEnd = std::min(pos + BLOCK_SIZE, numSamples)`. -/
def blockSize (n j : Nat) : Nat := min (1024 * j + 1024) n - 1024 * j

/-- The value of `m` in iteration `j` of the loop of `encodeChannel` (line 140):
`adaptiveM ? estimateGolombParameter(residuals) : fixedM`, for the residuals of the block
that starts at `1024 * j`. -/
def blockM (ceilLog : Nat → Nat → Nat) (samples : List Int) (predictor : PredictorType)
    (adaptiveM : Bool) (fixedM : Nat) (j : Nat) : Nat :=
  if adaptiveM then
    estimateGolombParameter ceilLog
      (blockResiduals samples predictor (1024 * j) (min (1024 * j + 1024) samples.length))
  else fixedM

/-- The decoding of a channel stream as the specification describes it: the stream is a
sequence of blocks whose sizes are known beforehand; each block is a 16-bit `m` followed
by as many codewords as the block has samples. The body of one step is the body of the
loop of `decodeChannel`. -/
def decodeBlocks (predictor : PredictorType) (negativeMode : NegativeMode) :
    List Nat → BitStream → List Int → Except CodecError (List Int × BitStream)
  | [], bs, samples => .ok (samples, bs)
  | size :: sizes, bs, samples =>
    match BitStream.read_n_bits bs 16 with
    | none => .error .endOfStream
    | some (m, bs) =>
      match newCoder m negativeMode with
      | .error e => .error e
      | .ok golomb =>
        match decodeBlock golomb m predictor size bs samples with
        | .error e => .error e
        | .ok (samples, bs) => decodeBlocks predictor negativeMode sizes bs samples

end AudioCodec

/-! ## Successive decoding, element accesses, and bytes of a bit stream -/

namespace GolombCoding

/-- Successive calls of `decode` on one bit sequence: `count` values are decoded one
after another, each call starting at the bit after the codeword the previous call
consumed. The result is the decoded values and the position after the last codeword. -/
def decodeMany (g : GolombCoding) (bits : List Bool) :
    Nat → Nat → Except GolombError (List Int × Nat)
  | 0, start => .ok ([], start)
  | count + 1, start =>
    match g.decode bits start with
    | .error e => .error e
    | .ok (value, used) =>
      match decodeMany g bits count (start + used) with
      | .error e => .error e
      | .ok (values, pos) => .ok (value :: values, pos)

/-- What a run of `decodeUnsigned` or `decode` could do besides returning a value or
throwing an exception. -/
inductive Fault
  /-- An element access `bits[pos]` with `pos ≥ bits.size()`. -/
  | outOfBounds
  /-- The iteration bound of the modelled `while` loop was reached. -/
  | loopBound
  deriving DecidableEq

/-- The element access `bits[pos]`, a fault when `pos` is not below `bits.size()`. -/
def readAt (bits : List Bool) (pos : Nat) : Except Fault Bool :=
  match bits[pos]? with
  | some c => .ok c
  | none => .error .outOfBounds

/-- The scan `while (pos < bits.size() && !bits[pos]) { q++; pos++; }` of
`decodeUnsigned` with its element accesses, from the values `q` and `pos`; `fuel` bounds
the number of evaluations of the loop condition. The result is the final `q` and `pos`. -/
def scanChecked (bits : List Bool) : Nat → Nat → Nat → Except Fault (Nat × Nat)
  | 0, _, _ => .error .loopBound
  | fuel + 1, q, pos =>
    if pos < bits.length then
      match readAt bits pos with
      | .error f => .error f
      | .ok c =>
        if c then .ok (q, pos)
        else scanChecked bits fuel ((q + 1) % 4294967296) (pos + 1)
    else .ok (q, pos)

/-- The loop `for (i = 0; i < count; i++) r = (r << 1) | bits[pos++];` of
`decodeUnsigned` with its element accesses. -/
def readBitsChecked (bits : List Bool) : Nat → Nat → Nat → Except Fault Nat
  | 0, _, r => .ok r
  | count + 1, pos, r =>
    match readAt bits pos with
    | .error f => .error f
    | .ok c =>
      readBitsChecked bits count (pos + 1) (((r <<< 1) % 4294967296) ||| c.toNat)

/-- The method `decodeUnsigned(bits, start)` with its element accesses made explicit:
the outer result is a fault, or what the method does (an exception or the pair
`(n, bits consumed)`). The scan is given `bits.size() + 1` evaluations of its
condition. -/
def decodeUnsignedChecked (g : GolombCoding) (bits : List Bool) (start : Nat) :
    Except Fault (Except GolombError (Nat × Nat)) :=
  if start ≥ bits.length then
    .ok (.error .startOutOfBounds)
  else
    match scanChecked bits (bits.length + 1) 0 start with
    | .error f => .error f
    | .ok (q, pos) =>
      if pos ≥ bits.length then
        .ok (.error .incompleteUnary)
      else
        let pos1 := pos + 1
        if pos1 + g.b > bits.length then
          .ok (.error .incompleteRemainder)
        else
          match readBitsChecked bits g.b pos1 0 with
          | .error f => .error f
          | .ok r =>
            let pos2 := pos1 + g.b
            if r < g.cutoff then
              .ok (.ok ((q * g.m + r) % 4294967296, pos2 - start))
            else if pos2 ≥ bits.length then
              .ok (.error .incompleteRemainder)
            else
              match readAt bits pos2 with
              | .error f => .error f
              | .ok c =>
                let r2 := ((r <<< 1) % 4294967296) ||| c.toNat
                .ok (.ok (toU32 ((q * g.m + r2 : Nat) - (g.cutoff : Int)), pos2 + 1 - start))

/-- The method `decode(bits, start)` with its element accesses made explicit. -/
def decodeChecked (g : GolombCoding) (bits : List Bool) (start : Nat) :
    Except Fault (Except GolombError (Int × Nat)) :=
  if start ≥ bits.length then
    .ok (.error .startOutOfBounds)
  else
    match g.mode with
    | .SIGN_MAGNITUDE =>
      match readAt bits start with
      | .error f => .error f
      | .ok isNegative =>
        match g.decodeUnsignedChecked bits (start + 1) with
        | .error f => .error f
        | .ok (.error e) => .ok (.error e)
        | .ok (.ok (magnitude, magnitudeBits)) =>
          .ok (.ok (g.mapToSigned magnitude isNegative, 1 + magnitudeBits))
    | .INTERLEAVED =>
      match g.decodeUnsignedChecked bits start with
      | .error f => .error f
      | .ok (.error e) => .ok (.error e)
      | .ok (.ok (mapped, usedBits)) => .ok (.ok (g.mapToSigned mapped false, usedBits))

end GolombCoding

namespace BitStream

/-- Modelled from the spec: a sequence of `write_n_bits(value, width)` calls on the
absent `BitStream` class, in order (§4.2, §7 "bit-stream transparency"). -/
def writeAll (bs : BitStream) (writes : List (Nat × Nat)) : BitStream :=
  writes.foldl (fun s w => write_n_bits s w.1 w.2) bs

/-- Modelled from the spec: a sequence of `read_n_bits(width)` calls on the absent
`BitStream` class, in order; the result is the values read and the stream after the
calls (§4.2). -/
def readAll : List Nat → BitStream → Option (List Nat × BitStream)
  | [], bs => some ([], bs)
  | width :: widths, bs =>
    match read_n_bits bs width with
    | none => none
    | some (value, bs) =>
      match readAll widths bs with
      | none => none
      | some (values, bs) => some (value :: values, bs)

/-- Modelled from the spec: the byte that holds eight bits of the stream, the first of
them in bit 7 (§3: bit index 7 of byte `k` is bit `8·k` of the stream). -/
def byteOf (b7 b6 b5 b4 b3 b2 b1 b0 : Bool) : Nat :=
  128 * b7.toNat + 64 * b6.toNat + 32 * b5.toNat + 16 * b4.toNat + 8 * b3.toNat +
    4 * b2.toNat + 2 * b1.toNat + b0.toNat

/-- Modelled from the spec: the bytes that hold a bit sequence, eight bits per byte, MSB
first; a trailing partial byte is completed with zero bits (§4.2). -/
def pack : List Bool → List Nat
  | b7 :: b6 :: b5 :: b4 :: b3 :: b2 :: b1 :: b0 :: rest =>
    byteOf b7 b6 b5 b4 b3 b2 b1 b0 :: pack rest
  | [] => []
  | bits =>
    [byteOf (bits.getD 0 false) (bits.getD 1 false) (bits.getD 2 false) (bits.getD 3 false)
      (bits.getD 4 false) (bits.getD 5 false) (bits.getD 6 false) false]

/-- Modelled from the spec: `close()` of the absent `BitStream` class: the written bits
packed into bytes with zero padding, followed by the end-of-stream marker byte
`1 0 0 0 0 0 0 0` (§4.2, §6). -/
def close (bs : BitStream) : List Nat := pack bs ++ [128]

end BitStream
/-! ## Machine integer lemmas -/

theorem toI32_of_range (x : Int) (h1 : -2147483648 ≤ x) (h2 : x < 2147483648) :
    toI32 x = x := by
  unfold toI32; omega

theorem toU32_of_range (x : Int) (h1 : 0 ≤ x) (h2 : x < 4294967296) :
    toU32 x = x.toNat := by
  unfold toU32; omega

theorem toU32_natCast (n : Nat) (h : n < 4294967296) : toU32 (n : Int) = n := by
  unfold toU32; omega

theorem toI16_of_range (x : Int) (h1 : -32768 ≤ x) (h2 : x ≤ 32767) : toI16 x = x := by
  unfold toI16; omega

theorem floorLog2Aux_spec (fuel : Nat) : ∀ m : Nat, m ≤ fuel → 1 ≤ m →
    2 ^ floorLog2Aux fuel m ≤ m ∧ m < 2 ^ (floorLog2Aux fuel m + 1) := by
  induction fuel with
  | zero => intro m h1 h2; omega
  | succ fuel ih =>
    intro m h1 h2
    unfold floorLog2Aux
    by_cases hm : m < 2
    · simp only [hm, if_true]
      constructor <;> simp <;> omega
    · simp only [hm, if_false]
      have h3 := ih (m / 2) (by omega) (by omega)
      obtain ⟨h4, h5⟩ := h3
      constructor
      · rw [pow_succ]; omega
      · rw [pow_succ]; omega

theorem floorLog2_spec (m : Nat) (h : 1 ≤ m) :
    2 ^ floorLog2 m ≤ m ∧ m < 2 ^ (floorLog2 m + 1) :=
  floorLog2Aux_spec m m (le_refl m) h

theorem floorLog2_eq_log2 (m : Nat) (h : 1 ≤ m) : floorLog2 m = Nat.log2 m := by
  obtain ⟨h1, h2⟩ := floorLog2_spec m h
  have hm : m ≠ 0 := by omega
  have h3 : Nat.log2 m < floorLog2 m + 1 := (Nat.log2_lt hm).mpr h2
  have h4 : ¬ Nat.log2 m < floorLog2 m := by
    intro h5
    have := (Nat.log2_lt hm).mp h5
    omega
  omega

theorem floorLog2_lt_32 (m : Nat) (h : 1 ≤ m) (h2 : m < 4294967296) : floorLog2 m < 32 := by
  obtain ⟨h1, _⟩ := floorLog2_spec m h
  by_contra hc
  have h3 : 2 ^ 32 ≤ 2 ^ floorLog2 m := Nat.pow_le_pow_right (by decide) (by omega)
  have h4 : (2 : Nat) ^ 32 = 4294967296 := by norm_num
  omega

namespace GolombCoding

theorem calculateParameters_ok (g : GolombCoding) (h1 : 1 ≤ g.m) (h2 : g.m < 4294967296) :
    calculateParameters g =
      .ok { g with b := floorLog2 g.m, cutoff := 2 ^ (floorLog2 g.m + 1) - g.m } := by
  obtain ⟨h3, h4⟩ := floorLog2_spec g.m h1
  have h5 := floorLog2_lt_32 g.m h1 h2
  have h6 : 2 ^ (floorLog2 g.m + 1) ≤ 2 ^ 32 := Nat.pow_le_pow_right (by decide) (by omega)
  have h7 : (2 : Nat) ^ 32 = 4294967296 := by norm_num
  have hm : g.m ≠ 0 := by omega
  unfold calculateParameters
  simp only [hm, if_false, Nat.one_shiftLeft]
  generalize hP : 2 ^ (floorLog2 g.m + 1) = P at *
  have h8 : toU32 (toI32 (P : Int) - (g.m : Int)) = P - g.m := by
    unfold toU32 toI32; omega
  rw [h8]

theorem new_ok (m : Nat) (mode : NegativeMode) (h1 : 1 ≤ m) (h2 : m < 4294967296) :
    GolombCoding.new m mode =
      .ok { m := m, b := floorLog2 m, cutoff := 2 ^ (floorLog2 m + 1) - m, mode := mode } := by
  unfold GolombCoding.new
  rw [calculateParameters_ok _ h1 h2]

theorem valid_of_new (m : Nat) (mode : NegativeMode) (g : GolombCoding)
    (h : GolombCoding.new m mode = .ok g) (h2 : m < 4294967296) :
    g.Valid ∧ g.m = m ∧ g.mode = mode := by
  have h1 : 1 ≤ m := by
    by_contra hc
    have : m = 0 := by omega
    subst this
    simp [GolombCoding.new, calculateParameters] at h
  rw [new_ok m mode h1 h2] at h
  injection h with h
  subst h
  obtain ⟨h3, h4⟩ := floorLog2_spec m h1
  exact ⟨⟨h1, h2, h3, h4, rfl⟩, rfl, rfl⟩

end GolombCoding

/-! ## Bit-level lemmas -/

namespace GolombCoding

theorem length_pushBits (x : Nat) : ∀ k : Nat, (pushBits x k).length = k := by
  intro k
  induction k with
  | zero => rfl
  | succ k ih => simp [pushBits, ih]

theorem toNat_bit (x k : Nat) : (((x >>> k) &&& 1) != 0).toNat = x / 2 ^ k % 2 := by
  rw [Nat.shiftRight_eq_div_pow, Nat.and_one_is_mod]
  rcases Nat.mod_two_eq_zero_or_one (x / 2 ^ k) with h | h <;> simp [h]

theorem shiftIn_eq (r : Nat) (c : Bool) (h : 2 * r + 1 < 4294967296) :
    shiftIn r c = 2 * r + c.toNat := by
  unfold shiftIn
  have h1 : r <<< 1 = 2 ^ 1 * r := by rw [Nat.shiftLeft_eq]; ring
  have h2 : c.toNat < 2 ^ 1 := by cases c <;> simp
  rw [h1, Nat.mod_eq_of_lt (by omega), ← Nat.mul_add_lt_is_or h2]

theorem readBits_eq_foldl (bits : List Bool) : ∀ (k pos r : Nat), pos + k ≤ bits.length →
    readBits bits k pos r = ((bits.drop pos).take k).foldl shiftIn r := by
  intro k
  induction k with
  | zero => intro pos r _; simp [readBits]
  | succ k ih =>
    intro pos r h
    have hpos : pos < bits.length := by omega
    have hd : bits.drop pos = bits[pos] :: bits.drop (pos + 1) :=
      List.drop_eq_getElem_cons hpos
    have hg : bits.getD pos false = bits[pos] := by
      simp [List.getD, List.getElem?_eq_getElem hpos]
    rw [readBits, ih (pos + 1) _ (by omega), hd, List.take_succ_cons, List.foldl_cons, hg]
    rfl

theorem foldl_shiftIn_pushBits (x : Nat) : ∀ (k acc : Nat), (acc + 1) * 2 ^ k ≤ 4294967296 →
    (pushBits x k).foldl shiftIn acc = acc * 2 ^ k + x % 2 ^ k := by
  intro k
  induction k with
  | zero => intro acc _; simp [pushBits, Nat.mod_one]
  | succ k ih =>
    intro acc h
    have hk : 0 < 2 ^ k := Nat.two_pow_pos k
    have h1 : (acc + 1) * 2 ^ (k + 1) = (2 * acc + 2) * 2 ^ k := by rw [pow_succ]; ring
    have h2 : 2 * acc + 2 ≤ 4294967296 := by
      by_contra hc
      have : (2 * acc + 2) * 2 ^ k ≥ (2 * acc + 2) * 1 := Nat.mul_le_mul_left _ hk
      omega
    rw [pushBits, List.foldl_cons, shiftIn_eq _ _ (by omega), toNat_bit]
    have h3 : (2 * acc + x / 2 ^ k % 2 + 1) * 2 ^ k ≤ 4294967296 := by
      have h4 : x / 2 ^ k % 2 < 2 := Nat.mod_lt _ (by decide)
      calc (2 * acc + x / 2 ^ k % 2 + 1) * 2 ^ k ≤ (2 * acc + 2) * 2 ^ k :=
            Nat.mul_le_mul_right _ (by omega)
        _ ≤ 4294967296 := by omega
    rw [ih _ h3, Nat.mod_pow_succ]
    ring

end GolombCoding

/-! ## The shape of `decodeUnsigned` on a unary run -/

namespace GolombCoding

theorem zeroRun_replicate_true (q : Nat) (tail : List Bool) :
    zeroRun (List.replicate q false ++ true :: tail) = q := by
  induction q with
  | zero => simp [zeroRun]
  | succ q ih => simp [List.replicate_succ, zeroRun, ih]

theorem zeroRun_replicate (q : Nat) : zeroRun (List.replicate q false) = q := by
  induction q with
  | zero => simp [zeroRun]
  | succ q ih => simp [List.replicate_succ, zeroRun, ih]

theorem decodeUnsigned_unary (g : GolombCoding) (pre tail : List Bool) (q : Nat) :
    g.decodeUnsigned (pre ++ (List.replicate q false ++ true :: tail)) pre.length =
      g.decodeTail q tail := by
  have hlen : (pre ++ (List.replicate q false ++ true :: tail)).length =
      pre.length + q + 1 + tail.length := by
    simp; omega
  have hdrop0 : (pre ++ (List.replicate q false ++ true :: tail)).drop pre.length =
      List.replicate q false ++ true :: tail := by simp
  have hdrop1 : (pre ++ (List.replicate q false ++ true :: tail)).drop
      (pre.length + q + 1) = tail := by
    have : pre ++ (List.replicate q false ++ true :: tail) =
        (pre ++ List.replicate q false ++ [true]) ++ tail := by simp
    rw [this]
    have h2 : (pre ++ List.replicate q false ++ [true]).length = pre.length + q + 1 := by
      simp; omega
    rw [← h2, List.drop_left]
  unfold decodeUnsigned decodeTail
  rw [hdrop0, zeroRun_replicate_true, hlen]
  have c1 : ¬ pre.length ≥ pre.length + q + 1 + tail.length := by omega
  have c2 : ¬ pre.length + q ≥ pre.length + q + 1 + tail.length := by omega
  simp only [c1, c2, if_false]
  by_cases hb : g.b > tail.length
  · have c3 : pre.length + q + 1 + g.b > pre.length + q + 1 + tail.length := by omega
    simp only [c3, hb, if_true]
  · have c3 : ¬ pre.length + q + 1 + g.b > pre.length + q + 1 + tail.length := by omega
    simp only [c3, hb, if_false]
    rw [readBits_eq_foldl _ _ _ _ (by rw [hlen]; omega), hdrop1]
    by_cases hr : (tail.take g.b).foldl shiftIn 0 < g.cutoff
    · simp only [hr, if_true]
      congr 2
      omega
    · simp only [hr, if_false]
      by_cases hb2 : g.b ≥ tail.length
      · have c4 : pre.length + q + 1 + g.b ≥ pre.length + q + 1 + tail.length := by omega
        simp only [c4, hb2, if_true]
      · have c4 : ¬ pre.length + q + 1 + g.b ≥ pre.length + q + 1 + tail.length := by omega
        simp only [c4, hb2, if_false]
        have hget : (pre ++ (List.replicate q false ++ true :: tail)).getD
            (pre.length + q + 1 + g.b) false = tail.getD g.b false := by
          have h3 : pre ++ (List.replicate q false ++ true :: tail) =
              (pre ++ List.replicate q false ++ [true]) ++ tail := by simp
          have h4 : (pre ++ List.replicate q false ++ [true]).length = pre.length + q + 1 := by
            simp; omega
          rw [h3, List.getD_append_right _ _ _ _ (by rw [h4]; omega), h4]
          congr 1
          omega
        rw [hget]
        congr 2
        omega

theorem decodeUnsigned_zeros (g : GolombCoding) (pre : List Bool) (q : Nat) :
    ∃ e, g.decodeUnsigned (pre ++ List.replicate q false) pre.length = .error e := by
  unfold decodeUnsigned
  by_cases h : pre.length ≥ (pre ++ List.replicate q false).length
  · exact ⟨.startOutOfBounds, by simp only [h, if_true]⟩
  · have hd : (pre ++ List.replicate q false).drop pre.length = List.replicate q false := by
      simp
    have hl : pre.length + q ≥ (pre ++ List.replicate q false).length := by simp
    refine ⟨.incompleteUnary, ?_⟩
    simp only [h, if_false, hd, zeroRun_replicate, hl, if_true]

end GolombCoding

/-! ## Round trip of the unsigned code -/

namespace GolombCoding

theorem encodeUnsigned_eq (g : GolombCoding) (n : Nat) :
    g.encodeUnsigned n =
      List.replicate (n / g.m) false ++ true :: g.remainderBits (n % g.m) := by
  unfold encodeUnsigned remainderBits
  by_cases h : n % g.m < g.cutoff <;> simp [h]

theorem pushBits_succ_right (x : Nat) : ∀ k : Nat,
    pushBits x (k + 1) = pushBits (x / 2) k ++ [x % 2 != 0] := by
  intro k
  induction k with
  | zero => simp [pushBits, Nat.and_one_is_mod]
  | succ k ih =>
    rw [pushBits, ih, pushBits]
    have h : (x / 2) >>> k = x >>> (k + 1) := by
      rw [Nat.shiftRight_eq_div_pow, Nat.shiftRight_eq_div_pow, Nat.div_div_eq_div_mul,
        pow_succ, Nat.mul_comm]
    rw [h]
    simp

theorem Valid.cutoff_le (g : GolombCoding) (hv : g.Valid) :
    1 ≤ g.cutoff ∧ g.cutoff ≤ 2 ^ g.b ∧ g.cutoff + g.m = 2 ^ (g.b + 1) ∧
      2 ^ (g.b + 1) ≤ 4294967296 := by
  obtain ⟨h1, h2, h3, h4, h5⟩ := hv
  have h6 : 2 ^ (g.b + 1) = 2 * 2 ^ g.b := by rw [pow_succ]; ring
  have h7 : g.b < 32 := by
    by_contra hc
    have h8 : 2 ^ 32 ≤ 2 ^ g.b := Nat.pow_le_pow_right (by decide) (by omega)
    have h9 : (2 : Nat) ^ 32 = 4294967296 := by norm_num
    omega
  have h8 : 2 ^ (g.b + 1) ≤ 2 ^ 32 := Nat.pow_le_pow_right (by decide) (by omega)
  have h9 : (2 : Nat) ^ 32 = 4294967296 := by norm_num
  refine ⟨by omega, by omega, by omega, by omega⟩

theorem length_remainderBits (g : GolombCoding) (r : Nat) :
    (g.remainderBits r).length = if r < g.cutoff then g.b else g.b + 1 := by
  unfold remainderBits
  by_cases h : r < g.cutoff <;> simp [h, length_pushBits]

theorem decodeTail_remainderBits (g : GolombCoding) (hv : g.Valid) (q r : Nat)
    (hr : r < g.m) (hq : q * g.m + r < 4294967296) (post : List Bool) :
    g.decodeTail q (g.remainderBits r ++ post) =
      .ok (q * g.m + r, q + 1 + (g.remainderBits r).length) := by
  obtain ⟨hc1, hc2, hc3, hc4⟩ := Valid.cutoff_le g hv
  obtain ⟨h1, h2, h3, h4, h5⟩ := hv
  have hpow : 2 ^ (g.b + 1) = 2 * 2 ^ g.b := by rw [pow_succ]; ring
  have hq2 : q < 4294967296 := by
    by_contra hc
    have : q * 1 ≤ q * g.m := Nat.mul_le_mul_left _ h1
    omega
  rw [length_remainderBits]
  unfold decodeTail remainderBits
  by_cases hlt : r < g.cutoff
  · simp only [hlt, if_true]
    have hlen : ¬ g.b > (pushBits r g.b ++ post).length := by
      simp [length_pushBits]
    have htake : (pushBits r g.b ++ post).take g.b = pushBits r g.b := by
      have := length_pushBits r g.b
      rw [List.take_append_of_le_length (by omega), List.take_of_length_le (by omega)]
    simp only [hlen, if_false, htake]
    rw [foldl_shiftIn_pushBits r g.b 0 (by omega), Nat.mod_eq_of_lt (by omega)]
    simp only [Nat.zero_mul, Nat.zero_add, hlt, if_true]
    rw [Nat.mod_eq_of_lt hq2, Nat.mod_eq_of_lt hq]
  · simp only [hlt, if_false]
    have hadj : (r + g.cutoff) % 4294967296 = r + g.cutoff := Nat.mod_eq_of_lt (by omega)
    rw [hadj, pushBits_succ_right]
    have hl := length_pushBits ((r + g.cutoff) / 2) g.b
    have hlen : ¬ g.b > (pushBits ((r + g.cutoff) / 2) g.b ++ [(r + g.cutoff) % 2 != 0] ++
        post).length := by
      simp [length_pushBits]
    have hlen2 : ¬ g.b ≥ (pushBits ((r + g.cutoff) / 2) g.b ++ [(r + g.cutoff) % 2 != 0] ++
        post).length := by
      simp [length_pushBits]
    have htake : (pushBits ((r + g.cutoff) / 2) g.b ++ [(r + g.cutoff) % 2 != 0] ++
        post).take g.b = pushBits ((r + g.cutoff) / 2) g.b := by
      rw [List.append_assoc, List.take_append_of_le_length (by omega),
        List.take_of_length_le (by omega)]
    have hget : (pushBits ((r + g.cutoff) / 2) g.b ++ [(r + g.cutoff) % 2 != 0] ++
        post).getD g.b false = ((r + g.cutoff) % 2 != 0) := by
      rw [List.append_assoc, List.getD_append_right _ _ _ _ (by omega), hl]
      simp
    simp only [hlen, hlen2, if_false, htake, hget]
    rw [foldl_shiftIn_pushBits _ g.b 0 (by omega), Nat.mod_eq_of_lt (by omega)]
    have hnlt : ¬ (r + g.cutoff) / 2 < g.cutoff := by omega
    simp only [Nat.zero_mul, Nat.zero_add]
    rw [if_neg hnlt]
    have hs : shiftIn ((r + g.cutoff) / 2) ((r + g.cutoff) % 2 != 0) = r + g.cutoff := by
      rw [shiftIn_eq _ _ (by omega)]
      rcases Nat.mod_two_eq_zero_or_one (r + g.cutoff) with h | h <;> simp [h] <;> omega
    rw [hs, Nat.mod_eq_of_lt hq2]
    congr 2
    rw [toU32_of_range _ (by push_cast; omega) (by push_cast; omega)]
    push_cast
    omega

/-- The unsigned code is self-delimiting: `decodeUnsigned` started at the first bit of a
codeword inside any bit sequence returns the encoded value and the codeword's length. -/
theorem decodeUnsigned_encodeUnsigned (g : GolombCoding) (hv : g.Valid) (n : Nat)
    (hn : n < 4294967296) (pre post : List Bool) :
    g.decodeUnsigned (pre ++ g.encodeUnsigned n ++ post) pre.length =
      .ok (n, (g.encodeUnsigned n).length) := by
  have hm : 0 < g.m := hv.1
  rw [encodeUnsigned_eq, List.append_assoc, List.append_assoc, List.cons_append,
    decodeUnsigned_unary,
    decodeTail_remainderBits g hv _ _ (Nat.mod_lt _ hm)
      (by rw [Nat.div_add_mod' n g.m]; exact hn),
    Nat.div_add_mod' n g.m]
  simp
  omega

end GolombCoding

/-! ## Round trip of the signed code -/

namespace GolombCoding

theorem mapToUnsigned_interleaved (g : GolombCoding) (hmode : g.mode = .INTERLEAVED)
    (n : Int) (h1 : -1073741824 < n) (h2 : n < 1073741824) :
    g.mapToUnsigned n = if n ≥ 0 then (2 * n).toNat else (2 * (-n) - 1).toNat := by
  unfold mapToUnsigned
  rw [hmode]
  simp only
  by_cases h : n ≥ 0
  · simp only [h, if_true]
    unfold toU32 toI32; omega
  · simp only [h, if_false]
    unfold toU32 toI32; omega

theorem mapToUnsigned_signMagnitude (g : GolombCoding) (hmode : g.mode = .SIGN_MAGNITUDE)
    (n : Int) (h1 : -2147483648 < n) (h2 : n < 2147483648) :
    g.mapToUnsigned n = n.natAbs := by
  unfold mapToUnsigned
  rw [hmode]
  simp only
  have h3 : |n| = (n.natAbs : Int) := (Int.natCast_natAbs n).symm
  rw [h3]
  unfold toU32 toI32; omega

theorem mapToUnsigned_lt (g : GolombCoding) (n : Int) : g.mapToUnsigned n < 4294967296 := by
  unfold mapToUnsigned
  cases g.mode <;> simp only
  · unfold toU32; omega
  · by_cases h : n ≥ 0
    · simp only [h, if_true]; unfold toU32; omega
    · simp only [h, if_false]; unfold toU32; omega

theorem mapToSigned_mapToUnsigned (g : GolombCoding) (n : Int) (hn : g.InRange n) :
    g.mapToSigned (g.mapToUnsigned n) (decide (n < 0)) = n ∧
      (g.mode = .INTERLEAVED → g.mapToSigned (g.mapToUnsigned n) false = n) := by
  unfold InRange at hn
  cases hmode : g.mode
  · rw [hmode] at hn
    simp only at hn
    rw [mapToUnsigned_signMagnitude g hmode n hn.1 hn.2]
    refine ⟨?_, fun h => by cases h⟩
    unfold mapToSigned
    rw [hmode]
    simp only
    by_cases h : n < 0
    · simp only [h, decide_True, if_true]
      unfold toI32; omega
    · simp only [h, decide_False, Bool.false_eq_true, if_false]
      unfold toI32; omega
  · rw [hmode] at hn
    simp only at hn
    rw [mapToUnsigned_interleaved g hmode n hn.1 hn.2]
    have key : g.mapToSigned (if n ≥ 0 then (2 * n).toNat else (2 * (-n) - 1).toNat) false
        = n := by
      unfold mapToSigned
      rw [hmode]
      simp only
      by_cases h : n ≥ 0
      · simp only [h, if_true]
        have h3 : (2 * n).toNat % 2 = 0 := by omega
        simp only [h3, if_true]
        unfold toI32; omega
      · simp only [h, if_false]
        have h3 : ¬ (2 * (-n) - 1).toNat % 2 = 0 := by omega
        simp only [h3, if_false]
        have h4 : toI32 ((((2 * (-n) - 1).toNat + 1) % 4294967296 : Nat) : Int) = 2 * (-n) := by
          unfold toI32; omega
        rw [h4]
        have h5 : Int.tdiv (2 * (-n)) 2 = -n := by
          rw [Int.mul_tdiv_cancel_left _ (by decide)]
        rw [h5]
        unfold toI32; omega
    refine ⟨?_, fun _ => key⟩
    have hb : ∀ c : Bool, g.mapToSigned (if n ≥ 0 then (2 * n).toNat else (2 * (-n) - 1).toNat) c
        = g.mapToSigned (if n ≥ 0 then (2 * n).toNat else (2 * (-n) - 1).toNat) false := by
      intro c
      unfold mapToSigned
      rw [hmode]
    rw [hb, key]

/-- The signed code is self-delimiting: `decode` started at the first bit of a codeword
inside any bit sequence returns the encoded value and the codeword's length. -/
theorem decode_encode_at (g : GolombCoding) (hv : g.Valid) (n : Int) (hn : g.InRange n)
    (pre post : List Bool) :
    g.decode (pre ++ g.encode n ++ post) pre.length = .ok (n, (g.encode n).length) := by
  obtain ⟨hs1, hs2⟩ := mapToSigned_mapToUnsigned g n hn
  have hu := mapToUnsigned_lt g n
  unfold decode encode
  cases hmode : g.mode
  · simp only
    have hlen : ¬ pre.length ≥ (pre ++ ([decide (n < 0)] ++
        g.encodeUnsigned (g.mapToUnsigned n)) ++ post).length := by
      simp
    have hget : (pre ++ ([decide (n < 0)] ++ g.encodeUnsigned (g.mapToUnsigned n)) ++
        post).getD pre.length false = decide (n < 0) := by
      rw [List.append_assoc, List.getD_append_right _ _ _ _ (le_refl _)]
      simp
    have hre : pre ++ ([decide (n < 0)] ++ g.encodeUnsigned (g.mapToUnsigned n)) ++ post =
        (pre ++ [decide (n < 0)]) ++ g.encodeUnsigned (g.mapToUnsigned n) ++ post := by
      simp
    have hl1 : pre.length + 1 = (pre ++ [decide (n < 0)]).length := by simp
    rw [if_neg hlen, hget, hre, hl1, decodeUnsigned_encodeUnsigned g hv _ hu]
    simp only [hs1]
    congr 2
    simp
    omega
  · simp only
    have hlen : ¬ pre.length ≥ (pre ++ g.encodeUnsigned (g.mapToUnsigned n) ++ post).length := by
      rw [encodeUnsigned_eq]
      simp
    rw [if_neg hlen, decodeUnsigned_encodeUnsigned g hv _ hu]
    simp only [hs2 hmode]

theorem decode_encode (g : GolombCoding) (hv : g.Valid) (n : Int) (hn : g.InRange n) :
    g.decode (g.encode n) 0 = .ok (n, (g.encode n).length) := by
  have h := decode_encode_at g hv n hn [] []
  simpa using h

end GolombCoding

/-! ## Layout and truncation lemmas -/

namespace GolombCoding

theorem foldl_msb_pushBits (x : Nat) : ∀ (k acc : Nat),
    (pushBits x k).foldl (fun a c => 2 * a + c.toNat) acc = acc * 2 ^ k + x % 2 ^ k := by
  intro k
  induction k with
  | zero => intro acc; simp [pushBits, Nat.mod_one]
  | succ k ih =>
    intro acc
    rw [pushBits, List.foldl_cons, toNat_bit, ih, Nat.mod_pow_succ]
    ring

theorem msbValue_pushBits (x k : Nat) (h : x < 2 ^ k) : msbValue (pushBits x k) = x := by
  unfold msbValue
  rw [foldl_msb_pushBits, Nat.mod_eq_of_lt h]
  simp

theorem take_pushBits_succ (x k : Nat) :
    (pushBits x (k + 1)).take k = pushBits (x / 2) k := by
  rw [pushBits_succ_right]
  have := length_pushBits (x / 2) k
  rw [List.take_append_of_le_length (by omega), List.take_of_length_le (by omega)]

/-- A cut inside the remainder part makes `decodeUnsigned` fail after the unary part. -/
theorem decodeTail_take_error (g : GolombCoding) (hv : g.Valid) (q r j : Nat) (hr : r < g.m)
    (hj : j < (g.remainderBits r).length) :
    ∃ e, g.decodeTail q ((g.remainderBits r).take j) = .error e := by
  obtain ⟨hc1, hc2, hc3, hc4⟩ := Valid.cutoff_le g hv
  have hpow : 2 ^ (g.b + 1) = 2 * 2 ^ g.b := by rw [pow_succ]; ring
  rw [length_remainderBits] at hj
  have hlen : ((g.remainderBits r).take j).length = j := by
    rw [List.length_take, length_remainderBits]
    by_cases h : r < g.cutoff
    · simp only [h, if_true] at hj ⊢; omega
    · simp only [h, if_false] at hj ⊢; omega
  unfold decodeTail
  by_cases hb : g.b > j
  · exact ⟨.incompleteRemainder, by rw [hlen]; simp only [hb, if_true]⟩
  · have hlt : ¬ r < g.cutoff := by
      intro h
      simp only [h, if_true] at hj
      omega
    simp only [hlt, if_false] at hj
    have hjb : j = g.b := by omega
    refine ⟨.incompleteRemainder, ?_⟩
    rw [hlen]
    simp only [hb, if_false]
    have htake : ((g.remainderBits r).take j).take g.b =
        pushBits (((r + g.cutoff) % 4294967296) / 2) g.b := by
      rw [hjb, List.take_take, Nat.min_self]
      unfold remainderBits
      rw [if_neg hlt, take_pushBits_succ]
    rw [htake, foldl_shiftIn_pushBits _ _ 0 (by omega), Nat.mod_eq_of_lt (by omega : r + g.cutoff < 4294967296),
      Nat.mod_eq_of_lt (by omega : (r + g.cutoff) / 2 < 2 ^ g.b)]
    have hnlt : ¬ 0 * 2 ^ g.b + (r + g.cutoff) / 2 < g.cutoff := by omega
    have hge : g.b ≥ j := by omega
    simp only [hnlt, if_false, hge, if_true]

/-- Every proper prefix of an unsigned codeword is rejected by `decodeUnsigned`, wherever
the codeword starts. -/
theorem decodeUnsigned_take_error (g : GolombCoding) (hv : g.Valid) (n k : Nat)
    (pre : List Bool) (hk : k < (g.encodeUnsigned n).length) :
    ∃ e, g.decodeUnsigned (pre ++ (g.encodeUnsigned n).take k) pre.length = .error e := by
  have hm : 0 < g.m := hv.1
  rw [encodeUnsigned_eq] at hk ⊢
  simp only [List.length_append, List.length_replicate, List.length_cons] at hk
  by_cases hq : k ≤ n / g.m
  · have h1 : (List.replicate (n / g.m) false ++ true :: g.remainderBits (n % g.m)).take k =
        List.replicate k false := by
      rw [List.take_append_of_le_length (by simp; exact hq), List.take_replicate,
        Nat.min_eq_left hq]
    rw [h1]
    exact decodeUnsigned_zeros g pre k
  · have hk2 : k = (List.replicate (n / g.m) false).length + (k - n / g.m - 1 + 1) := by
      simp; omega
    have h1 : (List.replicate (n / g.m) false ++ true :: g.remainderBits (n % g.m)).take k =
        List.replicate (n / g.m) false ++
          true :: (g.remainderBits (n % g.m)).take (k - n / g.m - 1) := by
      rw [hk2, List.take_append, List.take_succ_cons]
      simp
    rw [h1, decodeUnsigned_unary]
    exact decodeTail_take_error g hv _ _ _ (Nat.mod_lt _ hm) (by omega)

end GolombCoding

theorem localCutoff_eq (m : Nat) (h1 : 1 ≤ m) (h2 : m < 4294967296) :
    localCutoff m = 2 ^ (floorLog2 m + 1) - m := by
  obtain ⟨h3, h4⟩ := floorLog2_spec m h1
  have h5 := floorLog2_lt_32 m h1 h2
  have h6 : 2 ^ (floorLog2 m + 1) ≤ 2 ^ 32 := Nat.pow_le_pow_right (by decide) (by omega)
  have h7 : (2 : Nat) ^ 32 = 4294967296 := by norm_num
  unfold localCutoff localB
  rw [Nat.one_shiftLeft]
  generalize 2 ^ (floorLog2 m + 1) = P at *
  unfold toU32 toI32; omega

/-! ## Bit stream lemmas -/

theorem write_bit_eq (bs : BitStream) (bit : Bool) :
    BitStream.write_bit bs (if bit then 1 else 0) = bs ++ [bit] := by
  unfold BitStream.write_bit
  cases bit <;> simp

theorem writeBits_eq (encoded : List Bool) : ∀ bs : BitStream,
    writeBits bs encoded = bs ++ encoded := by
  induction encoded with
  | nil => intro bs; simp [writeBits]
  | cons c cs ih =>
    intro bs
    have h := ih (bs ++ [c])
    unfold writeBits at h ⊢
    rw [List.foldl_cons, write_bit_eq, h]
    simp

theorem writeResiduals_eq (golomb : GolombCoding) (residuals : List Int) :
    ∀ bs : BitStream,
      writeResiduals golomb bs residuals = bs ++ residuals.flatMap golomb.encode := by
  induction residuals with
  | nil => intro bs; simp [writeResiduals]
  | cons r rs ih =>
    intro bs
    have h := ih (bs ++ golomb.encode r)
    unfold writeResiduals at h ⊢
    rw [List.foldl_cons, writeBits_eq, h]
    simp

theorem readLoop_msbFirst (x : Nat) (rest : BitStream) : ∀ (n value : Nat),
    BitStream.readLoop n value (BitStream.msbFirst x n ++ rest) =
      some (value * 2 ^ n + x % 2 ^ n, rest) := by
  intro n
  induction n with
  | zero => intro value; simp [BitStream.readLoop, BitStream.msbFirst, Nat.mod_one]
  | succ n ih =>
    intro value
    rw [BitStream.msbFirst, List.cons_append, BitStream.readLoop, BitStream.read_bit]
    simp only
    rw [ih, Nat.mod_pow_succ]
    have hb : (x / 2 ^ n % 2 != 0).toNat = x / 2 ^ n % 2 := by
      rcases Nat.mod_two_eq_zero_or_one (x / 2 ^ n) with h | h <;> simp [h]
    rw [hb]
    congr 2
    ring

theorem read_n_bits_write_n_bits (m : Nat) (hm : m < 65536) (rest : BitStream) :
    BitStream.read_n_bits (BitStream.msbFirst m 16 ++ rest) 16 = some (m, rest) := by
  unfold BitStream.read_n_bits
  rw [readLoop_msbFirst, Nat.mod_eq_of_lt (by norm_num; exact hm)]
  simp

theorem readUnary_replicate (q : Nat) (tail : BitStream) :
    readUnary (List.replicate q false ++ true :: tail) =
      some (List.replicate q false ++ [true], tail) := by
  induction q with
  | zero => simp [readUnary]
  | succ q ih => simp [List.replicate_succ, readUnary, ih]

theorem readAppend_append : ∀ (xs : List Bool) (bits : List Bool) (ys : BitStream),
    readAppend xs.length bits (xs ++ ys) = some (bits ++ xs, ys) := by
  intro xs
  induction xs with
  | nil => intro bits ys; simp [readAppend]
  | cons c cs ih =>
    intro bits ys
    rw [List.length_cons, List.cons_append, readAppend, BitStream.read_bit]
    simp only
    have hc : (c.toNat != 0) = c := by cases c <;> rfl
    rw [hc, ih]
    simp

theorem newCoder_ok (m : Nat) (mode : NegativeMode) (h1 : 1 ≤ m) (h2 : m < 4294967296) :
    ∃ g, GolombCoding.new m mode = .ok g ∧ newCoder m mode = .ok g := by
  refine ⟨_, GolombCoding.new_ok m mode h1 h2, ?_⟩
  unfold newCoder
  rw [GolombCoding.new_ok m mode h1 h2]

theorem readBits_suffix (front xs : List Bool) (r : Nat) :
    GolombCoding.readBits (front ++ xs) xs.length ((front ++ xs).length - xs.length) r =
      xs.foldl GolombCoding.shiftIn r := by
  have hd : (front ++ xs).length - xs.length = front.length := by simp
  rw [hd, GolombCoding.readBits_eq_foldl _ _ _ _ (by simp), List.drop_left,
    List.take_of_length_le (le_refl _)]

/-- In interleaved mode the per-residual bit collection of the decoders reads exactly one
codeword and returns the value it encodes. -/
theorem readResidual_encode (m : Nat) (g : GolombCoding) (h2 : m < 4294967296)
    (hg : GolombCoding.new m .INTERLEAVED = .ok g) (n : Int) (hn : g.InRange n)
    (rest : BitStream) :
    readResidual g m (g.encode n ++ rest) = .ok (n, rest) := by
  obtain ⟨hv, hgm, hmode⟩ := GolombCoding.valid_of_new m _ g hg h2
  have h1 : 1 ≤ m := by rw [← hgm]; exact hv.1
  have hdec := GolombCoding.decode_encode g hv n hn
  rw [GolombCoding.new_ok m _ h1 h2] at hg
  injection hg with hg
  have hb : localB m = g.b := by rw [← hg]; rfl
  have hc : localCutoff m = g.cutoff := by rw [localCutoff_eq m h1 h2, ← hg]
  obtain ⟨hc1, hc2, hc3, hc4⟩ := GolombCoding.Valid.cutoff_le g hv
  have hpow : 2 ^ (g.b + 1) = 2 * 2 ^ g.b := by rw [pow_succ]; ring
  have hm0 : 0 < g.m := hv.1
  have henc : g.encode n = g.encodeUnsigned (g.mapToUnsigned n) := by
    unfold GolombCoding.encode
    rw [hmode]
  rw [henc] at hdec ⊢
  generalize g.mapToUnsigned n = u at hdec ⊢
  have hr : u % g.m < g.m := Nat.mod_lt _ hm0
  rw [GolombCoding.encodeUnsigned_eq] at hdec ⊢
  unfold readResidual
  rw [List.append_assoc, List.cons_append, readUnary_replicate]
  simp only [hb, hc]
  by_cases hlt : u % g.m < g.cutoff
  · have hrem : g.remainderBits (u % g.m) = GolombCoding.pushBits (u % g.m) g.b := by
      unfold GolombCoding.remainderBits
      rw [if_pos hlt]
    have hl := GolombCoding.length_pushBits (u % g.m) g.b
    rw [hrem] at hdec ⊢
    have hra := readAppend_append (GolombCoding.pushBits (u % g.m) g.b)
      (List.replicate (u / g.m) false ++ [true]) rest
    rw [hl] at hra
    rw [hra]
    simp only
    have hrb : GolombCoding.readBits (List.replicate (u / g.m) false ++ [true] ++
        GolombCoding.pushBits (u % g.m) g.b) g.b
        ((List.replicate (u / g.m) false ++ [true] ++
          GolombCoding.pushBits (u % g.m) g.b).length - g.b) 0 = u % g.m := by
      have hs := readBits_suffix (List.replicate (u / g.m) false ++ [true])
        (GolombCoding.pushBits (u % g.m) g.b) 0
      rw [hl] at hs
      rw [hs, GolombCoding.foldl_shiftIn_pushBits _ _ 0 (by omega), Nat.mod_eq_of_lt (by omega)]
      simp
    rw [hrb]
    have hnge : ¬ u % g.m ≥ g.cutoff := by omega
    simp only [hnge, if_false]
    have hre : List.replicate (u / g.m) false ++ [true] ++ GolombCoding.pushBits (u % g.m) g.b
        = List.replicate (u / g.m) false ++ true :: GolombCoding.pushBits (u % g.m) g.b := by
      simp
    rw [hre, hdec]
  · have hadj : (u % g.m + g.cutoff) % 4294967296 = u % g.m + g.cutoff :=
      Nat.mod_eq_of_lt (by omega)
    have hrem : g.remainderBits (u % g.m) =
        GolombCoding.pushBits ((u % g.m + g.cutoff) / 2) g.b ++
          [(u % g.m + g.cutoff) % 2 != 0] := by
      unfold GolombCoding.remainderBits
      rw [if_neg hlt, hadj, GolombCoding.pushBits_succ_right]
    have hl := GolombCoding.length_pushBits ((u % g.m + g.cutoff) / 2) g.b
    rw [hrem] at hdec ⊢
    have hra := readAppend_append (GolombCoding.pushBits ((u % g.m + g.cutoff) / 2) g.b)
      (List.replicate (u / g.m) false ++ [true]) ([(u % g.m + g.cutoff) % 2 != 0] ++ rest)
    rw [hl] at hra
    rw [List.append_assoc, hra]
    simp only
    have hrb : GolombCoding.readBits (List.replicate (u / g.m) false ++ [true] ++
        GolombCoding.pushBits ((u % g.m + g.cutoff) / 2) g.b) g.b
        ((List.replicate (u / g.m) false ++ [true] ++
          GolombCoding.pushBits ((u % g.m + g.cutoff) / 2) g.b).length - g.b) 0 =
        (u % g.m + g.cutoff) / 2 := by
      have hs := readBits_suffix (List.replicate (u / g.m) false ++ [true])
        (GolombCoding.pushBits ((u % g.m + g.cutoff) / 2) g.b) 0
      rw [hl] at hs
      rw [hs, GolombCoding.foldl_shiftIn_pushBits _ _ 0 (by omega), Nat.mod_eq_of_lt (by omega)]
      simp
    rw [hrb]
    have hge : (u % g.m + g.cutoff) / 2 ≥ g.cutoff := by omega
    simp only [hge, if_true]
    have hra1 := readAppend_append [(u % g.m + g.cutoff) % 2 != 0]
      (List.replicate (u / g.m) false ++ [true] ++
        GolombCoding.pushBits ((u % g.m + g.cutoff) / 2) g.b) rest
    rw [List.length_singleton] at hra1
    rw [hra1]
    simp only
    have hre : List.replicate (u / g.m) false ++ [true] ++
        GolombCoding.pushBits ((u % g.m + g.cutoff) / 2) g.b ++
        [(u % g.m + g.cutoff) % 2 != 0]
        = List.replicate (u / g.m) false ++ true ::
          (GolombCoding.pushBits ((u % g.m + g.cutoff) / 2) g.b ++
            [(u % g.m + g.cutoff) % 2 != 0]) := by
      simp
    rw [hre, hdec]

/-! ## Audio channel lemmas -/

namespace AudioCodec

theorem isInt16_getD (samples : List Int) (hs : ∀ s ∈ samples, IsInt16 s) (i : Nat) :
    IsInt16 (samples.getD i 0) := by
  by_cases h : i < samples.length
  · rw [List.getD_eq_getElem _ _ h]
    exact hs _ (List.getElem_mem h)
  · rw [List.getD_eq_default _ _ (by omega)]
    unfold IsInt16; omega

theorem isInt16_clamp (val : Int) : IsInt16 (clamp val) := by
  unfold clamp clampInt IsInt16 toI16
  split_ifs <;> omega

theorem isInt16_predict (samples : List Int) (hs : ∀ s ∈ samples, IsInt16 s) (index : Nat)
    (predictor : PredictorType) : IsInt16 (predict samples index predictor) := by
  have h0 : IsInt16 0 := by unfold IsInt16; omega
  unfold predict
  split_ifs <;> first | exact h0 | exact isInt16_getD samples hs _ | exact isInt16_clamp _

theorem getD_take (samples : List Int) (pos i : Nat) (h : i < pos) :
    (samples.take pos).getD i 0 = samples.getD i 0 := by
  simp [List.getD, List.getElem?_take, h]

/-- The prediction at `index` reads only samples before `index`. -/
theorem predict_take (samples : List Int) (pos : Nat) (predictor : PredictorType) :
    predict (samples.take pos) pos predictor = predict samples pos predictor := by
  unfold predict
  by_cases h0 : pos = 0
  · simp [h0]
  · simp only [h0, if_false]
    rw [getD_take samples pos (pos - 1) (by omega)]
    by_cases h2 : pos < 2
    · simp only [h2, if_true]
    · rw [getD_take samples pos (pos - 2) (by omega)]
      by_cases h3 : pos < 3
      · simp only [h3, if_true]
      · rw [getD_take samples pos (pos - 3) (by omega)]

theorem audio_estimate_range (ceilLog : Nat → Nat → Nat) (residuals : List Int) :
    1 ≤ estimateGolombParameter ceilLog residuals ∧
      estimateGolombParameter ceilLog residuals ≤ 65535 := by
  unfold estimateGolombParameter
  simp only
  split_ifs <;> omega

theorem blockResiduals_self (samples : List Int) (predictor : PredictorType) (pos : Nat) :
    blockResiduals samples predictor pos pos = [] := by
  simp [blockResiduals]

theorem blockResiduals_succ (samples : List Int) (predictor : PredictorType) (pos k : Nat) :
    blockResiduals samples predictor pos (pos + (k + 1)) =
      toI32 (samples.getD pos 0 - predict samples pos predictor) ::
        blockResiduals samples predictor (pos + 1) (pos + 1 + k) := by
  unfold blockResiduals
  have h1 : pos + (k + 1) - pos = k + 1 := by omega
  have h2 : pos + 1 + k - (pos + 1) = k := by omega
  rw [h1, h2, List.range'_succ, List.map_cons]

/-- The residual of an `int16_t` sample against an `int16_t` prediction is in the range of
the interleaved mapping and restores the sample. -/
theorem residual_facts (x pred : Int) (hx : IsInt16 x) (hp : IsInt16 pred) :
    toI32 (x - pred) = x - pred ∧ -1073741824 < x - pred ∧ x - pred < 1073741824 ∧
      toI16 (clampInt (toI32 (pred + (x - pred))) (-32768) 32767) = x := by
  unfold IsInt16 at hx hp
  have h1 : pred + (x - pred) = x := by ring
  rw [h1]
  refine ⟨by unfold toI32; omega, by omega, by omega, ?_⟩
  have h2 : toI32 x = x := by unfold toI32; omega
  rw [h2]
  unfold clampInt toI16
  split_ifs <;> omega

theorem decodeBlock_ok (m : Nat) (g : GolombCoding) (h2 : m < 4294967296)
    (hg : GolombCoding.new m .INTERLEAVED = .ok g) (samples : List Int)
    (hs : ∀ s ∈ samples, IsInt16 s) (predictor : PredictorType) (rest : BitStream) :
    ∀ (k pos : Nat), pos + k ≤ samples.length →
      decodeBlock g m predictor k
        ((blockResiduals samples predictor pos (pos + k)).flatMap g.encode ++ rest)
        (samples.take pos) = .ok (samples.take (pos + k), rest) := by
  obtain ⟨hv, hgm, hmode⟩ := GolombCoding.valid_of_new m _ g hg h2
  intro k
  induction k with
  | zero =>
    intro pos _
    rw [Nat.add_zero, blockResiduals_self]
    simp [decodeBlock]
  | succ k ih =>
    intro pos hpos
    have hlt : pos < samples.length := by omega
    obtain ⟨hr1, hr2, hr3, hr4⟩ := residual_facts (samples.getD pos 0)
      (predict samples pos predictor) (isInt16_getD samples hs pos)
      (isInt16_predict samples hs pos predictor)
    have hin : g.InRange (samples.getD pos 0 - predict samples pos predictor) := by
      unfold GolombCoding.InRange
      rw [hmode]
      exact ⟨hr2, hr3⟩
    rw [blockResiduals_succ, List.flatMap_cons, List.append_assoc, hr1, decodeBlock,
      readResidual_encode m g h2 hg _ hin]
    simp only
    have hlen : (samples.take pos).length = pos := by
      rw [List.length_take]; omega
    rw [hlen, predict_take, hr4]
    have htake : samples.take pos ++ [samples.getD pos 0] = samples.take (pos + 1) := by
      rw [List.getD_eq_getElem _ _ hlt, List.take_succ, List.getElem?_eq_getElem hlt]
      rfl
    rw [htake, ih (pos + 1) (by omega)]
    have h3 : pos + 1 + k = pos + (k + 1) := by omega
    rw [h3]

end AudioCodec

namespace AudioCodec

/-- The block loops of `encodeChannel` and `decodeChannel` in interleaved mode: from any
block boundary `pos`, the encoder appends a bit sequence that does not depend on the
stream written so far, and the decoder, holding the first `pos` samples, rebuilds all the
samples from it and leaves what follows it in the stream. -/
theorem channel_loop (ceilLog : Nat → Nat → Nat) (samples : List Int)
    (hs : ∀ s ∈ samples, IsInt16 s) (predictor : PredictorType) (adaptiveM : Bool)
    (fixedM : Nat) (hm : adaptiveM = true ∨ (1 ≤ fixedM ∧ fixedM ≤ 65535)) :
    ∀ (fuel pos : Nat), pos ≤ samples.length → samples.length ≤ pos + fuel →
      ∃ bits : List Bool,
        (∀ bs, encodeChannelLoop ceilLog samples predictor adaptiveM fixedM .INTERLEAVED
          fuel pos bs = .ok (bs ++ bits)) ∧
        (∀ rest, decodeChannelLoop samples.length predictor .INTERLEAVED fuel pos
          (bits ++ rest) (samples.take pos) = .ok (samples, rest)) := by
  intro fuel
  induction fuel with
  | zero =>
    intro pos h1 h2
    have hp : pos = samples.length := by omega
    have hnlt : ¬ pos < samples.length := by omega
    refine ⟨[], ?_, ?_⟩
    · intro bs
      simp [encodeChannelLoop, hnlt]
    · intro rest
      simp [decodeChannelLoop, hnlt, hp]
  | succ fuel ih =>
    intro pos h1 h2
    by_cases hlt : pos < samples.length
    · have hbe1 : pos < min (pos + 1024) samples.length := by omega
      have hbe2 : min (pos + 1024) samples.length ≤ samples.length := by omega
      generalize hbe : min (pos + 1024) samples.length = blockEnd at hbe1 hbe2
      generalize hmdef : (if adaptiveM = true then estimateGolombParameter ceilLog
        (blockResiduals samples predictor pos blockEnd) else fixedM) = m
      have hmr : 1 ≤ m ∧ m ≤ 65535 := by
        rw [← hmdef]
        by_cases ha : adaptiveM = true
        · simp only [ha, if_true]
          exact audio_estimate_range _ _
        · simp only [ha, if_false]
          rcases hm with h | h
          · exact absurd h ha
          · exact h
      obtain ⟨g, hg, hnc⟩ := newCoder_ok m .INTERLEAVED hmr.1 (by omega)
      obtain ⟨bits', henc, hdec⟩ := ih blockEnd hbe2 (by omega)
      refine ⟨BitStream.msbFirst m 16 ++
        ((blockResiduals samples predictor pos blockEnd).flatMap g.encode ++ bits'), ?_, ?_⟩
      · intro bs
        rw [encodeChannelLoop]
        simp only [hlt, if_true, hbe, hmdef, hnc]
        rw [henc, writeResiduals_eq]
        unfold BitStream.write_n_bits
        simp
      · intro rest
        rw [decodeChannelLoop]
        simp only [hlt, if_true, hbe]
        rw [List.append_assoc, read_n_bits_write_n_bits m (by omega)]
        simp only [hnc]
        have hk : pos + (blockEnd - pos) = blockEnd := by omega
        have hdb := decodeBlock_ok m g (by omega) hg samples hs predictor (bits' ++ rest)
          (blockEnd - pos) pos (by omega)
        rw [hk] at hdb
        rw [List.append_assoc, hdb]
        simp only
        exact hdec rest
    · have hp : pos = samples.length := by omega
      refine ⟨[], ?_, ?_⟩
      · intro bs
        simp [encodeChannelLoop, hlt]
      · intro rest
        simp [decodeChannelLoop, hlt, hp]

end AudioCodec

/-! ## Image lemmas -/

namespace ImageCodec

theorem raster_eq (rows cols : Nat) (hc : 0 < cols) :
    raster rows cols = (List.range' 0 (rows * cols)).map (posOf cols) := by
  rw [← List.range_eq_range']
  unfold raster
  induction rows with
  | zero => simp
  | succ r ih =>
    rw [List.range_succ, List.flatMap_append, ih]
    have h1 : (r + 1) * cols = r * cols + cols := by ring
    rw [h1, List.range_add, List.map_append, List.map_map]
    congr 1
    simp only [List.flatMap_cons, List.flatMap_nil, List.append_nil]
    apply List.map_congr_left
    intro c hcm
    have hc2 : c < cols := List.mem_range.mp hcm
    simp only [Function.comp, posOf]
    have e1 : (r * cols + c) / cols = r := by
      rw [Nat.add_comm, Nat.add_mul_div_right _ _ hc, Nat.div_eq_of_lt hc2, Nat.zero_add]
    have e2 : (r * cols + c) % cols = c := by
      rw [Nat.add_comm, Nat.add_mul_mod_self_right, Nat.mod_eq_of_lt hc2]
    rw [e1, e2]

theorem getD_of_take_eq (d1 d2 : List Nat) (k j : Nat) (h : d1.take k = d2.take k)
    (hj : j < k) : d1.getD j 0 = d2.getD j 0 := by
  have h1 : (d1.take k).getD j 0 = d1.getD j 0 := by
    simp [List.getD, List.getElem?_take, hj]
  have h2 : (d2.take k).getD j 0 = d2.getD j 0 := by
    simp [List.getD, List.getElem?_take, hj]
  rw [← h1, ← h2, h]

theorem tdiv_two_bounds (x : Int) (h1 : -255 ≤ x) (h2 : x ≤ 510) :
    -127 ≤ Int.tdiv x 2 ∧ Int.tdiv x 2 ≤ 255 ∧ (0 ≤ x → 0 ≤ Int.tdiv x 2) ∧
      (x ≤ 255 → Int.tdiv x 2 ≤ 127) := by
  by_cases h : 0 ≤ x
  · rw [Int.tdiv_eq_ediv h (by decide)]
    omega
  · have h3 : x = -(-x) := by ring
    rw [h3, Int.neg_tdiv, Int.tdiv_eq_ediv (by omega) (by decide)]
    omega

theorem pixelAt_le (img : Mat) (hpx : ∀ x ∈ img.data, x ≤ 255) (row col : Nat) :
    img.pixelAt row col ≤ 255 := by
  unfold Mat.pixelAt
  by_cases h : row * img.cols + col < img.data.length
  · rw [List.getD_eq_getElem _ _ h]
    exact hpx _ (List.getElem_mem h)
  · rw [List.getD_eq_default _ _ (by omega)]
    omega

theorem predict_bounds (img : Mat) (hpx : ∀ x ∈ img.data, x ≤ 255) (row col : Nat)
    (predictor : PredictorType) :
    -128 ≤ predict img row col predictor ∧ predict img row col predictor ≤ 383 := by
  have hl : (0 : Int) ≤ (if col > 0 then (img.pixelAt row (col - 1) : Int) else 128) ∧
      (if col > 0 then (img.pixelAt row (col - 1) : Int) else 128) ≤ 255 := by
    have := pixelAt_le img hpx row (col - 1)
    split_ifs <;> omega
  have ht : (0 : Int) ≤ (if row > 0 then (img.pixelAt (row - 1) col : Int) else 128) ∧
      (if row > 0 then (img.pixelAt (row - 1) col : Int) else 128) ≤ 255 := by
    have := pixelAt_le img hpx (row - 1) col
    split_ifs <;> omega
  have htl : (0 : Int) ≤
      (if row > 0 ∧ col > 0 then (img.pixelAt (row - 1) (col - 1) : Int) else 128) ∧
      (if row > 0 ∧ col > 0 then (img.pixelAt (row - 1) (col - 1) : Int) else 128) ≤ 255 := by
    have := pixelAt_le img hpx (row - 1) (col - 1)
    split_ifs <;> omega
  unfold predict
  simp only
  generalize (if col > 0 then (img.pixelAt row (col - 1) : Int) else 128) = left at hl ⊢
  generalize (if row > 0 then (img.pixelAt (row - 1) col : Int) else 128) = top at ht ⊢
  generalize (if row > 0 ∧ col > 0 then (img.pixelAt (row - 1) (col - 1) : Int) else 128)
    = topLeft at htl ⊢
  have b1 := tdiv_two_bounds (left + top) (by omega) (by omega)
  have b2 := tdiv_two_bounds (top - topLeft) (by omega) (by omega)
  have b3 := tdiv_two_bounds (left - topLeft) (by omega) (by omega)
  split_ifs <;> omega

end ImageCodec

namespace ImageCodec

/-- The prediction for the `k`-th pixel in raster order reads only pixels before it. -/
theorem predict_agree (rows cols : Nat) (hc : 0 < cols) (d1 d2 : List Nat) (k : Nat)
    (h : d1.take k = d2.take k) (predictor : PredictorType) :
    predict { rows := rows, cols := cols, data := d1 } (k / cols) (k % cols) predictor =
      predict { rows := rows, cols := cols, data := d2 } (k / cols) (k % cols) predictor := by
  have hk : k / cols * cols + k % cols = k := Nat.div_add_mod' k cols
  have hsub : 0 < k / cols → (k / cols - 1) * cols + cols = k / cols * cols := by
    intro h0
    have h1 : k / cols = (k / cols - 1) + 1 := by omega
    conv => rhs; rw [h1, Nat.add_mul, Nat.one_mul]
  have e1 : (if k % cols > 0 then
        ((Mat.mk rows cols d1).pixelAt (k / cols) (k % cols - 1) : Int) else 128) =
      (if k % cols > 0 then
        ((Mat.mk rows cols d2).pixelAt (k / cols) (k % cols - 1) : Int) else 128) := by
    by_cases h0 : k % cols > 0
    · simp only [h0, if_true, Mat.pixelAt]
      rw [getD_of_take_eq d1 d2 k _ h (by omega)]
    · simp only [h0, if_false]
  have e2 : (if k / cols > 0 then
        ((Mat.mk rows cols d1).pixelAt (k / cols - 1) (k % cols) : Int) else 128) =
      (if k / cols > 0 then
        ((Mat.mk rows cols d2).pixelAt (k / cols - 1) (k % cols) : Int) else 128) := by
    by_cases h0 : k / cols > 0
    · simp only [h0, if_true, Mat.pixelAt]
      have := hsub h0
      rw [getD_of_take_eq d1 d2 k _ h (by omega)]
    · simp only [h0, if_false]
  have e3 : (if k / cols > 0 ∧ k % cols > 0 then
        ((Mat.mk rows cols d1).pixelAt (k / cols - 1) (k % cols - 1) : Int) else 128) =
      (if k / cols > 0 ∧ k % cols > 0 then
        ((Mat.mk rows cols d2).pixelAt (k / cols - 1) (k % cols - 1) : Int) else 128) := by
    by_cases h0 : k / cols > 0 ∧ k % cols > 0
    · simp only [h0, and_self, if_true, Mat.pixelAt]
      have := hsub h0.1
      rw [getD_of_take_eq d1 d2 k _ h (by omega)]
    · simp only [h0, if_false]
  unfold predict
  simp only
  rw [e1, e2, e3]

theorem resAt_facts (img : Mat) (hpx : ∀ x ∈ img.data, x ≤ 255) (predictor : PredictorType)
    (k : Nat) :
    -1073741824 < resAt img predictor k ∧ resAt img predictor k < 1073741824 ∧
      ((clampInt (toI32 (predict img (k / img.cols) (k % img.cols) predictor +
        resAt img predictor k)) 0 255) % 256).toNat =
        img.pixelAt (k / img.cols) (k % img.cols) := by
  have hb := predict_bounds img hpx (k / img.cols) (k % img.cols) predictor
  have hp := pixelAt_le img hpx (k / img.cols) (k % img.cols)
  unfold resAt
  generalize predict img (k / img.cols) (k % img.cols) predictor = pred at hb ⊢
  generalize img.pixelAt (k / img.cols) (k % img.cols) = px at hp ⊢
  have h1 : toI32 ((px : Int) - pred) = (px : Int) - pred := by unfold toI32; omega
  rw [h1]
  have h2 : pred + ((px : Int) - pred) = (px : Int) := by ring
  rw [h2]
  have h3 : toI32 (px : Int) = (px : Int) := by unfold toI32; omega
  rw [h3]
  refine ⟨by omega, by omega, ?_⟩
  unfold clampInt
  split_ifs <;> omega

/-- One iteration of the pixel loop of `decodeImage` in interleaved mode, on a stream
that starts with the block header (at a block boundary) and the codeword of the pixel's
residual: the pixel is restored and the codeword consumed. -/
theorem decodePixel_step (img : Mat) (hc : 0 < img.cols)
    (hpx : ∀ x ∈ img.data, x ≤ 255) (predictor : PredictorType) (m : Nat)
    (g : GolombCoding) (hm2 : m ≤ 65535) (hg : GolombCoding.new m .INTERLEAVED = .ok g)
    (k : Nat) (data : List Nat) (hag : data.take k = img.data.take k) (m0 : Nat)
    (hm0 : k % 256 ≠ 0 → m0 = m) (S : BitStream) :
    decodePixel predictor .INTERLEAVED
      { img := { rows := img.rows, cols := img.cols, data := data }, pixelCount := k, m := m0,
        bs := if k % 256 = 0 then
            BitStream.msbFirst m 16 ++ (g.encode (resAt img predictor k) ++ S)
          else g.encode (resAt img predictor k) ++ S }
      (posOf img.cols k) =
    .ok { img := { rows := img.rows, cols := img.cols,
                   data := data.set k (img.data.getD k 0) },
          pixelCount := k + 1, m := m, bs := S } := by
  have hk : k / img.cols * img.cols + k % img.cols = k := Nat.div_add_mod' k img.cols
  obtain ⟨hr1, hr2, hr3⟩ := resAt_facts img hpx predictor k
  obtain ⟨hv, hgm, hmode⟩ := GolombCoding.valid_of_new m _ g hg (by omega)
  have hin : g.InRange (resAt img predictor k) := by
    unfold GolombCoding.InRange
    rw [hmode]
    exact ⟨hr1, hr2⟩
  have hnc : newCoder m .INTERLEAVED = .ok g := by
    unfold newCoder
    rw [hg]
  have hhead : (if k % 256 = 0 then
        BitStream.read_n_bits (if k % 256 = 0 then
            BitStream.msbFirst m 16 ++ (g.encode (resAt img predictor k) ++ S)
          else g.encode (resAt img predictor k) ++ S) 16
      else some (m0, if k % 256 = 0 then
            BitStream.msbFirst m 16 ++ (g.encode (resAt img predictor k) ++ S)
          else g.encode (resAt img predictor k) ++ S)) =
      some (m, g.encode (resAt img predictor k) ++ S) := by
    by_cases h0 : k % 256 = 0
    · simp only [h0, if_true]
      exact read_n_bits_write_n_bits m (by omega) _
    · simp only [h0, if_false]
      rw [hm0 h0]
  have hpred : predict { rows := img.rows, cols := img.cols, data := data } (k / img.cols)
      (k % img.cols) predictor = predict img (k / img.cols) (k % img.cols) predictor :=
    predict_agree img.rows img.cols hc data img.data k hag predictor
  unfold decodePixel
  simp only [hhead, hnc, posOf]
  rw [readResidual_encode m g (by omega) hg _ hin]
  simp only [hpred, hr3]
  unfold Mat.setPixel Mat.pixelAt
  simp only [hk]

end ImageCodec

namespace ImageCodec

theorem ite_append (c : Prop) [Decidable c] (a t rest : List Bool) :
    (if c then a ++ t else t) ++ rest = if c then a ++ (t ++ rest) else t ++ rest := by
  split_ifs <;> simp

theorem set_take_succ (data orig : List Nat) (k : Nat) (hk : k < orig.length)
    (hdl : data.length = orig.length) (hag : data.take k = orig.take k) :
    (data.set k (orig.getD k 0)).length = orig.length ∧
      (data.set k (orig.getD k 0)).take (k + 1) = orig.take (k + 1) := by
  refine ⟨by simp [hdl], ?_⟩
  have hk2 : k < (data.set k (orig.getD k 0)).length := by simp [hdl, hk]
  have ht : (data.set k (orig.getD k 0)).take k = data.take k := by
    rw [List.set_take, List.set_eq_of_length_le (by simp)]
  rw [List.take_succ, List.take_succ, List.getElem?_eq_getElem hk2,
    List.getElem?_eq_getElem hk, List.getElem_set_self, ht, hag,
    List.getD_eq_getElem _ _ hk]

theorem encodePixel_eq (ceilLog : Nat → Nat → Nat) (img : Mat) (predictor : PredictorType)
    (adaptiveM : Bool) (fixedM : Nat) (mode : NegativeMode) (total : Nat) (pend : List Int)
    (k : Nat) (bs : BitStream) :
    encodePixel ceilLog img predictor adaptiveM fixedM mode total
      { residuals := pend, pixelCount := k, bs := bs } (posOf img.cols k) =
    if (pend ++ [resAt img predictor k]).length ≥ 256 ∨ k + 1 ≥ total then
      match newCoder (if adaptiveM then
          estimateGolombParameter ceilLog (pend ++ [resAt img predictor k]) else fixedM)
          mode with
      | .error e => .error e
      | .ok golomb =>
        .ok { residuals := [], pixelCount := k + 1,
              bs := writeResiduals golomb (BitStream.write_n_bits bs
                (if adaptiveM then
                  estimateGolombParameter ceilLog (pend ++ [resAt img predictor k])
                else fixedM) 16) (pend ++ [resAt img predictor k]) }
    else
      .ok { residuals := pend ++ [resAt img predictor k], pixelCount := k + 1, bs := bs } := by
  rfl

end ImageCodec

namespace ImageCodec

theorem image_estimate_range (ceilLog : Nat → Nat → Nat) (residuals : List Int) :
    1 ≤ estimateGolombParameter ceilLog residuals ∧
      estimateGolombParameter ceilLog residuals ≤ 65535 := by
  unfold estimateGolombParameter
  simp only
  split_ifs <;> omega

/-- The pixel loops of `encodeImage` and `decodeImage` in interleaved mode, from the
`k`-th pixel on, with `pend` the residuals of the current block collected so far. The
encoder ends with an empty residual buffer and has appended the header of the current
block, the codewords of `pend`, and a further bit sequence `tail`. The decoder, holding
the first `k` pixels and (inside a block) the block's `m`, rebuilds the image from
`tail`, preceded by the block header when `k` is a block boundary. -/
theorem image_loop (ceilLog : Nat → Nat → Nat) (img : Mat) (hc : 0 < img.cols)
    (hlen : img.data.length = img.rows * img.cols) (hpx : ∀ x ∈ img.data, x ≤ 255)
    (predictor : PredictorType) (adaptiveM : Bool) (fixedM : Nat)
    (hm : adaptiveM = true ∨ (1 ≤ fixedM ∧ fixedM ≤ 65535)) :
    ∀ (n k : Nat) (pend : List Int), k + (n + 1) = img.rows * img.cols →
      pend.length = k % 256 →
      ∃ (m : Nat) (g : GolombCoding) (tail : List Bool),
        1 ≤ m ∧ m ≤ 65535 ∧ GolombCoding.new m .INTERLEAVED = .ok g ∧
        (∀ bs, encodeLoop ceilLog img predictor adaptiveM fixedM .INTERLEAVED
            (img.rows * img.cols) ((List.range' k (n + 1)).map (posOf img.cols))
            { residuals := pend, pixelCount := k, bs := bs } =
          .ok { residuals := [], pixelCount := img.rows * img.cols,
                bs := bs ++ (BitStream.msbFirst m 16 ++ (pend.flatMap g.encode ++ tail)) }) ∧
        (∀ (rest : BitStream) (data : List Nat) (m0 : Nat),
          data.length = img.rows * img.cols → data.take k = img.data.take k →
          (k % 256 ≠ 0 → m0 = m) →
          ∃ mf, decodeLoop predictor .INTERLEAVED
              ((List.range' k (n + 1)).map (posOf img.cols))
              { img := { rows := img.rows, cols := img.cols, data := data }, pixelCount := k,
                m := m0,
                bs := (if k % 256 = 0 then BitStream.msbFirst m 16 ++ tail else tail) ++ rest } =
            .ok { img := { rows := img.rows, cols := img.cols, data := img.data },
                  pixelCount := img.rows * img.cols, m := mf, bs := rest }) := by
  have hmr : ∀ rs : List Int, 1 ≤ (if adaptiveM = true then
      estimateGolombParameter ceilLog rs else fixedM) ∧
      (if adaptiveM = true then estimateGolombParameter ceilLog rs else fixedM) ≤ 65535 := by
    intro rs
    by_cases ha : adaptiveM = true
    · simp only [ha, if_true]
      exact image_estimate_range _ _
    · simp only [ha, if_false]
      rcases hm with h | h
      · exact absurd h ha
      · exact h
  intro n
  induction n with
  | zero =>
    intro k pend hk hpl
    have hflush : (pend ++ [resAt img predictor k]).length ≥ 256 ∨
        k + 1 ≥ img.rows * img.cols := Or.inr (by omega)
    obtain ⟨hm1, hm2⟩ := hmr (pend ++ [resAt img predictor k])
    generalize hmdef : (if adaptiveM = true then
      estimateGolombParameter ceilLog (pend ++ [resAt img predictor k]) else fixedM) = m
      at hm1 hm2
    obtain ⟨g, hg, hnc⟩ := newCoder_ok m .INTERLEAVED hm1 (by omega)
    refine ⟨m, g, g.encode (resAt img predictor k), hm1, hm2, hg, ?_, ?_⟩
    · intro bs
      simp only [List.range'_succ, List.range'_zero, List.map_cons, List.map_nil]
      rw [encodeLoop, encodePixel_eq, if_pos hflush, hmdef, hnc]
      simp only [encodeLoop]
      rw [writeResiduals_eq]
      unfold BitStream.write_n_bits
      have hk1 : k + 1 = img.rows * img.cols := by omega
      rw [hk1]
      simp
    · intro rest data m0 hdl hag hm0
      simp only [List.range'_succ, List.range'_zero, List.map_cons, List.map_nil]
      rw [decodeLoop, ite_append,
        decodePixel_step img hc hpx predictor m g hm2 hg k data hag m0 hm0 rest]
      simp only [decodeLoop]
      obtain ⟨hl2, ht2⟩ := set_take_succ data img.data k (by omega) (by omega) hag
      have hfull : data.set k (img.data.getD k 0) = img.data := by
        have h1 := List.take_of_length_le (le_of_eq (by omega) :
          (data.set k (img.data.getD k 0)).length ≤ k + 1)
        have h2 := List.take_of_length_le (le_of_eq (by omega) : img.data.length ≤ k + 1)
        rw [← h1, ht2, h2]
      refine ⟨m, ?_⟩
      rw [hfull]
      have hk1 : k + 1 = img.rows * img.cols := by omega
      rw [hk1]
  | succ n ih =>
    intro k pend hk hpl
    obtain ⟨hm1, hm2⟩ := hmr (pend ++ [resAt img predictor k])
    by_cases hfl : (pend ++ [resAt img predictor k]).length ≥ 256
    · have hflush : (pend ++ [resAt img predictor k]).length ≥ 256 ∨
          k + 1 ≥ img.rows * img.cols := Or.inl hfl
      have hk256 : (k + 1) % 256 = 0 := by
        simp only [List.length_append, List.length_singleton] at hfl
        omega
      generalize hmdef : (if adaptiveM = true then
        estimateGolombParameter ceilLog (pend ++ [resAt img predictor k]) else fixedM) = m
        at hm1 hm2
      obtain ⟨g, hg, hnc⟩ := newCoder_ok m .INTERLEAVED hm1 (by omega)
      obtain ⟨m2, g2, tail2, _, _, _, henc2, hdec2⟩ := ih (k + 1) [] (by omega)
        (by simp [hk256])
      refine ⟨m, g, g.encode (resAt img predictor k) ++ (BitStream.msbFirst m2 16 ++ tail2),
        hm1, hm2, hg, ?_, ?_⟩
      · intro bs
        rw [List.range'_succ, List.map_cons, encodeLoop, encodePixel_eq, if_pos hflush,
          hmdef, hnc]
        simp only
        rw [henc2, writeResiduals_eq]
        unfold BitStream.write_n_bits
        simp
      · intro rest data m0 hdl hag hm0
        rw [List.range'_succ, List.map_cons, decodeLoop, ite_append, List.append_assoc,
          decodePixel_step img hc hpx predictor m g hm2 hg k data hag m0 hm0
            ((BitStream.msbFirst m2 16 ++ tail2) ++ rest)]
        simp only
        obtain ⟨hl2, ht2⟩ := set_take_succ data img.data k (by omega) (by omega) hag
        have h3 := hdec2 rest (data.set k (img.data.getD k 0)) m (by omega) ht2
          (fun h => absurd hk256 h)
        rw [if_pos hk256] at h3
        exact h3
    · have hnflush : ¬ ((pend ++ [resAt img predictor k]).length ≥ 256 ∨
          k + 1 ≥ img.rows * img.cols) := by
        intro h
        rcases h with h | h
        · exact hfl h
        · omega
      have hpl2 : (pend ++ [resAt img predictor k]).length = (k + 1) % 256 := by
        simp only [List.length_append, List.length_singleton] at hfl ⊢
        omega
      have hk256 : (k + 1) % 256 ≠ 0 := by
        simp only [List.length_append, List.length_singleton] at hpl2
        omega
      obtain ⟨m, g, tail', hm1', hm2', hg, henc2, hdec2⟩ := ih (k + 1)
        (pend ++ [resAt img predictor k]) (by omega) hpl2
      refine ⟨m, g, g.encode (resAt img predictor k) ++ tail', hm1', hm2', hg, ?_, ?_⟩
      · intro bs
        rw [List.range'_succ, List.map_cons, encodeLoop, encodePixel_eq, if_neg hnflush]
        simp only
        rw [henc2]
        simp
      · intro rest data m0 hdl hag hm0
        rw [List.range'_succ, List.map_cons, decodeLoop, ite_append, List.append_assoc,
          decodePixel_step img hc hpx predictor m g hm2' hg k data hag m0 hm0 (tail' ++ rest)]
        simp only
        obtain ⟨hl2, ht2⟩ := set_take_succ data img.data k (by omega) (by omega) hag
        have h3 := hdec2 rest (data.set k (img.data.getD k 0)) m (by omega) ht2
          (fun _ => rfl)
        rw [if_neg hk256] at h3
        exact h3

end ImageCodec

/-! ## Header and estimator lemmas -/

theorem length_leBytes (size : Nat) : ∀ value : Nat, (leBytes value size).length = size := by
  induction size with
  | zero => intro value; rfl
  | succ size ih => intro value; simp [leBytes, ih]

theorem leValue_leBytes (size : Nat) : ∀ value : Nat, value < 256 ^ size →
    leValue (leBytes value size) = value := by
  induction size with
  | zero => intro value h; simp at h; simp [leBytes, leValue, h]
  | succ size ih =>
    intro value h
    have h1 : value / 256 < 256 ^ size := by
      apply Nat.div_lt_of_lt_mul
      rw [pow_succ] at h
      omega
    rw [leBytes, leValue, ih _ h1]
    omega

theorem readBytes_append (bytes rest : List Nat) :
    readBytes bytes.length (bytes ++ rest) = some (bytes, rest) := by
  unfold readBytes
  simp

theorem readInt_leBytes (x : Int) (h1 : -2147483648 ≤ x) (h2 : x < 2147483648)
    (rest : List Nat) : readInt (leBytes (toU32 x) 4 ++ rest) = some (x, rest) := by
  have hl := length_leBytes 4 (toU32 x)
  have hb := readBytes_append (leBytes (toU32 x) 4) rest
  rw [hl] at hb
  have hv : leValue (leBytes (toU32 x) 4) = toU32 x :=
    leValue_leBytes 4 _ (by unfold toU32; omega)
  unfold readInt
  rw [hb]
  simp only [hv]
  have : toI32 ((toU32 x : Nat) : Int) = x := by unfold toI32 toU32; omega
  rw [this]

theorem readUnsigned_leBytes (value : Nat) (h : value < 4294967296) (rest : List Nat) :
    readUnsigned (leBytes value 4 ++ rest) = some (value, rest) := by
  have hl := length_leBytes 4 value
  have hb := readBytes_append (leBytes value 4) rest
  rw [hl] at hb
  unfold readUnsigned
  rw [hb]
  simp only [leValue_leBytes 4 value (by omega)]

theorem readInt64_leBytes (x : Int) (h1 : -9223372036854775808 ≤ x)
    (h2 : x < 9223372036854775808) (rest : List Nat) :
    readInt64 (leBytes (toU64 x) 8 ++ rest) = some (x, rest) := by
  have hl := length_leBytes 8 (toU64 x)
  have hb := readBytes_append (leBytes (toU64 x) 8) rest
  rw [hl] at hb
  have hv : leValue (leBytes (toU64 x) 8) = toU64 x :=
    leValue_leBytes 8 _ (by unfold toU64; omega)
  unfold readInt64
  rw [hb]
  simp only [hv]
  have : toI64 ((toU64 x : Nat) : Int) = x := by unfold toI64 toU64; omega
  rw [this]

theorem toInt_range (mode : NegativeMode) :
    -2147483648 ≤ mode.toInt ∧ mode.toInt < 2147483648 := by
  cases mode <;> simp [NegativeMode.toInt]

theorem ofInt_toInt (mode : NegativeMode) : NegativeMode.ofInt mode.toInt = mode := by
  cases mode <;> simp [NegativeMode.toInt, NegativeMode.ofInt]

theorem audio_header_length (channels sampleRate frames : Int)
    (predictor : AudioCodec.PredictorType) (stereoMode : AudioCodec.StereoMode)
    (adaptiveM : Bool) (fixedM : Nat) (negativeMode : NegativeMode) :
    (AudioCodec.writeHeader channels sampleRate frames predictor stereoMode adaptiveM fixedM
      negativeMode).length = 40 := by
  unfold AudioCodec.writeHeader AudioCodec.magicAGOL
  simp [length_leBytes]

theorem image_header_length (width height : Int) (predictor : ImageCodec.PredictorType)
    (adaptiveM : Bool) (fixedM : Nat) (negativeMode : NegativeMode) :
    (ImageCodec.writeHeader width height predictor adaptiveM fixedM negativeMode).length =
      28 := by
  unfold ImageCodec.writeHeader ImageCodec.magicGIMG
  simp [length_leBytes]

theorem audio_header_read (channels sampleRate frames : Int)
    (predictor : AudioCodec.PredictorType) (stereoMode : AudioCodec.StereoMode)
    (adaptiveM : Bool) (fixedM : Nat) (negativeMode : NegativeMode) (payload : List Nat)
    (hch : -2147483648 ≤ channels ∧ channels < 2147483648)
    (hsr : -2147483648 ≤ sampleRate ∧ sampleRate < 2147483648)
    (hfr : -9223372036854775808 ≤ frames ∧ frames < 9223372036854775808)
    (hp : -2147483648 ≤ predictor ∧ predictor < 2147483648)
    (hst : -2147483648 ≤ stereoMode ∧ stereoMode < 2147483648)
    (hm : fixedM < 4294967296) :
    AudioCodec.readHeader (AudioCodec.writeHeader channels sampleRate frames predictor
        stereoMode adaptiveM fixedM negativeMode ++ payload) =
      .ok { channels := channels, sampleRate := sampleRate, frames := frames,
            predType := predictor, stereoType := stereoMode,
            adaptive := if adaptiveM then 1 else 0, m := fixedM,
            negMode := negativeMode.toInt } := by
  have hpi : toI32 predictor = predictor := toI32_of_range _ hp.1 hp.2
  have hsi : toI32 stereoMode = stereoMode := toI32_of_range _ hst.1 hst.2
  have had : -2147483648 ≤ (if adaptiveM then (1 : Int) else 0) ∧
      (if adaptiveM then (1 : Int) else 0) < 2147483648 := by
    cases adaptiveM <;> simp
  have hng := toInt_range negativeMode
  unfold AudioCodec.writeHeader AudioCodec.readHeader
  simp only [List.append_assoc, hpi, hsi, Nat.mod_eq_of_lt hm]
  have hmagic : AudioCodec.magicAGOL.length = 4 := rfl
  have ht : ∀ X : List Nat, (AudioCodec.magicAGOL ++ X).take 4 = AudioCodec.magicAGOL := by
    intro X; rw [← hmagic, List.take_left]
  have hd : ∀ X : List Nat, (AudioCodec.magicAGOL ++ X).drop 4 = X := by
    intro X; rw [← hmagic, List.drop_left]
  rw [ht, hd]
  simp only [ne_eq, not_true_eq_false, if_false]
  rw [readInt_leBytes _ hch.1 hch.2]
  simp only
  rw [readInt_leBytes _ hsr.1 hsr.2]
  simp only
  rw [readInt64_leBytes _ hfr.1 hfr.2]
  simp only
  rw [readInt_leBytes _ hp.1 hp.2]
  simp only
  rw [readInt_leBytes _ hst.1 hst.2]
  simp only
  rw [readInt_leBytes _ had.1 had.2]
  simp only
  rw [readUnsigned_leBytes _ hm]
  simp only
  rw [readInt_leBytes _ hng.1 hng.2]

theorem image_header_read (width height : Int) (predictor : ImageCodec.PredictorType)
    (adaptiveM : Bool) (fixedM : Nat) (negativeMode : NegativeMode) (payload : List Nat)
    (hw : -2147483648 ≤ width ∧ width < 2147483648)
    (hh : -2147483648 ≤ height ∧ height < 2147483648)
    (hp : -2147483648 ≤ predictor ∧ predictor < 2147483648)
    (hm : fixedM < 4294967296) :
    ImageCodec.readHeader (ImageCodec.writeHeader width height predictor adaptiveM fixedM
        negativeMode ++ payload) =
      .ok { width := width, height := height, predType := predictor,
            adaptive := if adaptiveM then 1 else 0, m := fixedM,
            negMode := negativeMode.toInt } := by
  have hpi : toI32 predictor = predictor := toI32_of_range _ hp.1 hp.2
  have had : -2147483648 ≤ (if adaptiveM then (1 : Int) else 0) ∧
      (if adaptiveM then (1 : Int) else 0) < 2147483648 := by
    cases adaptiveM <;> simp
  have hng := toInt_range negativeMode
  unfold ImageCodec.writeHeader ImageCodec.readHeader
  simp only [List.append_assoc, hpi, Nat.mod_eq_of_lt hm]
  have hmagic : ImageCodec.magicGIMG.length = 4 := rfl
  have ht : ∀ X : List Nat, (ImageCodec.magicGIMG ++ X).take 4 = ImageCodec.magicGIMG := by
    intro X; rw [← hmagic, List.take_left]
  have hd : ∀ X : List Nat, (ImageCodec.magicGIMG ++ X).drop 4 = X := by
    intro X; rw [← hmagic, List.drop_left]
  rw [ht, hd]
  simp only [ne_eq, not_true_eq_false, if_false]
  rw [readInt_leBytes _ hw.1 hw.2]
  simp only
  rw [readInt_leBytes _ hh.1 hh.2]
  simp only
  rw [readInt_leBytes _ hp.1 hp.2]
  simp only
  rw [readInt_leBytes _ had.1 had.2]
  simp only
  rw [readUnsigned_leBytes _ hm]
  simp only
  rw [readInt_leBytes _ hng.1 hng.2]

theorem drop_append_of_length (xs ys : List Nat) (n : Nat) (h : xs.length = n) :
    (xs ++ ys).drop n = ys := by
  subst h
  exact List.drop_left xs ys

theorem audio_header_negMode (channels sampleRate frames : Int)
    (predictor : AudioCodec.PredictorType) (stereoMode : AudioCodec.StereoMode)
    (adaptiveM : Bool) (fixedM : Nat) (negativeMode : NegativeMode) :
    (AudioCodec.writeHeader channels sampleRate frames predictor stereoMode adaptiveM fixedM
      negativeMode).drop 36 = leBytes (toU32 negativeMode.toInt) 4 := by
  unfold AudioCodec.writeHeader
  simp only
  exact drop_append_of_length _ _ 36 (by simp [length_leBytes, AudioCodec.magicAGOL])

theorem image_header_negMode (width height : Int) (predictor : ImageCodec.PredictorType)
    (adaptiveM : Bool) (fixedM : Nat) (negativeMode : NegativeMode) :
    (ImageCodec.writeHeader width height predictor adaptiveM fixedM negativeMode).drop 24 =
      leBytes (toU32 negativeMode.toInt) 4 := by
  unfold ImageCodec.writeHeader
  simp only
  exact drop_append_of_length _ _ 24 (by simp [length_leBytes, ImageCodec.magicGIMG])

/-! ## Length, Rice and reconstruction lemmas -/

namespace GolombCoding

theorem length_encodeUnsigned (g : GolombCoding) (n : Nat) :
    (g.encodeUnsigned n).length =
      n / g.m + 1 + (if n % g.m < g.cutoff then g.b else g.b + 1) := by
  rw [encodeUnsigned_eq, List.length_append, List.length_replicate, List.length_cons,
    length_remainderBits]
  omega

theorem length_encodeUnsigned_mono (g : GolombCoding) (n1 n2 : Nat) (h : n1 ≤ n2) :
    (g.encodeUnsigned n1).length ≤ (g.encodeUnsigned n2).length := by
  rw [length_encodeUnsigned, length_encodeUnsigned]
  have hq : n1 / g.m ≤ n2 / g.m := Nat.div_le_div_right h
  rcases Nat.eq_or_lt_of_le hq with heq | hlt
  · have h1 := Nat.div_add_mod n1 g.m
    have h2 := Nat.div_add_mod n2 g.m
    have hr : n1 % g.m ≤ n2 % g.m := by
      rw [heq] at h1
      omega
    split_ifs <;> omega
  · split_ifs <;> omega

theorem new_two_pow (k : Nat) (mode : NegativeMode) (hk : k < 32) :
    GolombCoding.new (2 ^ k) mode =
      .ok { m := 2 ^ k, b := k, cutoff := 2 ^ k, mode := mode } := by
  have h1 : 1 ≤ 2 ^ k := Nat.one_le_two_pow
  have h2 : 2 ^ k < 4294967296 := by
    have h3 : 2 ^ k < 2 ^ 32 := Nat.pow_lt_pow_right (by decide) hk
    have h4 : (2 : Nat) ^ 32 = 4294967296 := by norm_num
    omega
  have hb : floorLog2 (2 ^ k) = k := by
    rw [floorLog2_eq_log2 _ h1, Nat.log2_two_pow]
  rw [new_ok _ mode h1 h2, hb]
  have hc : 2 ^ (k + 1) - 2 ^ k = 2 ^ k := by
    rw [pow_succ]; omega
  rw [hc]

theorem foldl_shiftIn_lt : ∀ (xs : List Bool) (acc : Nat),
    (acc + 1) * 2 ^ xs.length ≤ 4294967296 →
    xs.foldl shiftIn acc < (acc + 1) * 2 ^ xs.length := by
  intro xs
  induction xs with
  | nil => intro acc _; simp
  | cons c cs ih =>
    intro acc h
    have hk : 0 < 2 ^ cs.length := Nat.two_pow_pos _
    rw [List.length_cons, pow_succ] at h ⊢
    have h1 : (acc + 1) * (2 ^ cs.length * 2) = (2 * acc + 2) * 2 ^ cs.length := by ring
    rw [h1] at h ⊢
    have h2 : 2 * acc + 2 ≤ 4294967296 := by
      by_contra hc
      have : (2 * acc + 2) * 2 ^ cs.length ≥ (2 * acc + 2) * 1 := Nat.mul_le_mul_left _ hk
      omega
    have hc1 : c.toNat ≤ 1 := by cases c <;> simp
    rw [List.foldl_cons, shiftIn_eq _ _ (by omega)]
    have h3 : (2 * acc + c.toNat + 1) * 2 ^ cs.length ≤ (2 * acc + 2) * 2 ^ cs.length :=
      Nat.mul_le_mul_right _ (by omega)
    exact Nat.lt_of_lt_of_le (ih _ (by omega)) h3

end GolombCoding

namespace ImageCodec

theorem predict_bounds_tight (img : Mat) (hpx : ∀ x ∈ img.data, x ≤ 255) (row col : Nat)
    (predictor : PredictorType) :
    -127 ≤ predict img row col predictor ∧ predict img row col predictor ≤ 382 := by
  have hl : (0 : Int) ≤ (if col > 0 then (img.pixelAt row (col - 1) : Int) else 128) ∧
      (if col > 0 then (img.pixelAt row (col - 1) : Int) else 128) ≤ 255 := by
    have := pixelAt_le img hpx row (col - 1)
    split_ifs <;> omega
  have ht : (0 : Int) ≤ (if row > 0 then (img.pixelAt (row - 1) col : Int) else 128) ∧
      (if row > 0 then (img.pixelAt (row - 1) col : Int) else 128) ≤ 255 := by
    have := pixelAt_le img hpx (row - 1) col
    split_ifs <;> omega
  have htl : (0 : Int) ≤
      (if row > 0 ∧ col > 0 then (img.pixelAt (row - 1) (col - 1) : Int) else 128) ∧
      (if row > 0 ∧ col > 0 then (img.pixelAt (row - 1) (col - 1) : Int) else 128) ≤ 255 := by
    have := pixelAt_le img hpx (row - 1) (col - 1)
    split_ifs <;> omega
  unfold predict
  simp only
  generalize (if col > 0 then (img.pixelAt row (col - 1) : Int) else 128) = left at hl ⊢
  generalize (if row > 0 then (img.pixelAt (row - 1) col : Int) else 128) = top at ht ⊢
  generalize (if row > 0 ∧ col > 0 then (img.pixelAt (row - 1) (col - 1) : Int) else 128)
    = topLeft at htl ⊢
  have b1 := tdiv_two_bounds (left + top) (by omega) (by omega)
  have b2 := tdiv_two_bounds (top - topLeft) (by omega) (by omega)
  have b3 := tdiv_two_bounds (left - topLeft) (by omega) (by omega)
  have b1' : Int.tdiv (left + top) 2 ≤ 255 := by
    rw [Int.tdiv_eq_ediv (by omega) (by decide)]
    omega
  split_ifs <;> omega

end ImageCodec

/-! ## Stereo and block structure lemmas -/

namespace AudioCodec

theorem take_succ_getD (s : List Int) (n : Nat) (h : n < s.length) :
    s.take (n + 1) = s.take n ++ [s.getD n 0] := by
  rw [List.getD_eq_getElem _ _ h, List.take_succ, List.getElem?_eq_getElem h]
  rfl

theorem interleave_eq_take (s ch1 ch2 : List Int) : ∀ frames : Nat,
    2 * frames ≤ s.length →
    (∀ i, i < frames → ch1.getD i 0 = s.getD (i * 2) 0 ∧ ch2.getD i 0 = s.getD (i * 2 + 1) 0) →
    interleave ch1 ch2 frames = s.take (2 * frames) := by
  intro frames
  induction frames with
  | zero => intro _ _; simp [interleave]
  | succ f ih =>
    intro hlen h
    have h1 := ih (by omega) (fun i hi => h i (by omega))
    obtain ⟨ha, hb⟩ := h f (by omega)
    unfold interleave at h1 ⊢
    rw [List.range_succ, List.flatMap_append, h1]
    have h2 : 2 * (f + 1) = 2 * f + 1 + 1 := by ring
    have h3 : f * 2 = 2 * f := by ring
    rw [h2, take_succ_getD s (2 * f + 1) (by omega), take_succ_getD s (2 * f) (by omega)]
    simp only [List.flatMap_cons, List.flatMap_nil, List.append_nil, ha, hb, h3,
      List.append_assoc, List.singleton_append]

theorem getD_map_range (f : Nat → Int) (frames i : Nat) (h : i < frames) :
    ((List.range frames).map f).getD i 0 = f i := by
  rw [List.getD_eq_getElem _ _ (by simp [h])]
  simp

theorem interleave_deinterleave (samples : List Int) (frames : Nat)
    (hlen : samples.length = 2 * frames) :
    interleave (deinterleave samples frames).1 (deinterleave samples frames).2 frames =
      samples := by
  have h := interleave_eq_take samples (deinterleave samples frames).1
    (deinterleave samples frames).2 frames (by omega) (by
      intro i hi
      unfold deinterleave
      exact ⟨getD_map_range _ frames i hi, getD_map_range _ frames i hi⟩)
  rw [h, ← hlen, List.take_length]

theorem deinterleave_facts (samples : List Int) (frames : Nat)
    (hs : ∀ s ∈ samples, IsInt16 s) :
    (deinterleave samples frames).1.length = frames ∧
      (deinterleave samples frames).2.length = frames ∧
      (∀ s ∈ (deinterleave samples frames).1, IsInt16 s) ∧
      (∀ s ∈ (deinterleave samples frames).2, IsInt16 s) := by
  unfold deinterleave
  refine ⟨by simp, by simp, ?_, ?_⟩
  · intro s h
    rw [List.mem_map] at h
    obtain ⟨i, _, rfl⟩ := h
    exact isInt16_getD samples hs _
  · intro s h
    rw [List.mem_map] at h
    obtain ⟨i, _, rfl⟩ := h
    exact isInt16_getD samples hs _

/-- A channel stream in interleaved mode: `encodeChannel` appends a bit sequence that
does not depend on the stream written so far, and `decodeChannel` rebuilds the samples
from it and leaves what follows it in the stream. -/
theorem channel_round_trip (ceilLog : Nat → Nat → Nat) (samples : List Int)
    (hs : ∀ s ∈ samples, IsInt16 s) (predictor : PredictorType) (adaptiveM : Bool)
    (fixedM : Nat) (hm : adaptiveM = true ∨ (1 ≤ fixedM ∧ fixedM ≤ 65535)) :
    ∃ bits : List Bool,
      (∀ bs, encodeChannel ceilLog samples bs predictor adaptiveM fixedM .INTERLEAVED =
        .ok (bs ++ bits)) ∧
      (∀ rest, decodeChannel (bits ++ rest) samples.length predictor .INTERLEAVED =
        .ok (samples, rest)) := by
  obtain ⟨bits, h1, h2⟩ := channel_loop ceilLog samples hs predictor adaptiveM fixedM hm
    samples.length 0 (by omega) (by omega)
  exact ⟨bits, h1, h2⟩

theorem blockM_range (ceilLog : Nat → Nat → Nat) (samples : List Int)
    (predictor : PredictorType) (adaptiveM : Bool) (fixedM : Nat)
    (hm : adaptiveM = true ∨ (1 ≤ fixedM ∧ fixedM ≤ 65535)) (j : Nat) :
    1 ≤ blockM ceilLog samples predictor adaptiveM fixedM j ∧
      blockM ceilLog samples predictor adaptiveM fixedM j ≤ 65535 := by
  unfold blockM
  by_cases ha : adaptiveM = true
  · simp only [ha, if_true]
    exact audio_estimate_range _ _
  · simp only [ha, if_false]
    rcases hm with h | h
    · exact absurd h ha
    · exact h

/-- The loop of `encodeChannel` from the start of block `j` on: it appends the remaining
blocks, each a 16-bit `m` followed by the codewords of the block's residuals. -/
theorem encode_blocks (ceilLog : Nat → Nat → Nat) (samples : List Int)
    (predictor : PredictorType) (adaptiveM : Bool) (fixedM : Nat)
    (negativeMode : NegativeMode) (coder : Nat → GolombCoding)
    (hc : ∀ j, newCoder (blockM ceilLog samples predictor adaptiveM fixedM j) negativeMode =
      .ok (coder j)) :
    ∀ (fuel j : Nat) (bs : BitStream), blockCount samples.length ≤ j + fuel →
      encodeChannelLoop ceilLog samples predictor adaptiveM fixedM negativeMode fuel
          (min (1024 * j) samples.length) bs =
        .ok (bs ++ (List.range' j (blockCount samples.length - j)).flatMap (fun j =>
          BitStream.msbFirst (blockM ceilLog samples predictor adaptiveM fixedM j) 16 ++
            (blockResiduals samples predictor (1024 * j)
              (min (1024 * j + 1024) samples.length)).flatMap (coder j).encode)) := by
  intro fuel
  induction fuel with
  | zero =>
    intro j bs h
    unfold blockCount at h ⊢
    have hn : ¬ min (1024 * j) samples.length < samples.length := by omega
    have h0 : (samples.length + 1023) / 1024 - j = 0 := by omega
    rw [h0]
    simp [encodeChannelLoop, hn]
  | succ fuel ih =>
    intro j bs h
    by_cases hlt : 1024 * j < samples.length
    · have hpos : min (1024 * j) samples.length = 1024 * j := by omega
      have hlt2 : 1024 * j < samples.length := hlt
      have hend : min (1024 * j + 1024) samples.length =
          min (1024 * (j + 1)) samples.length := by
        have : 1024 * (j + 1) = 1024 * j + 1024 := by ring
        rw [this]
      have hj : j < blockCount samples.length := by unfold blockCount; omega
      have hr : blockCount samples.length - j = (blockCount samples.length - (j + 1)) + 1 := by
        omega
      have hm := hc j
      unfold blockM at hm
      rw [hpos, encodeChannelLoop]
      simp only [hlt2, if_true, hm]
      rw [hend, ih (j + 1) _ (by omega), writeResiduals_eq, hr, List.range'_succ,
        List.flatMap_cons]
      unfold BitStream.write_n_bits blockM
      rw [hend]
      simp only [List.append_assoc]
    · have hn : ¬ min (1024 * j) samples.length < samples.length := by omega
      have h0 : blockCount samples.length - j = 0 := by unfold blockCount; omega
      rw [h0]
      cases fuel <;> simp [encodeChannelLoop, hn]

/-- The loop of `decodeChannel` from the start of block `j` on is the decoding of the
remaining blocks with the sizes computed from `n`, on every stream. -/
theorem decode_blocks (n : Nat) (predictor : PredictorType) (negativeMode : NegativeMode) :
    ∀ (fuel j : Nat) (bs : BitStream) (acc : List Int), blockCount n ≤ j + fuel →
      decodeChannelLoop n predictor negativeMode fuel (min (1024 * j) n) bs acc =
        decodeBlocks predictor negativeMode
          ((List.range' j (blockCount n - j)).map (blockSize n)) bs acc := by
  intro fuel
  induction fuel with
  | zero =>
    intro j bs acc h
    have hn : ¬ min (1024 * j) n < n := by unfold blockCount at h; omega
    have h0 : blockCount n - j = 0 := by omega
    rw [h0]
    simp [decodeChannelLoop, decodeBlocks, hn]
  | succ fuel ih =>
    intro j bs acc h
    by_cases hlt : 1024 * j < n
    · have hpos : min (1024 * j) n = 1024 * j := by omega
      have hend : min (1024 * j + 1024) n = min (1024 * (j + 1)) n := by
        have : 1024 * (j + 1) = 1024 * j + 1024 := by ring
        rw [this]
      have hj : j < blockCount n := by unfold blockCount; omega
      have hr : blockCount n - j = (blockCount n - (j + 1)) + 1 := by omega
      rw [hpos, decodeChannelLoop, hr, List.range'_succ, List.map_cons, decodeBlocks]
      simp only [hlt, if_true]
      cases hrd : BitStream.read_n_bits bs 16 with
      | none => rfl
      | some p =>
        obtain ⟨m, bs1⟩ := p
        simp only
        cases hnc : newCoder m negativeMode with
        | error e => rfl
        | ok g =>
          simp only
          have hsz : min (1024 * j + 1024) n - 1024 * j = blockSize n j := rfl
          rw [hsz]
          cases hdb : decodeBlock g m predictor (blockSize n j) bs1 acc with
          | error e => rfl
          | ok q =>
            obtain ⟨acc1, bs2⟩ := q
            simp only
            rw [hend]
            exact ih (j + 1) bs2 acc1 (by omega)
    · have hn : ¬ min (1024 * j) n < n := by omega
      have h0 : blockCount n - j = 0 := by unfold blockCount; omega
      rw [h0]
      cases fuel <;> simp [decodeChannelLoop, decodeBlocks, hn]

theorem blockSize_facts (n : Nat) :
    blockCount n * 1024 < n + 1024 ∧ n ≤ blockCount n * 1024 ∧
      (∀ j, j + 1 < blockCount n → blockSize n j = 1024) ∧
      (0 < n → blockSize n (blockCount n - 1) = n - 1024 * (blockCount n - 1) ∧
        1 ≤ blockSize n (blockCount n - 1) ∧ blockSize n (blockCount n - 1) ≤ 1024) := by
  unfold blockCount blockSize
  refine ⟨by omega, by omega, ?_, ?_⟩
  · intro j h
    omega
  · intro h
    omega

end AudioCodec

/-! ## Decoder entry lemmas -/

namespace AudioCodec

theorem audio_bad_magic (file : List Nat) (h : file.take 4 ≠ magicAGOL) :
    readHeader file = .error .invalidMagic := by
  unfold readHeader
  rw [if_pos h]

theorem audio_good_magic (file : List Nat) (h : file.take 4 = magicAGOL) :
    readHeader file ≠ .error .invalidMagic := by
  intro hc
  unfold readHeader at hc
  rw [if_neg (not_not.mpr h)] at hc
  repeat (split at hc; · cases hc)
  cases hc

theorem decodeFile_bad_magic (file : List Nat) (h : file.take 4 ≠ magicAGOL) :
    decodeFile file = .error (.header .invalidMagic) := by
  unfold decodeFile
  rw [audio_bad_magic file h]

theorem decodePayload_ne_header (bs : BitStream) (channels : Int) (frames : Nat)
    (predictor : PredictorType) (stereoMode : StereoMode) (negativeMode : NegativeMode)
    (e : HeaderError) :
    decodePayload bs channels frames predictor stereoMode negativeMode ≠
      .error (.header e) := by
  unfold decodePayload
  by_cases h1 : channels = 1
  · simp only [h1, if_true]
    cases decodeChannel bs frames predictor negativeMode with
    | error e1 => simp
    | ok p => simp
  · simp only [h1, if_false]
    by_cases h2 : channels = 2
    · simp only [h2, if_true]
      cases decodeChannel bs frames predictor negativeMode with
      | error e1 => simp
      | ok p =>
        obtain ⟨ch1, bs1⟩ := p
        simp only
        cases decodeChannel bs1 frames predictor negativeMode with
        | error e2 => simp
        | ok q =>
          simp only
          split_ifs <;> simp
    · simp [h2]

theorem decodeFile_good_magic (file : List Nat) (h : file.take 4 = magicAGOL) :
    decodeFile file ≠ .error (.header .invalidMagic) := by
  intro hc
  have hg := audio_good_magic file h
  unfold decodeFile at hc
  cases hr : readHeader file with
  | error e =>
    rw [hr] at hc
    simp only at hc
    injection hc with hc
    injection hc with hc
    rw [hr, hc] at hg
    exact hg rfl
  | ok hd =>
    rw [hr] at hc
    simp only at hc
    have hne := decodePayload_ne_header (BitStream.ofBytes (file.drop payloadOffset))
      hd.channels (toU64 hd.frames) hd.predictor hd.stereoMode hd.negativeMode .invalidMagic
    cases hdp : decodePayload (BitStream.ofBytes (file.drop payloadOffset))
        hd.channels (toU64 hd.frames) hd.predictor hd.stereoMode hd.negativeMode with
    | error e =>
      rw [hdp] at hc hne
      simp only at hc
      injection hc with hc
      rw [hc] at hne
      exact hne rfl
    | ok q =>
      rw [hdp] at hc
      simp only at hc
      cases hc

/-- A mono file written with any predictor code: the decoder reads the code from the
header, hands it to `decodeChannel` unchecked and rebuilds the samples. -/
theorem decodeFile_mono (ceilLog : Nat → Nat → Nat) (samples : List Int)
    (hs : ∀ s ∈ samples, IsInt16 s) (hn : samples.length < 9223372036854775808)
    (sampleRate : Int) (hsr : -2147483648 ≤ sampleRate ∧ sampleRate < 2147483648)
    (predictor : PredictorType) (hp : -2147483648 ≤ predictor ∧ predictor < 2147483648)
    (stereoMode : StereoMode) (hst : -2147483648 ≤ stereoMode ∧ stereoMode < 2147483648)
    (adaptiveM : Bool) (fixedM : Nat) (hf : fixedM < 4294967296)
    (hm : adaptiveM = true ∨ (1 ≤ fixedM ∧ fixedM ≤ 65535)) :
    ∃ bits : List Bool,
      (∀ bs, encodeChannel ceilLog samples bs predictor adaptiveM fixedM .INTERLEAVED =
        .ok (bs ++ bits)) ∧
      ∀ bytes tail, BitStream.ofBytes bytes = bits ++ tail →
        decodeFile (writeHeader 1 (sampleRate) (samples.length : Int) predictor stereoMode
            adaptiveM fixedM .INTERLEAVED ++ bytes) =
          .ok ({ channels := 1, sampleRate := sampleRate, frames := (samples.length : Int),
                 predType := predictor, stereoType := stereoMode,
                 adaptive := if adaptiveM then 1 else 0, m := fixedM,
                 negMode := NegativeMode.toInt .INTERLEAVED }, samples) := by
  obtain ⟨bits, henc, hdec⟩ := channel_round_trip ceilLog samples hs predictor adaptiveM
    fixedM hm
  refine ⟨bits, henc, ?_⟩
  intro bytes tail hb
  have hrd := audio_header_read 1 sampleRate (samples.length : Int) predictor stereoMode
    adaptiveM fixedM .INTERLEAVED bytes (by decide) hsr (by omega) hp hst hf
  have hdrop := drop_append_of_length
    (writeHeader 1 sampleRate (samples.length : Int) predictor stereoMode adaptiveM fixedM
      .INTERLEAVED) bytes payloadOffset (audio_header_length _ _ _ _ _ _ _ _)
  have hfr : toU64 (samples.length : Int) = samples.length := by
    unfold toU64
    omega
  unfold decodeFile
  rw [hrd]
  simp only [hdrop, hb, hfr]
  unfold decodePayload Header.predictor Header.negativeMode
  simp only [if_true, ofInt_toInt, hdec tail]

end AudioCodec

namespace ImageCodec

theorem image_bad_magic (file : List Nat) (h : file.take 4 ≠ magicGIMG) :
    readHeader file = .error .invalidMagic := by
  unfold readHeader
  rw [if_pos h]

theorem image_good_magic (file : List Nat) (h : file.take 4 = magicGIMG) :
    readHeader file ≠ .error .invalidMagic := by
  intro hc
  unfold readHeader at hc
  rw [if_neg (not_not.mpr h)] at hc
  repeat (split at hc; · cases hc)
  cases hc

theorem decodeImage_bad_magic (file initial : List Nat) (h : file.take 4 ≠ magicGIMG) :
    decodeImage file initial = .error (.header .invalidMagic) := by
  unfold decodeImage
  rw [image_bad_magic file h]

theorem decodeImage_good_magic (file initial : List Nat) (h : file.take 4 = magicGIMG) :
    decodeImage file initial ≠ .error (.header .invalidMagic) := by
  intro hc
  have hg := image_good_magic file h
  unfold decodeImage at hc
  cases hr : readHeader file with
  | error e =>
    rw [hr] at hc
    simp only at hc
    injection hc with hc
    injection hc with hc
    rw [hr, hc] at hg
    exact hg rfl
  | ok hd =>
    rw [hr] at hc
    simp only at hc
    repeat (split at hc <;> try cases hc)

end ImageCodec

/-! ## Mid-side, parameter update and linear prediction lemmas -/

namespace AudioCodec

theorem midSide_frame (l r : Int) (hl : IsInt16 l) (hr : IsInt16 r) :
    (convertToMidSide1 l r).1 = (l + r) / 2 ∧
      IsInt16 ((l + r) / 2) ∧
      (convertToMidSide1 l r).2 = toI16 (l - r) ∧
      ((-32768 ≤ l - r ∧ l - r ≤ 32767) → (convertToMidSide1 l r).2 = l - r) ∧
      (convertFromMidSide1 (convertToMidSide1 l r).1 (convertToMidSide1 l r).2 = (l, r) ↔
        (-32768 ≤ l - r ∧ l - r ≤ 32767)) := by
  unfold IsInt16 at *
  unfold convertFromMidSide1 convertToMidSide1
  simp only [Prod.mk.injEq]
  unfold toI16 toI32
  refine ⟨by omega, by omega, by omega, by omega, ?_⟩
  constructor
  · intro h
    omega
  · intro h
    omega

theorem map_range_eq_iff (f : Nat → Int) (xs : List Int) (n : Nat) (h : xs.length = n) :
    (List.range n).map f = xs ↔ ∀ i, i < n → f i = xs.getD i 0 := by
  constructor
  · intro he i hi
    rw [← he, getD_map_range f n i hi]
  · intro hp
    apply List.ext_getElem
    · simp [h]
    · intro i h1 h2
      have hi : i < n := by simpa using h1
      have h3 := hp i hi
      rw [List.getD_eq_getElem _ _ h2] at h3
      simp [h3]

theorem convertFromMidSide_convertToMidSide (left right : List Int) :
    convertFromMidSide (convertToMidSide left right).1 (convertToMidSide left right).2 =
      ((List.range left.length).map (fun i =>
          (convertFromMidSide1 (convertToMidSide1 (left.getD i 0) (right.getD i 0)).1
            (convertToMidSide1 (left.getD i 0) (right.getD i 0)).2).1),
       (List.range left.length).map (fun i =>
          (convertFromMidSide1 (convertToMidSide1 (left.getD i 0) (right.getD i 0)).1
            (convertToMidSide1 (left.getD i 0) (right.getD i 0)).2).2)) := by
  unfold convertFromMidSide convertToMidSide
  simp only [List.length_map, List.length_range]
  refine Prod.ext ?_ ?_
  · apply List.map_congr_left
    intro i hi
    rw [List.mem_range] at hi
    simp only [getD_map_range _ _ i hi]
  · apply List.map_congr_left
    intro i hi
    rw [List.mem_range] at hi
    simp only [getD_map_range _ _ i hi]

/-- The two conversions on whole channels, frame by frame. -/
theorem midSide_channels (left right : List Int) (hlen : left.length = right.length) :
    convertFromMidSide (convertToMidSide left right).1 (convertToMidSide left right).2 =
        (left, right) ↔
      ∀ i, i < left.length →
        convertFromMidSide1 (convertToMidSide1 (left.getD i 0) (right.getD i 0)).1
          (convertToMidSide1 (left.getD i 0) (right.getD i 0)).2 =
            (left.getD i 0, right.getD i 0) := by
  rw [convertFromMidSide_convertToMidSide, Prod.mk.injEq,
    map_range_eq_iff _ left left.length rfl, map_range_eq_iff _ right left.length hlen.symm]
  constructor
  · intro ⟨ha, hb⟩ i hi
    exact Prod.ext (ha i hi) (hb i hi)
  · intro h
    exact ⟨fun i hi => congrArg Prod.fst (h i hi), fun i hi => congrArg Prod.snd (h i hi)⟩

/-- On an arithmetic progression of int16 samples the second-order prediction from index
2 on and the third-order prediction from index 3 on are the sample itself. -/
theorem predict_linear (samples : List Int) (s0 d : Int) (hs : ∀ s ∈ samples, IsInt16 s)
    (hlin : ∀ j, j < samples.length → samples.getD j 0 = s0 + (j : Int) * d) (i : Nat)
    (hi : i < samples.length) :
    (2 ≤ i → predict samples i ORDER_2 = samples.getD i 0) ∧
      (3 ≤ i → predict samples i ORDER_3 = samples.getD i 0) := by
  have hx := isInt16_getD samples hs i
  unfold IsInt16 at hx
  have h21 : ¬ (ORDER_2 = ORDER_1) := by decide
  have h31 : ¬ (ORDER_3 = ORDER_1) := by decide
  have h32 : ¬ (ORDER_3 = ORDER_2) := by decide
  have hcl : clamp (toI32 (samples.getD i 0)) = samples.getD i 0 := by
    unfold clamp clampInt toI16 toI32
    split_ifs <;> omega
  constructor
  · intro h2
    have e1 : 2 * samples.getD (i - 1) 0 - samples.getD (i - 2) 0 = samples.getD i 0 := by
      rw [hlin (i - 1) (by omega), hlin (i - 2) (by omega), hlin i hi]
      have c1 : ((i - 1 : Nat) : Int) = (i : Int) - 1 := by omega
      have c2 : ((i - 2 : Nat) : Int) = (i : Int) - 2 := by omega
      rw [c1, c2]
      ring
    unfold predict
    rw [if_neg (by omega), if_neg h21, if_pos rfl, if_neg (by omega), e1, hcl]
  · intro h3
    have e1 : 3 * samples.getD (i - 1) 0 - 3 * samples.getD (i - 2) 0 +
        samples.getD (i - 3) 0 = samples.getD i 0 := by
      rw [hlin (i - 1) (by omega), hlin (i - 2) (by omega), hlin (i - 3) (by omega),
        hlin i hi]
      have c1 : ((i - 1 : Nat) : Int) = (i : Int) - 1 := by omega
      have c2 : ((i - 2 : Nat) : Int) = (i : Int) - 2 := by omega
      have c3 : ((i - 3 : Nat) : Int) = (i : Int) - 3 := by omega
      rw [c1, c2, c3]
      ring
    unfold predict
    rw [if_neg (by omega), if_neg h31, if_neg h32, if_pos rfl, if_neg (by omega),
      if_neg (by omega), e1, hcl]

end AudioCodec

namespace GolombCoding

/-- The method `calculateParameters` overwrites `b` and `cutoff`: its result depends on
`m` and `mode` only. -/
theorem calculateParameters_congr (g1 g2 : GolombCoding) (hm : g1.m = g2.m)
    (hmode : g1.mode = g2.mode) : calculateParameters g1 = calculateParameters g2 := by
  obtain ⟨m1, b1, c1, mode1⟩ := g1
  obtain ⟨m2, b2, c2, mode2⟩ := g2
  simp only at hm hmode
  subst hm
  subst hmode
  rfl

theorem new_exists (m : Nat) (mode : NegativeMode) (h : 1 ≤ m) :
    ∃ g, GolombCoding.new m mode = .ok g ∧ g.m = m ∧ g.mode = mode := by
  have hm0 : m ≠ 0 := by omega
  exact ⟨_, if_neg hm0, rfl, rfl⟩

theorem setM_zero (g : GolombCoding) :
    g.setM 0 = ({ g with m := 0 }, .error .mNotPositive) := rfl

theorem setM_pos (g : GolombCoding) (k : Nat) (h : 1 ≤ k) :
    ∃ g1, GolombCoding.new k g.mode = .ok g1 ∧ g.setM k = (g1, .ok ()) := by
  obtain ⟨g1, h1, _, _⟩ := new_exists k g.mode h
  refine ⟨g1, h1, ?_⟩
  have h2 : calculateParameters { g with m := k } = .ok g1 := by
    rw [← h1]
    exact calculateParameters_congr _ _ rfl rfl
  unfold setM
  simp only [h2]

end GolombCoding

/-! ## Lemmas on decoding arbitrary bit sequences -/

namespace GolombCoding

/-- A bit sequence whose run of leading zeros ends inside it is that run, a one bit, and
the rest. -/
theorem eq_replicate_zeroRun : ∀ xs : List Bool, zeroRun xs < xs.length →
    xs = List.replicate (zeroRun xs) false ++ true :: xs.drop (zeroRun xs + 1) := by
  intro xs
  induction xs with
  | nil => intro h; simp [zeroRun] at h
  | cons c cs ih =>
    intro h
    cases c with
    | true => simp [zeroRun]
    | false =>
      simp only [zeroRun, List.length_cons] at h ⊢
      have h2 := ih (by omega)
      rw [List.replicate_succ, List.cons_append, List.drop_succ_cons]
      exact congrArg (List.cons false) h2

theorem zeroRun_le : ∀ xs : List Bool, zeroRun xs ≤ xs.length := by
  intro xs
  induction xs with
  | nil => simp [zeroRun]
  | cons c cs ih =>
    cases c with
    | true => simp [zeroRun]
    | false =>
      simp only [zeroRun, List.length_cons]
      omega

/-- The method `decodeUnsigned` on any bit sequence and start position is `decodeTail`
after the unary run, whenever the run ends inside the sequence. -/
theorem decodeUnsigned_eq_decodeTail (g : GolombCoding) (bits : List Bool) (start : Nat)
    (h : start + zeroRun (bits.drop start) < bits.length) :
    g.decodeUnsigned bits start =
      g.decodeTail (zeroRun (bits.drop start))
        (bits.drop (start + zeroRun (bits.drop start) + 1)) := by
  have hlen : (bits.take start).length = start := by
    rw [List.length_take]; omega
  have hrun : zeroRun (bits.drop start) < (bits.drop start).length := by
    rw [List.length_drop]; omega
  have hsplit := eq_replicate_zeroRun (bits.drop start) hrun
  have hbits : bits = bits.take start ++ (List.replicate (zeroRun (bits.drop start)) false ++
      true :: (bits.drop start).drop (zeroRun (bits.drop start) + 1)) := by
    rw [← hsplit, List.take_append_drop]
  have hdd : (bits.drop start).drop (zeroRun (bits.drop start) + 1) =
      bits.drop (start + zeroRun (bits.drop start) + 1) := by
    rw [List.drop_drop]
    congr 1
  have h2 := decodeUnsigned_unary g (bits.take start)
    ((bits.drop start).drop (zeroRun (bits.drop start) + 1)) (zeroRun (bits.drop start))
  rw [← hbits, hlen, hdd] at h2
  exact h2

/-- A successful `decodeUnsigned` has found the terminator inside the sequence. -/
theorem run_lt_of_decodeUnsigned (g : GolombCoding) (bits : List Bool) (start u k : Nat)
    (h : g.decodeUnsigned bits start = .ok (u, k)) :
    start + zeroRun (bits.drop start) < bits.length := by
  unfold decodeUnsigned at h
  simp only at h
  by_contra hc
  split_ifs at h <;> omega

/-- A successful `decodeUnsigned` has consumed at least one bit and no bit beyond the
end of the sequence. -/
theorem decodeUnsigned_bounds (g : GolombCoding) (bits : List Bool) (start u k : Nat)
    (h : g.decodeUnsigned bits start = .ok (u, k)) : 1 ≤ k ∧ start + k ≤ bits.length := by
  unfold decodeUnsigned at h
  simp only at h
  split_ifs at h <;> (injection h with h; injection h with _ h; omega)

theorem decode_bounds (g : GolombCoding) (bits : List Bool) (start : Nat) (n : Int) (k : Nat)
    (h : g.decode bits start = .ok (n, k)) :
    1 ≤ k ∧ (g.mode = .SIGN_MAGNITUDE → 2 ≤ k) ∧ start + k ≤ bits.length := by
  unfold decode at h
  by_cases hs : start ≥ bits.length
  · rw [if_pos hs] at h
    cases h
  · rw [if_neg hs] at h
    cases hmode : g.mode with
    | SIGN_MAGNITUDE =>
      rw [hmode] at h
      simp only at h
      cases hd : g.decodeUnsigned bits (start + 1) with
      | error e =>
        rw [hd] at h
        cases h
      | ok p =>
        obtain ⟨u, k1⟩ := p
        rw [hd] at h
        simp only at h
        injection h with h
        injection h with _ h
        obtain ⟨b1, b2⟩ := decodeUnsigned_bounds g bits (start + 1) u k1 hd
        exact ⟨by omega, (fun _ => by omega), by omega⟩
    | INTERLEAVED =>
      rw [hmode] at h
      simp only at h
      cases hd : g.decodeUnsigned bits start with
      | error e =>
        rw [hd] at h
        cases h
      | ok p =>
        obtain ⟨u, k1⟩ := p
        rw [hd] at h
        simp only at h
        injection h with h
        injection h with _ h
        obtain ⟨b1, b2⟩ := decodeUnsigned_bounds g bits start u k1 hd
        exact ⟨by omega, (fun hc => by cases hc), by omega⟩

theorem readAt_ok (bits : List Bool) (pos : Nat) (h : pos < bits.length) :
    readAt bits pos = .ok (bits.getD pos false) := by
  unfold readAt
  rw [List.getElem?_eq_getElem h, List.getD_eq_getElem _ _ h]

theorem scanChecked_eq (bits : List Bool) : ∀ (fuel q pos : Nat),
    bits.length - pos < fuel → q < 4294967296 →
    scanChecked bits fuel q pos =
      .ok ((q + zeroRun (bits.drop pos)) % 4294967296, pos + zeroRun (bits.drop pos)) := by
  intro fuel
  induction fuel with
  | zero =>
    intro q pos h hq
    omega
  | succ fuel ih =>
    intro q pos h hq
    rw [scanChecked]
    by_cases hlt : pos < bits.length
    · have hd : bits.drop pos = bits[pos] :: bits.drop (pos + 1) := by
        rw [List.drop_eq_getElem_cons hlt]
      rw [if_pos hlt, readAt_ok bits pos hlt, List.getD_eq_getElem _ _ hlt, hd]
      simp only
      cases hc : bits[pos] with
      | true =>
        simp only [zeroRun, if_true, Nat.add_zero]
        rw [Nat.mod_eq_of_lt hq]
      | false =>
        simp only [zeroRun, Bool.false_eq_true, if_false]
        rw [ih _ _ (by omega) (Nat.mod_lt _ (by decide))]
        congr 2
        all_goals omega
    · have hd : bits.drop pos = [] := List.drop_eq_nil_of_le (by omega)
      rw [if_neg hlt, hd]
      simp only [zeroRun, Nat.add_zero]
      rw [Nat.mod_eq_of_lt hq]

theorem readBitsChecked_eq (bits : List Bool) : ∀ (count pos r : Nat),
    pos + count ≤ bits.length →
    readBitsChecked bits count pos r = .ok (readBits bits count pos r) := by
  intro count
  induction count with
  | zero => intro pos r _; rfl
  | succ count ih =>
    intro pos r h
    rw [readBitsChecked, readBits, readAt_ok bits pos (by omega)]
    simp only
    exact ih _ _ (by omega)

/-- The method `decodeUnsigned` performs no element access outside the sequence and its
scan ends within `bits.size() + 1` evaluations of the loop condition: the run with
explicit accesses ends without a fault, with the result of the model. -/
theorem decodeUnsignedChecked_eq (g : GolombCoding) (bits : List Bool) (start : Nat) :
    g.decodeUnsignedChecked bits start = .ok (g.decodeUnsigned bits start) := by
  unfold decodeUnsignedChecked decodeUnsigned
  by_cases hs : start ≥ bits.length
  · rw [if_pos hs, if_pos hs]
  · rw [if_neg hs, if_neg hs, scanChecked_eq bits _ 0 start (by omega) (by decide)]
    simp only [Nat.zero_add]
    by_cases h1 : start + zeroRun (bits.drop start) ≥ bits.length
    · rw [if_pos h1, if_pos h1]
    · rw [if_neg h1, if_neg h1]
      by_cases h2 : start + zeroRun (bits.drop start) + 1 + g.b > bits.length
      · rw [if_pos h2, if_pos h2]
      · rw [if_neg h2, if_neg h2, readBitsChecked_eq bits _ _ _ (by omega)]
        simp only
        by_cases h3 : readBits bits g.b (start + zeroRun (bits.drop start) + 1) 0 < g.cutoff
        · rw [if_pos h3, if_pos h3]
        · rw [if_neg h3, if_neg h3]
          by_cases h4 : start + zeroRun (bits.drop start) + 1 + g.b ≥ bits.length
          · rw [if_pos h4, if_pos h4]
          · rw [if_neg h4, if_neg h4, readAt_ok bits _ (by omega)]

theorem decodeChecked_eq (g : GolombCoding) (bits : List Bool) (start : Nat) :
    g.decodeChecked bits start = .ok (g.decode bits start) := by
  unfold decodeChecked decode
  by_cases hs : start ≥ bits.length
  · rw [if_pos hs, if_pos hs]
  · rw [if_neg hs, if_neg hs]
    cases g.mode with
    | SIGN_MAGNITUDE =>
      simp only
      rw [readAt_ok bits start (by omega), decodeUnsignedChecked_eq]
      simp only
      cases g.decodeUnsigned bits (start + 1) with
      | error e => rfl
      | ok p => rfl
    | INTERLEAVED =>
      simp only
      rw [decodeUnsignedChecked_eq]
      cases g.decodeUnsigned bits start with
      | error e => rfl
      | ok p => rfl

/-- Successive `decode` calls on a concatenation of codewords return the encoded values. -/
theorem decodeMany_encode (g : GolombCoding) (hv : g.Valid) (post : List Bool) :
    ∀ (values : List Int) (pre : List Bool), (∀ n ∈ values, g.InRange n) →
      g.decodeMany (pre ++ values.flatMap g.encode ++ post) values.length pre.length =
        .ok (values, pre.length + (values.flatMap g.encode).length) := by
  intro values
  induction values with
  | nil => intro pre _; simp [decodeMany]
  | cons v vs ih =>
    intro pre h
    have hv1 : g.InRange v := h v (List.mem_cons_self _ _)
    have h1 := decode_encode_at g hv v hv1 pre (vs.flatMap g.encode ++ post)
    have h2 := ih (pre ++ g.encode v) (fun n hn => h n (List.mem_cons_of_mem _ hn))
    have e1 : pre ++ (v :: vs).flatMap g.encode ++ post =
        pre ++ g.encode v ++ (vs.flatMap g.encode ++ post) := by
      simp [List.flatMap_cons]
    have e2 : pre ++ g.encode v ++ vs.flatMap g.encode ++ post =
        pre ++ g.encode v ++ (vs.flatMap g.encode ++ post) := by
      simp
    rw [e2, List.length_append] at h2
    rw [e1, List.length_cons, decodeMany, h1]
    simp only
    rw [h2]
    simp only [List.flatMap_cons, List.length_append]
    congr 2
    omega

end GolombCoding

/-! ## Canonical codewords -/

namespace GolombCoding

/-- Writing in `k` bits the value read from `k` bits gives the bits back. -/
theorem pushBits_foldl_shiftIn : ∀ xs : List Bool, xs.length ≤ 32 →
    pushBits (xs.foldl shiftIn 0) xs.length = xs := by
  intro xs
  induction xs using List.reverseRecOn with
  | nil => intro _; rfl
  | append_singleton ys c ih =>
    intro h
    rw [List.length_append, List.length_singleton] at h
    have hlt := foldl_shiftIn_lt ys 0 (by
      have h3 : 2 ^ ys.length ≤ 2 ^ 32 := Nat.pow_le_pow_right (by decide) (by omega)
      have h4 : (2 : Nat) ^ 32 = 4294967296 := by norm_num
      omega)
    have h31 : 2 ^ (ys.length + 1) ≤ 4294967296 := by
      have h3 : 2 ^ (ys.length + 1) ≤ 2 ^ 32 := Nat.pow_le_pow_right (by decide) (by omega)
      have h4 : (2 : Nat) ^ 32 = 4294967296 := by norm_num
      omega
    have hpow : 2 ^ (ys.length + 1) = 2 * 2 ^ ys.length := by rw [pow_succ]; ring
    have hc1 : c.toNat ≤ 1 := by cases c <;> simp
    rw [List.foldl_append, List.foldl_cons, List.foldl_nil, List.length_append,
      List.length_singleton, shiftIn_eq _ _ (by omega), pushBits_succ_right]
    have hd : (2 * ys.foldl shiftIn 0 + c.toNat) / 2 = ys.foldl shiftIn 0 := by omega
    have hm : ((2 * ys.foldl shiftIn 0 + c.toNat) % 2 != 0) = c := by
      have : (2 * ys.foldl shiftIn 0 + c.toNat) % 2 = c.toNat := by omega
      rw [this]
      cases c <;> rfl
    rw [hd, hm, ih (by omega)]

/-- A successful `decodeTail` has consumed the unary part. -/
theorem decodeTail_used (g : GolombCoding) (q : Nat) (tail : List Bool) (u k : Nat)
    (h : g.decodeTail q tail = .ok (u, k)) : q + 1 ≤ k ∧ k - (q + 1) ≤ tail.length := by
  unfold decodeTail at h
  simp only at h
  split_ifs at h <;> (injection h with h; injection h with _ h; omega)

/-- What `decodeTail` accepts after `q` zero bits and the terminator is the remainder
part of the codeword of the value it returns, provided the value did not wrap around
`2^32`, that is, provided it is at least `q·m`. -/
theorem decodeTail_canonical_of_le (g : GolombCoding) (hv : g.Valid) (q : Nat)
    (tail : List Bool) (u k : Nat) (hnw : q * g.m ≤ u) (h : g.decodeTail q tail = .ok (u, k)) :
    u / g.m = q ∧ tail.take (k - (q + 1)) = g.remainderBits (u % g.m) := by
  obtain ⟨hc1, hc2, hc3, hc4⟩ := Valid.cutoff_le g hv
  obtain ⟨v1, v2, v3, v4, v5⟩ := hv
  have hpow : 2 ^ (g.b + 1) = 2 * 2 ^ g.b := by rw [pow_succ]; ring
  have hqm : (q + 1) * g.m = q * g.m + g.m := by ring
  have hqle : q ≤ q * g.m := Nat.le_mul_of_pos_right _ (by omega)
  have hb : g.b < 32 := by
    by_contra hc
    have h8 : 2 ^ 32 ≤ 2 ^ g.b := Nat.pow_le_pow_right (by decide) (by omega)
    have h9 : (2 : Nat) ^ 32 = 4294967296 := by norm_num
    omega
  unfold decodeTail at h
  by_cases h1 : g.b > tail.length
  · rw [if_pos h1] at h
    cases h
  · rw [if_neg h1] at h
    simp only at h
    have hlen : (tail.take g.b).length = g.b := by
      rw [List.length_take]; omega
    have hr := foldl_shiftIn_lt (tail.take g.b) 0 (by rw [hlen]; omega)
    rw [hlen] at hr
    have hpb := pushBits_foldl_shiftIn (tail.take g.b) (by rw [hlen]; omega)
    rw [hlen] at hpb
    generalize hrdef : (tail.take g.b).foldl shiftIn 0 = r at h hr hpb
    by_cases h2 : r < g.cutoff
    · rw [if_pos h2] at h
      injection h with h
      injection h with hu hk
      have hu32 : u < 4294967296 := by
        rw [← hu]
        exact Nat.mod_lt _ (by decide)
      have hq32 : q < 4294967296 := by omega
      rw [Nat.mod_eq_of_lt hq32] at hu
      have hu2 : u = q * g.m + r := by omega
      have hdiv : u / g.m = q := Nat.div_eq_of_lt_le (by omega) (by
        show u < (q + 1) * g.m
        omega)
      have hmod : u % g.m = r := by
        have := Nat.div_add_mod u g.m
        rw [hdiv, Nat.mul_comm] at this
        omega
      have hk2 : k - (q + 1) = g.b := by omega
      refine ⟨hdiv, ?_⟩
      rw [hk2, hmod]
      unfold remainderBits
      rw [if_pos h2, hpb]
    · rw [if_neg h2] at h
      by_cases h3 : g.b ≥ tail.length
      · rw [if_pos h3] at h
        cases h
      · rw [if_neg h3] at h
        have hc : (tail.getD g.b false).toNat ≤ 1 := by
          cases tail.getD g.b false <;> simp
        have hsh := shiftIn_eq r (tail.getD g.b false) (by omega)
        have htk : tail.take (g.b + 1) = tail.take g.b ++ [tail.getD g.b false] := by
          rw [List.getD_eq_getElem _ _ (by omega), List.take_succ,
            List.getElem?_eq_getElem (by omega)]
          rfl
        have hpb2 := pushBits_foldl_shiftIn (tail.take (g.b + 1)) (by
          rw [List.length_take]; omega)
        have hlen2 : (tail.take (g.b + 1)).length = g.b + 1 := by
          rw [List.length_take]; omega
        rw [hlen2, htk, List.foldl_append, List.foldl_cons, List.foldl_nil, hrdef, hsh] at hpb2
        rw [hsh] at h
        injection h with h
        injection h with hu hk
        have hu32 : u < 4294967296 := by
          rw [← hu]
          unfold toU32
          omega
        have hq32 : q < 4294967296 := by omega
        rw [Nat.mod_eq_of_lt hq32] at hu
        have hu2 : u = q * g.m + (2 * r + (tail.getD g.b false).toNat - g.cutoff) := by
          unfold toU32 at hu
          omega
        have hdiv : u / g.m = q := Nat.div_eq_of_lt_le (by omega) (by
          show u < (q + 1) * g.m
          omega)
        have hmod : u % g.m = 2 * r + (tail.getD g.b false).toNat - g.cutoff := by
          have := Nat.div_add_mod u g.m
          rw [hdiv, Nat.mul_comm] at this
          omega
        have hk2 : k - (q + 1) = g.b + 1 := by omega
        refine ⟨hdiv, ?_⟩
        rw [hk2, hmod, htk]
        unfold remainderBits
        rw [if_neg (by omega)]
        have hadd : (2 * r + (tail.getD g.b false).toNat - g.cutoff + g.cutoff) % 4294967296 =
            2 * r + (tail.getD g.b false).toNat := by omega
        rw [hadd, hpb2]

/-- The bits that a successful `decodeUnsigned` consumes, as the unary part it scanned
and the bits after the terminator. -/
theorem consumed_eq (g : GolombCoding) (bits : List Bool) (start u k : Nat)
    (h : g.decodeUnsigned bits start = .ok (u, k)) :
    (bits.drop start).take k =
      List.replicate (zeroRun (bits.drop start)) false ++ true ::
        (bits.drop (start + zeroRun (bits.drop start) + 1)).take
          (k - (zeroRun (bits.drop start) + 1)) := by
  have hrun := run_lt_of_decodeUnsigned g bits start u k h
  rw [decodeUnsigned_eq_decodeTail g bits start hrun] at h
  obtain ⟨c1, c2⟩ := decodeTail_used g _ _ u k h
  have hrun2 : zeroRun (bits.drop start) < (bits.drop start).length := by
    rw [List.length_drop]; omega
  have hsplit := eq_replicate_zeroRun (bits.drop start) hrun2
  have hdd : (bits.drop start).drop (zeroRun (bits.drop start) + 1) =
      bits.drop (start + zeroRun (bits.drop start) + 1) := by
    rw [List.drop_drop]
    congr 1
  rw [hdd] at hsplit
  generalize bits.drop (start + zeroRun (bits.drop start) + 1) = tail at hsplit c2
  generalize hqdef : zeroRun (bits.drop start) = q at hsplit c1 c2
  have hk : k = q + 1 + (k - (q + 1)) := by omega
  generalize k - (q + 1) = j at hk c2
  subst hk
  nth_rewrite 1 [hsplit]
  rw [List.take_append_eq_append_take, List.length_replicate]
  have h1 : (List.replicate q false).take (q + 1 + j) = List.replicate q false := by
    rw [List.take_of_length_le (by rw [List.length_replicate]; omega)]
  have h2 : q + 1 + j - q = j + 1 := by omega
  rw [h1, h2, List.take_succ_cons]

/-- The bits that a successful `decodeUnsigned` consumes are the codeword of the value it
returns if and only if that value is at least `q·m` for the number `q` of zero bits
scanned, that is, if and only if `q·m + r` did not wrap around `2^32`. -/
theorem decodeUnsigned_canonical_iff (g : GolombCoding) (hv : g.Valid) (bits : List Bool)
    (start u k : Nat) (h : g.decodeUnsigned bits start = .ok (u, k)) :
    (bits.drop start).take k = g.encodeUnsigned u ↔
      zeroRun (bits.drop start) * g.m ≤ u := by
  have hcons := consumed_eq g bits start u k h
  have hrun := run_lt_of_decodeUnsigned g bits start u k h
  have ht := h
  rw [decodeUnsigned_eq_decodeTail g bits start hrun] at ht
  constructor
  · intro he
    rw [hcons, encodeUnsigned_eq] at he
    have hz := congrArg zeroRun he
    rw [zeroRun_replicate_true, zeroRun_replicate_true] at hz
    rw [hz]
    exact Nat.div_mul_le_self u g.m
  · intro hnw
    obtain ⟨c1, c2⟩ := decodeTail_canonical_of_le g hv _ _ u k hnw ht
    rw [hcons, encodeUnsigned_eq, c1, c2]

/-- When `(q + 1)·m` fits 32 bits, the value that `decodeTail` returns is at least
`q·m`. -/
theorem decodeTail_le_of_fits (g : GolombCoding) (hv : g.Valid) (q : Nat) (tail : List Bool)
    (u k : Nat) (hq : (q + 1) * g.m ≤ 4294967296) (h : g.decodeTail q tail = .ok (u, k)) :
    q * g.m ≤ u := by
  obtain ⟨hc1, hc2, hc3, hc4⟩ := Valid.cutoff_le g hv
  obtain ⟨v1, v2, v3, v4, v5⟩ := hv
  have hpow : 2 ^ (g.b + 1) = 2 * 2 ^ g.b := by rw [pow_succ]; ring
  have hqm : (q + 1) * g.m = q * g.m + g.m := by ring
  have hqle : q ≤ q * g.m := Nat.le_mul_of_pos_right _ (by omega)
  have hq32 : q < 4294967296 := by omega
  unfold decodeTail at h
  by_cases h1 : g.b > tail.length
  · rw [if_pos h1] at h
    cases h
  · rw [if_neg h1] at h
    simp only at h
    have hlen : (tail.take g.b).length = g.b := by
      rw [List.length_take]; omega
    have hr := foldl_shiftIn_lt (tail.take g.b) 0 (by rw [hlen]; omega)
    rw [hlen] at hr
    generalize (tail.take g.b).foldl shiftIn 0 = r at h hr
    rw [Nat.mod_eq_of_lt hq32] at h
    by_cases h2 : r < g.cutoff
    · rw [if_pos h2] at h
      injection h with h
      injection h with hu hk
      omega
    · rw [if_neg h2] at h
      by_cases h3 : g.b ≥ tail.length
      · rw [if_pos h3] at h
        cases h
      · rw [if_neg h3] at h
        have hc : (tail.getD g.b false).toNat ≤ 1 := by
          cases tail.getD g.b false <;> simp
        rw [shiftIn_eq r (tail.getD g.b false) (by omega)] at h
        injection h with h
        injection h with hu hk
        unfold toU32 at hu
        omega

/-- A successful `decodeUnsigned` has consumed the zero bits it scanned and the
terminator. -/
theorem decodeUnsigned_used (g : GolombCoding) (bits : List Bool) (start u k : Nat)
    (h : g.decodeUnsigned bits start = .ok (u, k)) : zeroRun (bits.drop start) + 1 ≤ k := by
  have hrun := run_lt_of_decodeUnsigned g bits start u k h
  rw [decodeUnsigned_eq_decodeTail g bits start hrun] at h
  exact (decodeTail_used g _ _ u k h).1

/-- When `(q + 1)·m` fits 32 bits, the value that `decodeUnsigned` returns is at least
`q·m`. -/
theorem decodeUnsigned_le_of_fits (g : GolombCoding) (hv : g.Valid) (bits : List Bool)
    (start u k : Nat) (hq : (zeroRun (bits.drop start) + 1) * g.m ≤ 4294967296)
    (h : g.decodeUnsigned bits start = .ok (u, k)) :
    zeroRun (bits.drop start) * g.m ≤ u := by
  have hrun := run_lt_of_decodeUnsigned g bits start u k h
  rw [decodeUnsigned_eq_decodeTail g bits start hrun] at h
  exact decodeTail_le_of_fits g hv _ _ u k hq h

/-- In interleaved mode `mapToUnsigned` undoes `mapToSigned` on every unsigned value below
`2^31 - 1`. -/
theorem mapToUnsigned_mapToSigned (g : GolombCoding) (hmode : g.mode = .INTERLEAVED)
    (u : Nat) (hu : u < 2147483647) : g.mapToUnsigned (g.mapToSigned u false) = u := by
  have hs : g.mapToSigned u false =
      (if u % 2 = 0 then ((u / 2 : Nat) : Int) else -(((u + 1) / 2 : Nat) : Int)) := by
    unfold GolombCoding.mapToSigned
    rw [hmode]
    simp only
    by_cases he : u % 2 = 0
    · simp only [he, if_true]
      unfold toI32; omega
    · simp only [he, if_false]
      have h4 : toI32 (((u + 1) % 4294967296 : Nat) : Int) = ((u + 1 : Nat) : Int) := by
        unfold toI32; omega
      have h5 : Int.tdiv ((u + 1 : Nat) : Int) 2 = (((u + 1) / 2 : Nat) : Int) := by
        rw [Int.tdiv_eq_ediv (by omega) (by decide)]
        omega
      rw [h4, h5]
      unfold toI32; omega
  rw [hs]
  by_cases he : u % 2 = 0
  · simp only [he, if_true]
    rw [mapToUnsigned_interleaved g hmode _ (by omega) (by omega)]
    have h0 : ((u / 2 : Nat) : Int) ≥ 0 := by omega
    simp only [h0, if_true]
    omega
  · simp only [he, if_false]
    rw [mapToUnsigned_interleaved g hmode _ (by omega) (by omega)]
    have h0 : ¬ (-(((u + 1) / 2 : Nat) : Int)) ≥ 0 := by omega
    simp only [h0, if_false]
    omega

end GolombCoding

/-! ## Bit stream sequences and bytes -/

namespace BitStream

theorem read_n_bits_msbFirst (x n : Nat) (rest : BitStream) :
    read_n_bits (msbFirst x n ++ rest) n = some (x % 2 ^ n, rest) := by
  unfold read_n_bits
  rw [readLoop_msbFirst]
  simp

theorem writeAll_eq (writes : List (Nat × Nat)) : ∀ bs : BitStream,
    writeAll bs writes = bs ++ writes.flatMap (fun w => msbFirst w.1 w.2) := by
  induction writes with
  | nil => intro bs; simp [writeAll]
  | cons w ws ih =>
    intro bs
    have h := ih (bs ++ msbFirst w.1 w.2)
    unfold writeAll at h ⊢
    rw [List.foldl_cons]
    unfold write_n_bits at h ⊢
    rw [h]
    simp

theorem readAll_flatMap (rest : BitStream) : ∀ writes : List (Nat × Nat),
    (∀ w ∈ writes, w.1 < 2 ^ w.2) →
    readAll (writes.map Prod.snd) (writes.flatMap (fun w => msbFirst w.1 w.2) ++ rest) =
      some (writes.map Prod.fst, rest) := by
  intro writes
  induction writes with
  | nil => intro _; rfl
  | cons w ws ih =>
    intro h
    have h1 := ih (fun x hx => h x (List.mem_cons_of_mem _ hx))
    have h2 : w.1 < 2 ^ w.2 := h w (List.mem_cons_self _ _)
    rw [List.map_cons, List.flatMap_cons, List.append_assoc, readAll, read_n_bits_msbFirst,
      Nat.mod_eq_of_lt h2]
    simp only
    rw [h1]
    rfl

theorem msbFirst_byteOf (b7 b6 b5 b4 b3 b2 b1 b0 : Bool) :
    msbFirst (byteOf b7 b6 b5 b4 b3 b2 b1 b0) 8 = [b7, b6, b5, b4, b3, b2, b1, b0] := by
  cases b7 <;> cases b6 <;> cases b5 <;> cases b4 <;> cases b3 <;> cases b2 <;> cases b1 <;>
    cases b0 <;> rfl

/-- The bits of the packed bytes are the packed bits followed by the zero padding. -/
theorem ofBytes_pack : ∀ bits : List Bool,
    ofBytes (pack bits) = bits ++ List.replicate ((8 - bits.length % 8) % 8) false
  | b7 :: b6 :: b5 :: b4 :: b3 :: b2 :: b1 :: b0 :: rest => by
    have ih := ofBytes_pack rest
    have hl : (8 - (b7 :: b6 :: b5 :: b4 :: b3 :: b2 :: b1 :: b0 :: rest).length % 8) % 8 =
        (8 - rest.length % 8) % 8 := by
      simp only [List.length_cons]
      omega
    rw [pack, hl]
    unfold ofBytes at ih ⊢
    rw [List.flatMap_cons, ih, msbFirst_byteOf]
    rfl
  | [] => rfl
  | [a] => by
    show msbFirst (byteOf a false false false false false false false) 8 ++ [] = _
    rw [msbFirst_byteOf]; rfl
  | [a, b] => by
    show msbFirst (byteOf a b false false false false false false) 8 ++ [] = _
    rw [msbFirst_byteOf]; rfl
  | [a, b, c] => by
    show msbFirst (byteOf a b c false false false false false) 8 ++ [] = _
    rw [msbFirst_byteOf]; rfl
  | [a, b, c, d] => by
    show msbFirst (byteOf a b c d false false false false) 8 ++ [] = _
    rw [msbFirst_byteOf]; rfl
  | [a, b, c, d, e] => by
    show msbFirst (byteOf a b c d e false false false) 8 ++ [] = _
    rw [msbFirst_byteOf]; rfl
  | [a, b, c, d, e, f] => by
    show msbFirst (byteOf a b c d e f false false) 8 ++ [] = _
    rw [msbFirst_byteOf]; rfl
  | [a, b, c, d, e, f, g] => by
    show msbFirst (byteOf a b c d e f g false) 8 ++ [] = _
    rw [msbFirst_byteOf]; rfl

theorem ofBytes_close (bits : List Bool) :
    ofBytes (close bits) =
      bits ++ (List.replicate ((8 - bits.length % 8) % 8) false ++ msbFirst 128 8) := by
  have h := ofBytes_pack bits
  unfold close
  unfold ofBytes at h ⊢
  rw [List.flatMap_append, h]
  simp

end BitStream

namespace GolombCoding

/-- In interleaved mode `decode` is `decodeUnsigned` followed by `mapToSigned`. -/
theorem decode_of_decodeUnsigned (g : GolombCoding) (hmode : g.mode = .INTERLEAVED)
    (bits : List Bool) (start u k : Nat) (h : g.decodeUnsigned bits start = .ok (u, k)) :
    g.decode bits start = .ok (g.mapToSigned u false, k) := by
  have hb := decodeUnsigned_bounds g bits start u k h
  unfold decode
  rw [if_neg (by omega), hmode]
  simp only
  rw [h]

end GolombCoding

/-! ## Claims about the Golomb coder -/

/-- C1. Golomb round trip: for every `n` with `-2^20 ≤ n ≤ 2^20`, every `m` in
`{1, 2, 3, 5, 7, 16, 100, 1024}` and both negative modes, the coder `GolombCoding(m, mode)`
is constructed and `decode(encode(n), 0)` returns the pair `(n, length of encode(n))`. -/
theorem C1_golomb_round_trip (n : Int) (m : Nat) (mode : NegativeMode)
    (hlo : -1048576 ≤ n) (hhi : n ≤ 1048576)
    (hm : m ∈ [1, 2, 3, 5, 7, 16, 100, 1024]) :
    ∃ g, GolombCoding.new m mode = .ok g ∧
      g.decode (g.encode n) 0 = .ok (n, (g.encode n).length) := by
  have h1 : 1 ≤ m ∧ m < 4294967296 := by
    simp only [List.mem_cons, List.mem_singleton, List.not_mem_nil, or_false] at hm
    omega
  refine ⟨_, GolombCoding.new_ok m mode h1.1 h1.2, ?_⟩
  obtain ⟨hv, _, hmode⟩ := GolombCoding.valid_of_new m mode _
    (GolombCoding.new_ok m mode h1.1 h1.2) h1.2
  apply GolombCoding.decode_encode _ hv
  unfold GolombCoding.InRange
  rw [hmode]
  cases mode <;> simp only <;> omega

/-- Witness of C1 at `n = -3`, `m = 5`, sign-magnitude mode. -/
theorem C1_golomb_round_trip_witness :
    ∃ g, GolombCoding.new 5 .SIGN_MAGNITUDE = .ok g ∧
      g.decode (g.encode (-3)) 0 = .ok (-3, (g.encode (-3)).length) :=
  C1_golomb_round_trip (-3) 5 .SIGN_MAGNITUDE (by decide) (by decide) (by decide)

/-- C6. Codeword layout: for every `m` with `1 ≤ m < 2^31` (the values for which
`calculateParameters` is defined) and every unsigned `n`, `encodeUnsigned(n)` is
exactly `q = n div m` zero bits, a single one bit, and then a remainder part that is `r =
n mod m` written MSB first in `b = floor(log2 m)` bits when `r < cutoff`, and `r + cutoff`
written MSB first in `b + 1` bits when `r ≥ cutoff`, with `cutoff = 2^(b+1) - m`; nothing
else is emitted. -/
theorem C6_codeword_layout (m n : Nat) (mode : NegativeMode) (h1 : 1 ≤ m)
    (h2 : m < 2147483648) :
    ∃ g rem, GolombCoding.new m mode = .ok g ∧
      g.encodeUnsigned n = List.replicate (n / m) false ++ [true] ++ rem ∧
      (n % m < 2 ^ (Nat.log2 m + 1) - m →
        rem.length = Nat.log2 m ∧ msbValue rem = n % m) ∧
      (2 ^ (Nat.log2 m + 1) - m ≤ n % m →
        rem.length = Nat.log2 m + 1 ∧
          msbValue rem = n % m + (2 ^ (Nat.log2 m + 1) - m)) := by
  have h3 : m < 4294967296 := by omega
  have hnew := GolombCoding.new_ok m mode h1 h3
  obtain ⟨hv, _, _⟩ := GolombCoding.valid_of_new m mode _ hnew h3
  obtain ⟨hc1, hc2, hc3, hc4⟩ := GolombCoding.Valid.cutoff_le _ hv
  have hr : n % m < m := Nat.mod_lt _ (by omega)
  rw [← floorLog2_eq_log2 m h1]
  refine ⟨_, GolombCoding.remainderBits
    { m := m, b := floorLog2 m, cutoff := 2 ^ (floorLog2 m + 1) - m, mode := mode } (n % m),
    hnew, ?_, ?_, ?_⟩
  · rw [GolombCoding.encodeUnsigned_eq]
    simp only [List.append_assoc, List.singleton_append]
  · intro hlt
    simp only at hc1 hc2 hc3 hc4
    constructor
    · rw [GolombCoding.length_remainderBits]
      simp only [hlt, if_true]
    · unfold GolombCoding.remainderBits
      simp only [hlt, if_true]
      exact GolombCoding.msbValue_pushBits _ _ (by omega)
  · intro hge
    simp only at hc1 hc2 hc3 hc4
    have hnlt : ¬ n % m < 2 ^ (floorLog2 m + 1) - m := by omega
    constructor
    · rw [GolombCoding.length_remainderBits]
      simp only [hnlt, if_false]
    · unfold GolombCoding.remainderBits
      simp only [hnlt, if_false]
      rw [Nat.mod_eq_of_lt (by omega)]
      exact GolombCoding.msbValue_pushBits _ _ (by omega)

/-- Witness of C6 at `m = 5`, `n = 13` (`q = 2`, `r = 3`, `cutoff = 3`). -/
theorem C6_codeword_layout_witness :
    ∃ g rem, GolombCoding.new 5 .INTERLEAVED = .ok g ∧
      g.encodeUnsigned 13 = List.replicate (13 / 5) false ++ [true] ++ rem ∧
      (13 % 5 < 2 ^ (Nat.log2 5 + 1) - 5 →
        rem.length = Nat.log2 5 ∧ msbValue rem = 13 % 5) ∧
      (2 ^ (Nat.log2 5 + 1) - 5 ≤ 13 % 5 →
        rem.length = Nat.log2 5 + 1 ∧
          msbValue rem = 13 % 5 + (2 ^ (Nat.log2 5 + 1) - 5)) :=
  C6_codeword_layout 5 13 .INTERLEAVED (by decide) (by decide)

/-- C7. Truncated codewords are rejected: for every coder `g` that the constructor
returns (so for every `m ≥ 1`), both negative modes and every `n`, `decode` applied at
start 0 to any proper prefix of `encode(n)` (the first `k` bits, `k` below the codeword
length: the empty prefix, a prefix ending inside the unary run, a prefix ending inside the
remainder bits) fails with an error. -/
theorem C7_truncated_codeword_rejected (m : Nat) (mode : NegativeMode) (n : Int) (k : Nat)
    (g : GolombCoding) (h2 : m < 4294967296)
    (hg : GolombCoding.new m mode = .ok g) (hk : k < (g.encode n).length) :
    ∃ e, g.decode ((g.encode n).take k) 0 = .error e := by
  obtain ⟨hv, _, hmode⟩ := GolombCoding.valid_of_new m mode g hg h2
  unfold GolombCoding.encode at hk ⊢
  unfold GolombCoding.decode
  cases hmd : g.mode
  · rw [hmd] at hk
    simp only at hk ⊢
    cases k with
    | zero => exact ⟨.startOutOfBounds, by simp⟩
    | succ k =>
      have hk2 : k < (g.encodeUnsigned (g.mapToUnsigned n)).length := by
        simp at hk; omega
      obtain ⟨e, he⟩ := GolombCoding.decodeUnsigned_take_error g hv (g.mapToUnsigned n) k
        [decide (n < 0)] hk2
      refine ⟨e, ?_⟩
      have h3 : ([decide (n < 0)] ++ g.encodeUnsigned (g.mapToUnsigned n)).take (k + 1) =
          [decide (n < 0)] ++ (g.encodeUnsigned (g.mapToUnsigned n)).take k := by
        simp
      rw [h3]
      have h4 : ¬ 0 ≥ ([decide (n < 0)] ++
          (g.encodeUnsigned (g.mapToUnsigned n)).take k).length := by simp
      rw [if_neg h4]
      simp only [List.length_singleton] at he
      simp only [Nat.zero_add]
      rw [he]
  · rw [hmd] at hk
    simp only at hk ⊢
    obtain ⟨e, he⟩ := GolombCoding.decodeUnsigned_take_error g hv (g.mapToUnsigned n) k [] hk
    simp only [List.nil_append, List.length_nil] at he
    by_cases h0 : 0 ≥ ((g.encodeUnsigned (g.mapToUnsigned n)).take k).length
    · exact ⟨.startOutOfBounds, by rw [if_pos h0]⟩
    · refine ⟨e, ?_⟩
      rw [if_neg h0, he]

/-- Witness of C7: `m = 5`, sign-magnitude, `n = -3` (codeword `1 1 1 1 0`), cut after
three bits, inside the remainder. -/
theorem C7_truncated_codeword_rejected_witness :
    ∃ e, (GolombCoding.mk 5 2 3 .SIGN_MAGNITUDE).decode
      (((GolombCoding.mk 5 2 3 .SIGN_MAGNITUDE).encode (-3)).take 3) 0 = .error e :=
  C7_truncated_codeword_rejected 5 .SIGN_MAGNITUDE (-3) 3 (GolombCoding.mk 5 2 3 .SIGN_MAGNITUDE)
    (by decide) (by decide) (by decide)

/-- C8. Constructing a `GolombCoding` fails if and only if `m = 0`: either `m = 0` and
the constructor throws "m must be positive", or `m ≥ 1` and it returns a coder with
`getM() = m` and `getMode() = mode`; this holds for both negative modes. -/
theorem C8_constructor_fails_iff_zero (m : Nat) (mode : NegativeMode) :
    (m = 0 ∧ GolombCoding.new m mode = .error .mNotPositive) ∨
      (1 ≤ m ∧ ∃ g, GolombCoding.new m mode = .ok g ∧ g.getM = m ∧ g.getMode = mode) := by
  by_cases h : m = 0
  · left
    subst h
    exact ⟨rfl, rfl⟩
  · right
    refine ⟨by omega, ?_⟩
    unfold GolombCoding.new GolombCoding.calculateParameters
    simp only [h, if_false]
    exact ⟨_, rfl, rfl, rfl⟩

/-- C9. Parameter invariant: for `1 ≤ m ≤ 65535`, the coder returned by the constructor
and the coder left by a `setM(m)` on any coder both have `b = floor(log2 m)`, i.e.
`2^b ≤ m < 2^(b+1)`, and `cutoff = 2^(b+1) - m`, hence `1 ≤ cutoff ≤ 2^b ≤ m`; and the
`b` and `cutoff` that `decodeChannel` and `decodeImage` recompute locally from `m` are
equal to the coder's. -/
theorem C9_parameter_invariant (m : Nat) (mode : NegativeMode) (g0 : GolombCoding)
    (h1 : 1 ≤ m) (h2 : m ≤ 65535) :
    ∃ g, GolombCoding.new m mode = .ok g ∧ g0.setM m = ({ g with mode := g0.mode }, .ok ()) ∧
      g.m = m ∧ g.b = Nat.log2 m ∧ 2 ^ g.b ≤ m ∧ m < 2 ^ (g.b + 1) ∧
      g.cutoff = 2 ^ (g.b + 1) - m ∧ 1 ≤ g.cutoff ∧ g.cutoff ≤ 2 ^ g.b ∧
      localB m = g.b ∧ localCutoff m = g.cutoff := by
  have h3 : m < 4294967296 := by omega
  have hnew := GolombCoding.new_ok m mode h1 h3
  obtain ⟨hv, _, _⟩ := GolombCoding.valid_of_new m mode _ hnew h3
  obtain ⟨hc1, hc2, hc3, hc4⟩ := GolombCoding.Valid.cutoff_le _ hv
  obtain ⟨v1, v2, v3, v4, v5⟩ := hv
  simp only at hc1 hc2 hc3 hc4 v1 v2 v3 v4 v5
  refine ⟨_, hnew, ?_, rfl, floorLog2_eq_log2 m h1, v3, v4, rfl, hc1, hc2, rfl, ?_⟩
  · unfold GolombCoding.setM
    simp only
    rw [GolombCoding.calculateParameters_ok _ h1 h3]
  · exact localCutoff_eq m h1 h3

/-- Witness of C9 at `m = 5`, starting `setM` from a coder built for `m = 16`. -/
theorem C9_parameter_invariant_witness :
    ∃ g, GolombCoding.new 5 .INTERLEAVED = .ok g ∧
      (GolombCoding.mk 16 4 16 .SIGN_MAGNITUDE).setM 5 =
        ({ g with mode := (GolombCoding.mk 16 4 16 .SIGN_MAGNITUDE).mode }, .ok ()) ∧
      g.m = 5 ∧ g.b = Nat.log2 5 ∧ 2 ^ g.b ≤ 5 ∧ 5 < 2 ^ (g.b + 1) ∧
      g.cutoff = 2 ^ (g.b + 1) - 5 ∧ 1 ≤ g.cutoff ∧ g.cutoff ≤ 2 ^ g.b ∧
      localB 5 = g.b ∧ localCutoff 5 = g.cutoff :=
  C9_parameter_invariant 5 .INTERLEAVED (GolombCoding.mk 16 4 16 .SIGN_MAGNITUDE)
    (by omega) (by omega)

/-- C10, counterexample to the claim as stated: `u = 2^31 - 1` is below `2^31`, but
`mapToSigned` computes `static_cast<int>(u + 1) / 2` on the `int` value `-2^31` and returns
`+2^30` instead of `-(u + 1) / 2 = -2^30`, and mapping that back does not give `u`. -/
theorem C10_interleaved_mapping_counterexample :
    (2147483647 : Nat) < 2147483648 ∧
      (GolombCoding.mk 1 0 1 .INTERLEAVED).mapToSigned 2147483647 false = 1073741824 ∧
      (GolombCoding.mk 1 0 1 .INTERLEAVED).mapToSigned 2147483647 false ≠
        -(((2147483647 + 1) / 2 : Nat) : Int) ∧
      (GolombCoding.mk 1 0 1 .INTERLEAVED).mapToUnsigned
        ((GolombCoding.mk 1 0 1 .INTERLEAVED).mapToSigned 2147483647 false) ≠ 2147483647 := by
  decide

/-- C10, amended. In interleaved mode `mapToUnsigned(n)` is `2n` for `n ≥ 0` and
`2(-n) - 1` for `n < 0`, and `mapToSigned(mapToUnsigned(n)) = n`, for every `n` with
`|n| < 2^30`; `mapToSigned(u)` is `u / 2` for even `u` and `-(u + 1) / 2` for odd `u`, and
`mapToUnsigned(mapToSigned(u)) = u`, for every unsigned `u < 2^31 - 1`. -/
theorem C10_interleaved_mapping (g : GolombCoding) (n : Int) (u : Nat)
    (hmode : g.mode = .INTERLEAVED) (hn1 : -1073741824 < n) (hn2 : n < 1073741824)
    (hu : u < 2147483647) :
    (g.mapToUnsigned n : Int) = (if n ≥ 0 then 2 * n else 2 * (-n) - 1) ∧
      g.mapToSigned u false =
        (if u % 2 = 0 then ((u / 2 : Nat) : Int) else -(((u + 1) / 2 : Nat) : Int)) ∧
      g.mapToSigned (g.mapToUnsigned n) false = n ∧
      g.mapToUnsigned (g.mapToSigned u false) = u := by
  have hs : g.mapToSigned u false =
      (if u % 2 = 0 then ((u / 2 : Nat) : Int) else -(((u + 1) / 2 : Nat) : Int)) := by
    unfold GolombCoding.mapToSigned
    rw [hmode]
    simp only
    by_cases he : u % 2 = 0
    · simp only [he, if_true]
      unfold toI32; omega
    · simp only [he, if_false]
      have h4 : toI32 (((u + 1) % 4294967296 : Nat) : Int) = ((u + 1 : Nat) : Int) := by
        unfold toI32; omega
      have h5 : Int.tdiv ((u + 1 : Nat) : Int) 2 = (((u + 1) / 2 : Nat) : Int) := by
        rw [Int.tdiv_eq_ediv (by omega) (by decide)]
        omega
      rw [h4, h5]
      unfold toI32; omega
  have hin : g.InRange n := by
    unfold GolombCoding.InRange
    rw [hmode]
    exact ⟨hn1, hn2⟩
  refine ⟨?_, hs, (GolombCoding.mapToSigned_mapToUnsigned g n hin).2 hmode, ?_⟩
  · rw [GolombCoding.mapToUnsigned_interleaved g hmode n hn1 hn2]
    by_cases h : n ≥ 0
    · simp only [h, if_true]; omega
    · simp only [h, if_false]; omega
  · rw [hs]
    by_cases he : u % 2 = 0
    · simp only [he, if_true]
      rw [GolombCoding.mapToUnsigned_interleaved g hmode _ (by omega) (by omega)]
      have h0 : ((u / 2 : Nat) : Int) ≥ 0 := by omega
      simp only [h0, if_true]
      omega
    · simp only [he, if_false]
      rw [GolombCoding.mapToUnsigned_interleaved g hmode _ (by omega) (by omega)]
      have h0 : ¬ (-(((u + 1) / 2 : Nat) : Int)) ≥ 0 := by omega
      simp only [h0, if_false]
      omega

/-- Witness of C10 (amended) at `n = -3` and `u = 5`. -/
theorem C10_interleaved_mapping_witness :
    ((GolombCoding.mk 4 2 4 .INTERLEAVED).mapToUnsigned (-3) : Int) =
        (if (-3 : Int) ≥ 0 then 2 * (-3) else 2 * (-(-3)) - 1) ∧
      (GolombCoding.mk 4 2 4 .INTERLEAVED).mapToSigned 5 false =
        (if 5 % 2 = 0 then ((5 / 2 : Nat) : Int) else -(((5 + 1) / 2 : Nat) : Int)) ∧
      (GolombCoding.mk 4 2 4 .INTERLEAVED).mapToSigned
        ((GolombCoding.mk 4 2 4 .INTERLEAVED).mapToUnsigned (-3)) false = -3 ∧
      (GolombCoding.mk 4 2 4 .INTERLEAVED).mapToUnsigned
        ((GolombCoding.mk 4 2 4 .INTERLEAVED).mapToSigned 5 false) = 5 :=
  C10_interleaved_mapping (GolombCoding.mk 4 2 4 .INTERLEAVED) (-3) 5 rfl (by decide)
    (by decide) (by decide)

/-! ## Claims about the audio codec -/

/-- C2. Audio channel round trip in interleaved mode: for every predictor code (Order-1,
Order-2, Order-3 in particular), every finite sequence of `int16_t` samples (the empty
one and lengths that are not multiples of 1024 included), and either adaptive `m`
(whatever the floating-point estimate) or a fixed `m` with `1 ≤ m ≤ 65535`,
`encodeChannel` succeeds and appends a bit sequence `bits` to the stream, and
`decodeChannel` applied to `bits` (followed by any further bits `rest`) with the same
sample count, predictor and mode returns exactly the original samples and leaves
`rest`. -/
theorem C2_audio_round_trip_interleaved (ceilLog : Nat → Nat → Nat) (samples : List Int)
    (predictor : AudioCodec.PredictorType) (adaptiveM : Bool) (fixedM : Nat)
    (hs : ∀ s ∈ samples, -32768 ≤ s ∧ s ≤ 32767)
    (hm : adaptiveM = true ∨ (1 ≤ fixedM ∧ fixedM ≤ 65535)) :
    ∃ bits : List Bool,
      (∀ bs, AudioCodec.encodeChannel ceilLog samples bs predictor adaptiveM fixedM
        .INTERLEAVED = .ok (bs ++ bits)) ∧
      (∀ rest, AudioCodec.decodeChannel (bits ++ rest) samples.length predictor
        .INTERLEAVED = .ok (samples, rest)) := by
  obtain ⟨bits, h1, h2⟩ := AudioCodec.channel_loop ceilLog samples hs predictor adaptiveM
    fixedM hm samples.length 0 (Nat.zero_le _) (by omega)
  exact ⟨bits, fun bs => h1 bs, fun rest => by
    have := h2 rest
    simpa [AudioCodec.decodeChannel] using this⟩

/-- Witness of C2: the four samples `[1000, 1002, 998, 1001]` with Order-1 and fixed
`m = 16`. -/
theorem C2_audio_round_trip_interleaved_witness :
    ∃ bits : List Bool,
      (∀ bs, AudioCodec.encodeChannel (fun _ _ => 8) [1000, 1002, 998, 1001] bs
        AudioCodec.ORDER_1 false 16 .INTERLEAVED = .ok (bs ++ bits)) ∧
      (∀ rest, AudioCodec.decodeChannel (bits ++ rest) [1000, 1002, 998, 1001].length
        AudioCodec.ORDER_1 .INTERLEAVED = .ok ([1000, 1002, 998, 1001], rest)) :=
  C2_audio_round_trip_interleaved (fun _ _ => 8) [1000, 1002, 998, 1001] AudioCodec.ORDER_1
    false 16 (by decide) (Or.inr ⟨by decide, by decide⟩)

/-- C3, the code at a failing input. The one-sample channel `[-1]` with Order-1, fixed
`m = 1` and sign-magnitude mode is written as the 16-bit `m` followed by the codeword
`1 0 1` (sign bit, one zero, terminator); `decodeChannel` takes the sign bit for the unary
terminator, hands the single bit `1` to `decode`, and fails with "Start position out of
bounds". With `m = 16` the decoder fails as well ("Incomplete remainder code"). -/
theorem C3_sign_magnitude_decode_fails :
    AudioCodec.encodeChannel (fun _ _ => 1) [-1] [] AudioCodec.ORDER_1 false 1
        .SIGN_MAGNITUDE =
      .ok (BitStream.msbFirst 1 16 ++ [true, false, true]) ∧
    AudioCodec.decodeChannel (BitStream.msbFirst 1 16 ++ [true, false, true]) 1
        AudioCodec.ORDER_1 .SIGN_MAGNITUDE =
      .error (.golomb .startOutOfBounds) ∧
    AudioCodec.encodeChannel (fun _ _ => 1) [-1] [] AudioCodec.ORDER_1 false 16
        .SIGN_MAGNITUDE =
      .ok (BitStream.msbFirst 16 16 ++ [true, true, false, false, false, true]) ∧
    AudioCodec.decodeChannel
        (BitStream.msbFirst 16 16 ++ [true, true, false, false, false, true]) 1
        AudioCodec.ORDER_1 .SIGN_MAGNITUDE =
      .error (.golomb .incompleteRemainder) := by
  decide

/-- C4, the code at a failing input. The frame `(L, R) = (0, -32768)` has
`L - R = 32768`, which `convertToMidSide` stores in an `int16_t` as `-32768`;
`convertFromMidSide` then returns `(-32768, 0)`. The two frames of the spec,
`(100, 50)` and `(100, 51)`, are transformed to `(75, 50)` and `(75, 49)` and
recovered. -/
theorem C4_mid_side_not_lossless :
    AudioCodec.convertToMidSide [0] [-32768] = ([-16384], [-32768]) ∧
    AudioCodec.convertFromMidSide [-16384] [-32768] = ([-32768], [0]) ∧
    AudioCodec.convertToMidSide [100, 100] [50, 51] = ([75, 75], [50, 49]) ∧
    AudioCodec.convertFromMidSide [75, 75] [50, 49] = ([100, 100], [50, 51]) := by
  decide

/-! ## Claims about the image codec -/

/-- C5. Image round trip in interleaved mode: for every predictor code (the seven codes
0..6 in particular), every 8-bit grayscale image with width ≥ 1 and height ≥ 1, and
either adaptive `m` (whatever the floating-point estimate) or a fixed `m` with
`1 ≤ m ≤ 65535`, the pixel loop of `encodeImage` succeeds and appends a bit sequence
`bits` to the stream, and the pixel loop of `decodeImage` applied to `bits` (followed by
any further bits `rest`), whatever the header's `m` and the initial content of the
output image, reconstructs every pixel exactly and leaves `rest`. -/
theorem C5_image_round_trip_interleaved (ceilLog : Nat → Nat → Nat) (img : ImageCodec.Mat)
    (predictor : ImageCodec.PredictorType) (adaptiveM : Bool) (fixedM m0 : Nat)
    (initial : List Nat) (hr : 1 ≤ img.rows) (hc : 1 ≤ img.cols)
    (hlen : img.data.length = img.rows * img.cols) (hpx : ∀ x ∈ img.data, x ≤ 255)
    (hm : adaptiveM = true ∨ (1 ≤ fixedM ∧ fixedM ≤ 65535))
    (hinit : initial.length = img.rows * img.cols) :
    ∃ bits : List Bool,
      (∀ bs, ImageCodec.encodePixels ceilLog img predictor adaptiveM fixedM .INTERLEAVED bs =
        .ok (bs ++ bits)) ∧
      (∀ rest, ImageCodec.decodePixels img.rows img.cols predictor .INTERLEAVED m0 initial
        (bits ++ rest) = .ok (img, rest)) := by
  have hN : 1 ≤ img.rows * img.cols := Nat.mul_pos hr hc
  have hN2 : img.rows * img.cols = img.rows * img.cols - 1 + 1 := by omega
  obtain ⟨m, g, tail, _, _, _, henc, hdec⟩ := ImageCodec.image_loop ceilLog img hc hlen hpx
    predictor adaptiveM fixedM hm (img.rows * img.cols - 1) 0 [] (by omega) (by simp)
  rw [← hN2] at henc hdec
  refine ⟨BitStream.msbFirst m 16 ++ tail, ?_, ?_⟩
  · intro bs
    unfold ImageCodec.encodePixels
    rw [ImageCodec.raster_eq _ _ hc, henc bs]
    simp
  · intro rest
    obtain ⟨mf, h⟩ := hdec rest initial m0 hinit (by simp) (by simp)
    unfold ImageCodec.decodePixels
    rw [ImageCodec.raster_eq _ _ hc]
    simp only [Nat.zero_mod, if_true] at h
    rw [h]

/-- Witness of C5: the 3×3 image `[[10,12,14],[20,22,24],[30,32,34]]` under the Paeth
predictor with adaptive `m`. -/
theorem C5_image_round_trip_interleaved_witness :
    ∃ bits : List Bool,
      (∀ bs, ImageCodec.encodePixels (fun _ _ => 3)
        { rows := 3, cols := 3, data := [10, 12, 14, 20, 22, 24, 30, 32, 34] }
        ImageCodec.PAETH true 16 .INTERLEAVED bs = .ok (bs ++ bits)) ∧
      (∀ rest, ImageCodec.decodePixels 3 3 ImageCodec.PAETH .INTERLEAVED 16
        [0, 0, 0, 0, 0, 0, 0, 0, 0] (bits ++ rest) =
        .ok ({ rows := 3, cols := 3, data := [10, 12, 14, 20, 22, 24, 30, 32, 34] }, rest)) :=
  C5_image_round_trip_interleaved (fun _ _ => 3)
    { rows := 3, cols := 3, data := [10, 12, 14, 20, 22, 24, 30, 32, 34] }
    ImageCodec.PAETH true 16 16 [0, 0, 0, 0, 0, 0, 0, 0, 0] (by decide) (by decide) (by decide)
    (by decide) (Or.inl rfl) (by decide)

/-! ## Claims about layout, predictors and the estimator -/

/-- C11. Sign-magnitude layout: in SIGN_MAGNITUDE mode, for every coder the constructor
returns (every `m ≥ 1`) and every `n` with `|n| < 2^31`, `encode(n)` is one sign bit (1
exactly when `n < 0`) followed by `encodeUnsigned(|n|)`, so its length is 1 + the length
of `encodeUnsigned(|n|)`; in INTERLEAVED mode `encode(n)` is
`encodeUnsigned(mapToUnsigned(n))`, with no sign bit in front. -/
theorem C11_sign_magnitude_layout (m : Nat) (n : Int) (gs gi : GolombCoding)
    (hs : GolombCoding.new m .SIGN_MAGNITUDE = .ok gs)
    (hi : GolombCoding.new m .INTERLEAVED = .ok gi)
    (hn1 : -2147483648 < n) (hn2 : n < 2147483648) :
    gs.encode n = decide (n < 0) :: gs.encodeUnsigned n.natAbs ∧
      (gs.encode n).length = 1 + (gs.encodeUnsigned n.natAbs).length ∧
      gi.encode n = gi.encodeUnsigned (gi.mapToUnsigned n) := by
  have hms : gs.mode = .SIGN_MAGNITUDE := by
    unfold GolombCoding.new GolombCoding.calculateParameters at hs
    split_ifs at hs
    injection hs with hs
    rw [← hs]
  have hmi : gi.mode = .INTERLEAVED := by
    unfold GolombCoding.new GolombCoding.calculateParameters at hi
    split_ifs at hi
    injection hi with hi
    rw [← hi]
  have h1 : gs.encode n = decide (n < 0) :: gs.encodeUnsigned n.natAbs := by
    unfold GolombCoding.encode
    rw [hms]
    simp only
    rw [GolombCoding.mapToUnsigned_signMagnitude gs hms n hn1 hn2]
    rfl
  refine ⟨h1, ?_, ?_⟩
  · rw [h1, List.length_cons]
    omega
  · unfold GolombCoding.encode
    rw [hmi]

/-- Witness of C11 at `m = 5`, `n = -3`. -/
theorem C11_sign_magnitude_layout_witness :
    (GolombCoding.mk 5 2 3 .SIGN_MAGNITUDE).encode (-3) =
        decide ((-3 : Int) < 0) ::
          (GolombCoding.mk 5 2 3 .SIGN_MAGNITUDE).encodeUnsigned (-3 : Int).natAbs ∧
      ((GolombCoding.mk 5 2 3 .SIGN_MAGNITUDE).encode (-3)).length =
        1 + ((GolombCoding.mk 5 2 3 .SIGN_MAGNITUDE).encodeUnsigned (-3 : Int).natAbs).length ∧
      (GolombCoding.mk 5 2 3 .INTERLEAVED).encode (-3) =
        (GolombCoding.mk 5 2 3 .INTERLEAVED).encodeUnsigned
          ((GolombCoding.mk 5 2 3 .INTERLEAVED).mapToUnsigned (-3)) :=
  C11_sign_magnitude_layout 5 (-3) (GolombCoding.mk 5 2 3 .SIGN_MAGNITUDE)
    (GolombCoding.mk 5 2 3 .INTERLEAVED) (by decide) (by decide) (by decide) (by decide)

/-- C12. Audio predictors equal the table of the specification: for every history of
`int16_t` samples `s` and index `i` within it, Order-1 gives `s[i-1]` (0 when `i = 0`);
Order-2 gives `clamp16(2*s[i-1] - s[i-2])` for `i ≥ 2`, `s[i-1]` for `i = 1`, 0 for
`i = 0`; Order-3 gives `clamp16(3*s[i-1] - 3*s[i-2] + s[i-3])` for `i ≥ 3`, the Order-2
value for `i = 2`, `s[i-1]` for `i = 1` and 0 for `i = 0`; `clamp16` is applied to the
exact integer value, so no 16-bit or 32-bit wraparound occurs. -/
theorem C12_audio_predictor_table (s : List Int) (i : Nat)
    (hs : ∀ x ∈ s, -32768 ≤ x ∧ x ≤ 32767) (hi : i ≤ s.length) :
    AudioCodec.predict s i AudioCodec.ORDER_1 = (if i = 0 then 0 else s.getD (i - 1) 0) ∧
      AudioCodec.predict s i AudioCodec.ORDER_2 =
        (if i = 0 then 0 else if i = 1 then s.getD (i - 1) 0
          else clamp16 (2 * s.getD (i - 1) 0 - s.getD (i - 2) 0)) ∧
      AudioCodec.predict s i AudioCodec.ORDER_3 =
        (if i = 0 then 0 else if i = 1 then s.getD (i - 1) 0
          else if i = 2 then clamp16 (2 * s.getD (i - 1) 0 - s.getD (i - 2) 0)
          else clamp16 (3 * s.getD (i - 1) 0 - 3 * s.getD (i - 2) 0 + s.getD (i - 3) 0)) := by
  have _ := hi
  have h1 := AudioCodec.isInt16_getD s hs (i - 1)
  have h2 := AudioCodec.isInt16_getD s hs (i - 2)
  have h3 := AudioCodec.isInt16_getD s hs (i - 3)
  unfold IsInt16 at h1 h2 h3
  unfold AudioCodec.predict
  generalize s.getD (i - 1) 0 = a at h1 ⊢
  generalize s.getD (i - 2) 0 = b at h2 ⊢
  generalize s.getD (i - 3) 0 = c at h3 ⊢
  have hc2 : AudioCodec.clamp (toI32 (2 * a - b)) = clamp16 (2 * a - b) := by
    unfold AudioCodec.clamp clampInt clamp16 toI16 toI32
    split_ifs <;> omega
  have hc3 : AudioCodec.clamp (toI32 (3 * a - 3 * b + c)) = clamp16 (3 * a - 3 * b + c) := by
    unfold AudioCodec.clamp clampInt clamp16 toI16 toI32
    split_ifs <;> omega
  have e10 : ¬ ((1 : AudioCodec.PredictorType) = 0) := by decide
  have e20 : ¬ ((2 : AudioCodec.PredictorType) = 0) := by decide
  have e21 : ¬ ((2 : AudioCodec.PredictorType) = 1) := by decide
  simp only [hc2, hc3, AudioCodec.ORDER_1, AudioCodec.ORDER_2, AudioCodec.ORDER_3, e10, e20,
    e21, if_false, if_true]
  refine ⟨trivial, ?_, ?_⟩
  · split_ifs <;> first | rfl | omega
  · split_ifs <;> first | rfl | omega

/-- Witness of C12: the history `[32767, -32768, 32767]` at `i = 3`, where Order-3 has
the exact value `3*32767 + 3*32768 + 32767`. -/
theorem C12_audio_predictor_table_witness :
    AudioCodec.predict [32767, -32768, 32767] 3 AudioCodec.ORDER_1 =
        (if 3 = 0 then 0 else [32767, -32768, 32767].getD (3 - 1) 0) ∧
      AudioCodec.predict [32767, -32768, 32767] 3 AudioCodec.ORDER_2 =
        (if 3 = 0 then 0 else if 3 = 1 then [32767, -32768, 32767].getD (3 - 1) 0
          else clamp16 (2 * [32767, -32768, 32767].getD (3 - 1) 0 -
            [32767, -32768, 32767].getD (3 - 2) 0)) ∧
      AudioCodec.predict [32767, -32768, 32767] 3 AudioCodec.ORDER_3 =
        (if 3 = 0 then 0 else if 3 = 1 then [32767, -32768, 32767].getD (3 - 1) 0
          else if 3 = 2 then clamp16 (2 * [32767, -32768, 32767].getD (3 - 1) 0 -
            [32767, -32768, 32767].getD (3 - 2) 0)
          else clamp16 (3 * [32767, -32768, 32767].getD (3 - 1) 0 -
            3 * [32767, -32768, 32767].getD (3 - 2) 0 +
            [32767, -32768, 32767].getD (3 - 3) 0)) :=
  C12_audio_predictor_table [32767, -32768, 32767] 3 (by decide) (by decide)

/-- C13, the code at a failing input. In the 2×2 image `[[10, 20], [30, 40]]` the pixel at
`(1, 1)` has the top-left neighbour 10, but `predict` with predictor code 2 (`TOP_LEFT`)
returns 128: the `switch` has no case for `TOP_LEFT`, so the `default` branch is taken at
every position. -/
theorem C13_top_left_predicts_default :
    ImageCodec.TOP_LEFT = 2 ∧
      ImageCodec.neighbourC { rows := 2, cols := 2, data := [10, 20, 30, 40] } 1 1 = 10 ∧
      ImageCodec.predict { rows := 2, cols := 2, data := [10, 20, 30, 40] } 1 1
        ImageCodec.TOP_LEFT = 128 ∧
      ∀ (img : ImageCodec.Mat) (row col : Nat),
        ImageCodec.predict img row col ImageCodec.TOP_LEFT = 128 := by
  refine ⟨rfl, by decide, by decide, ?_⟩
  intro img row col
  unfold ImageCodec.predict
  have e1 : ¬ (ImageCodec.TOP_LEFT = ImageCodec.LEFT) := by decide
  have e2 : ¬ (ImageCodec.TOP_LEFT = ImageCodec.TOP) := by decide
  have e3 : ¬ (ImageCodec.TOP_LEFT = ImageCodec.AVG) := by decide
  have e4 : ¬ (ImageCodec.TOP_LEFT = ImageCodec.PAETH) := by decide
  have e5 : ¬ (ImageCodec.TOP_LEFT = ImageCodec.A_PLUS_HALF_B_MINUS_C) := by decide
  have e6 : ¬ (ImageCodec.TOP_LEFT = ImageCodec.B_PLUS_HALF_A_MINUS_C) := by decide
  simp only [e1, e2, e3, e4, e5, e6, if_false]

/-- C14. Paeth predictor: at every position of an 8-bit image, with `A`, `B`, `C` the
left, top and top-left neighbour values (128 for an absent neighbour) and
`p = A + B - C`, `predict` with code 4 returns the Paeth selection of the specification:
an element of `{A, B, C}` that minimises `|p - x|`, `A` before `B` before `C` on ties;
the result is in `[0, 255]`. -/
theorem C14_paeth_predictor (img : ImageCodec.Mat) (row col : Nat)
    (hpx : ∀ x ∈ img.data, x ≤ 255) :
    ImageCodec.predict img row col ImageCodec.PAETH =
        paethSpec (ImageCodec.neighbourA img row col) (ImageCodec.neighbourB img row col)
          (ImageCodec.neighbourC img row col) ∧
      ImageCodec.predict img row col ImageCodec.PAETH ∈
        [ImageCodec.neighbourA img row col, ImageCodec.neighbourB img row col,
          ImageCodec.neighbourC img row col] ∧
      (∀ x ∈ [ImageCodec.neighbourA img row col, ImageCodec.neighbourB img row col,
          ImageCodec.neighbourC img row col],
        |ImageCodec.neighbourA img row col + ImageCodec.neighbourB img row col -
            ImageCodec.neighbourC img row col - ImageCodec.predict img row col ImageCodec.PAETH|
          ≤ |ImageCodec.neighbourA img row col + ImageCodec.neighbourB img row col -
            ImageCodec.neighbourC img row col - x|) ∧
      0 ≤ ImageCodec.predict img row col ImageCodec.PAETH ∧
      ImageCodec.predict img row col ImageCodec.PAETH ≤ 255 := by
  have hA : 0 ≤ ImageCodec.neighbourA img row col ∧ ImageCodec.neighbourA img row col ≤ 255 := by
    have := ImageCodec.pixelAt_le img hpx row (col - 1)
    unfold ImageCodec.neighbourA
    split_ifs <;> omega
  have hB : 0 ≤ ImageCodec.neighbourB img row col ∧ ImageCodec.neighbourB img row col ≤ 255 := by
    have := ImageCodec.pixelAt_le img hpx (row - 1) col
    unfold ImageCodec.neighbourB
    split_ifs <;> omega
  have hC : 0 ≤ ImageCodec.neighbourC img row col ∧ ImageCodec.neighbourC img row col ≤ 255 := by
    have := ImageCodec.pixelAt_le img hpx (row - 1) (col - 1)
    unfold ImageCodec.neighbourC
    split_ifs <;> omega
  have hcode : ImageCodec.predict img row col ImageCodec.PAETH =
      (if |ImageCodec.neighbourA img row col + ImageCodec.neighbourB img row col -
              ImageCodec.neighbourC img row col - ImageCodec.neighbourA img row col| ≤
            |ImageCodec.neighbourA img row col + ImageCodec.neighbourB img row col -
              ImageCodec.neighbourC img row col - ImageCodec.neighbourB img row col| ∧
          |ImageCodec.neighbourA img row col + ImageCodec.neighbourB img row col -
              ImageCodec.neighbourC img row col - ImageCodec.neighbourA img row col| ≤
            |ImageCodec.neighbourA img row col + ImageCodec.neighbourB img row col -
              ImageCodec.neighbourC img row col - ImageCodec.neighbourC img row col|
        then ImageCodec.neighbourA img row col
        else if |ImageCodec.neighbourA img row col + ImageCodec.neighbourB img row col -
              ImageCodec.neighbourC img row col - ImageCodec.neighbourB img row col| ≤
            |ImageCodec.neighbourA img row col + ImageCodec.neighbourB img row col -
              ImageCodec.neighbourC img row col - ImageCodec.neighbourC img row col|
        then ImageCodec.neighbourB img row col
        else ImageCodec.neighbourC img row col) := by
    unfold ImageCodec.predict ImageCodec.neighbourA ImageCodec.neighbourB
      ImageCodec.neighbourC
    have e1 : ¬ (ImageCodec.PAETH = ImageCodec.LEFT) := by decide
    have e2 : ¬ (ImageCodec.PAETH = ImageCodec.TOP) := by decide
    have e3 : ¬ (ImageCodec.PAETH = ImageCodec.AVG) := by decide
    simp only [e1, e2, e3, if_false, if_true]
  rw [hcode]
  unfold paethSpec
  generalize ImageCodec.neighbourA img row col = A at hA ⊢
  generalize ImageCodec.neighbourB img row col = B at hB ⊢
  generalize ImageCodec.neighbourC img row col = C at hC ⊢
  simp only
  generalize hda : |A + B - C - A| = da
  generalize hdb : |A + B - C - B| = db
  generalize hdc : |A + B - C - C| = dc
  have hda0 : 0 ≤ da := by rw [← hda]; exact abs_nonneg _
  have hdb0 : 0 ≤ db := by rw [← hdb]; exact abs_nonneg _
  have hdc0 : 0 ≤ dc := by rw [← hdc]; exact abs_nonneg _
  refine ⟨?_, ?_, ?_, ?_, ?_⟩
  · split_ifs <;> first | rfl | (exfalso; omega)
  · simp only [List.mem_cons, List.mem_singleton, List.not_mem_nil, or_false]
    split_ifs <;> simp
  · intro x hx
    simp only [List.mem_cons, List.mem_singleton, List.not_mem_nil, or_false] at hx
    split_ifs with h1 h2
    · rcases hx with rfl | rfl | rfl
      · exact le_refl _
      · rw [hda, hdb]; exact h1.1
      · rw [hda, hdc]; exact h1.2
    · rcases hx with rfl | rfl | rfl
      · rw [hda, hdb]
        by_contra hc
        exact h1 ⟨by omega, by omega⟩
      · exact le_refl _
      · rw [hdb, hdc]; exact h2
    · rcases hx with rfl | rfl | rfl
      · rw [hda, hdc]
        by_contra hc
        exact h1 ⟨by omega, by omega⟩
      · rw [hdb, hdc]; omega
      · exact le_refl _
  · split_ifs <;> omega
  · split_ifs <;> omega

/-- Witness of C14: the 3×3 image `[[10,12,14],[20,22,24],[30,32,34]]` at `(1, 1)`. -/
theorem C14_paeth_predictor_witness :
    ImageCodec.predict { rows := 3, cols := 3, data := [10, 12, 14, 20, 22, 24, 30, 32, 34] }
        1 1 ImageCodec.PAETH =
      paethSpec
        (ImageCodec.neighbourA
          { rows := 3, cols := 3, data := [10, 12, 14, 20, 22, 24, 30, 32, 34] } 1 1)
        (ImageCodec.neighbourB
          { rows := 3, cols := 3, data := [10, 12, 14, 20, 22, 24, 30, 32, 34] } 1 1)
        (ImageCodec.neighbourC
          { rows := 3, cols := 3, data := [10, 12, 14, 20, 22, 24, 30, 32, 34] } 1 1) :=
  (C14_paeth_predictor { rows := 3, cols := 3, data := [10, 12, 14, 20, 22, 24, 30, 32, 34] }
    1 1 (by decide)).1

/-- C15. Remaining image predictors equal the table of the specification: at every
position of an 8-bit image, with `A`, `B`, `C` the left, top and top-left neighbour
values (128 for each neighbour outside the image), code 0 returns `A`, code 1 returns
`B`, code 3 returns `(A + B) / 2`, code 5 returns `A + (B - C) / 2` and code 6 returns
`B + (A - C) / 2`, where `/ 2` truncates toward zero; at the pixel `(0, 0)` every one of
these predicts 128. -/
theorem C15_remaining_predictors (img : ImageCodec.Mat) (row col : Nat)
    (hpx : ∀ x ∈ img.data, x ≤ 255) :
    ImageCodec.predict img row col 0 = ImageCodec.neighbourA img row col ∧
      ImageCodec.predict img row col 1 = ImageCodec.neighbourB img row col ∧
      ImageCodec.predict img row col 3 =
        truncHalf (ImageCodec.neighbourA img row col + ImageCodec.neighbourB img row col) ∧
      ImageCodec.predict img row col 5 =
        ImageCodec.neighbourA img row col +
          truncHalf (ImageCodec.neighbourB img row col - ImageCodec.neighbourC img row col) ∧
      ImageCodec.predict img row col 6 =
        ImageCodec.neighbourB img row col +
          truncHalf (ImageCodec.neighbourA img row col - ImageCodec.neighbourC img row col) ∧
      ImageCodec.predict img 0 0 0 = 128 ∧ ImageCodec.predict img 0 0 1 = 128 ∧
      ImageCodec.predict img 0 0 3 = 128 ∧ ImageCodec.predict img 0 0 5 = 128 ∧
      ImageCodec.predict img 0 0 6 = 128 := by
  have _ := hpx
  have htr : ∀ x : Int, Int.tdiv x 2 = truncHalf x := by
    intro x
    unfold truncHalf
    by_cases h : x < 0
    · have h3 : x = -(-x) := by ring
      rw [if_pos h]
      conv => lhs; rw [h3, Int.neg_tdiv, Int.tdiv_eq_ediv (by omega) (by decide)]
    · rw [if_neg h, Int.tdiv_eq_ediv (by omega) (by decide)]
  have e10 : ¬ ((1 : ImageCodec.PredictorType) = 0) := by decide
  have e30 : ¬ ((3 : ImageCodec.PredictorType) = 0) := by decide
  have e31 : ¬ ((3 : ImageCodec.PredictorType) = 1) := by decide
  have e50 : ¬ ((5 : ImageCodec.PredictorType) = 0) := by decide
  have e51 : ¬ ((5 : ImageCodec.PredictorType) = 1) := by decide
  have e53 : ¬ ((5 : ImageCodec.PredictorType) = 3) := by decide
  have e54 : ¬ ((5 : ImageCodec.PredictorType) = 4) := by decide
  have e60 : ¬ ((6 : ImageCodec.PredictorType) = 0) := by decide
  have e61 : ¬ ((6 : ImageCodec.PredictorType) = 1) := by decide
  have e63 : ¬ ((6 : ImageCodec.PredictorType) = 3) := by decide
  have e64 : ¬ ((6 : ImageCodec.PredictorType) = 4) := by decide
  have e65 : ¬ ((6 : ImageCodec.PredictorType) = 5) := by decide
  have h128 : truncHalf (128 + 128) = 128 ∧ truncHalf (128 - 128) = 0 := by
    unfold truncHalf
    constructor <;> decide
  unfold ImageCodec.predict ImageCodec.neighbourA ImageCodec.neighbourB
    ImageCodec.neighbourC
  simp only [ImageCodec.LEFT, ImageCodec.TOP, ImageCodec.AVG, ImageCodec.PAETH,
    ImageCodec.A_PLUS_HALF_B_MINUS_C, ImageCodec.B_PLUS_HALF_A_MINUS_C, e10, e30, e31, e50,
    e51, e53, e54, e60, e61, e63, e64, e65, if_false, if_true, htr, gt_iff_lt, Nat.lt_irrefl,
    false_and, and_false, h128.1, h128.2]
  simp

/-- Witness of C15: the 3×3 image `[[10,12,14],[20,22,24],[30,32,34]]` at `(1, 1)`,
predictor code 5: `A + (B - C) / 2 = 20 + (12 - 10) / 2 = 21`. -/
theorem C15_remaining_predictors_witness :
    ImageCodec.predict { rows := 3, cols := 3, data := [10, 12, 14, 20, 22, 24, 30, 32, 34] }
        1 1 5 =
      ImageCodec.neighbourA
          { rows := 3, cols := 3, data := [10, 12, 14, 20, 22, 24, 30, 32, 34] } 1 1 +
        truncHalf
          (ImageCodec.neighbourB
              { rows := 3, cols := 3, data := [10, 12, 14, 20, 22, 24, 30, 32, 34] } 1 1 -
            ImageCodec.neighbourC
              { rows := 3, cols := 3, data := [10, 12, 14, 20, 22, 24, 30, 32, 34] } 1 1) :=
  (C15_remaining_predictors
    { rows := 3, cols := 3, data := [10, 12, 14, 20, 22, 24, 30, 32, 34] } 1 1
    (by decide)).2.2.2.1

/-- C16. Estimator bounds: for every list of residuals (each with `|r| < 2^31`), both the
audio and the image copy of `estimateGolombParameter` return a value `m` with
`1 ≤ m ≤ 65535`, whatever the floating-point expression evaluates to; they return 1 for
the empty list, for any all-zero list, and whenever the mean of `|r|` is below 0.5. -/
theorem C16_estimator_bounds (ceilLogA ceilLogI : Nat → Nat → Nat) (residuals : List Int)
    (hr : ∀ r ∈ residuals, -2147483648 < r ∧ r < 2147483648) :
    (1 ≤ AudioCodec.estimateGolombParameter ceilLogA residuals ∧
        AudioCodec.estimateGolombParameter ceilLogA residuals ≤ 65535) ∧
      (1 ≤ ImageCodec.estimateGolombParameter ceilLogI residuals ∧
        ImageCodec.estimateGolombParameter ceilLogI residuals ≤ 65535) ∧
      (residuals = [] →
        AudioCodec.estimateGolombParameter ceilLogA residuals = 1 ∧
          ImageCodec.estimateGolombParameter ceilLogI residuals = 1) ∧
      ((∀ r ∈ residuals, r = 0) →
        AudioCodec.estimateGolombParameter ceilLogA residuals = 1 ∧
          ImageCodec.estimateGolombParameter ceilLogI residuals = 1) ∧
      ((((residuals.map Int.natAbs).sum : Nat) : ℚ) / (residuals.length : ℚ) < 1 / 2 →
        AudioCodec.estimateGolombParameter ceilLogA residuals = 1 ∧
          ImageCodec.estimateGolombParameter ceilLogI residuals = 1) := by
  have _ := hr
  have hlow : ∀ ceilLog : Nat → Nat → Nat,
      (residuals = [] ∨ 2 * (residuals.map Int.natAbs).sum < residuals.length) →
      AudioCodec.estimateGolombParameter ceilLog residuals = 1 ∧
        ImageCodec.estimateGolombParameter ceilLog residuals = 1 := by
    intro ceilLog h
    unfold AudioCodec.estimateGolombParameter ImageCodec.estimateGolombParameter
    rcases h with h | h
    · subst h
      simp
    · simp only [h, if_true]
      constructor <;> split_ifs <;> rfl
  have hA := hlow ceilLogA
  have hI := hlow ceilLogI
  refine ⟨AudioCodec.audio_estimate_range _ _, ImageCodec.image_estimate_range _ _, ?_, ?_, ?_⟩
  · intro h
    exact ⟨(hA (Or.inl h)).1, (hI (Or.inl h)).2⟩
  · intro h
    have hsum : (residuals.map Int.natAbs).sum = 0 := by
      apply List.sum_eq_zero
      intro x hx
      obtain ⟨r, hrm, rfl⟩ := List.mem_map.mp hx
      rw [h r hrm]
      rfl
    have hcase : residuals = [] ∨ 2 * (residuals.map Int.natAbs).sum < residuals.length := by
      cases residuals with
      | nil => exact Or.inl rfl
      | cons r rs =>
        right
        rw [hsum]
        simp
    exact ⟨(hA hcase).1, (hI hcase).2⟩
  · intro h
    have hcase : residuals = [] ∨ 2 * (residuals.map Int.natAbs).sum < residuals.length := by
      cases hres : residuals with
      | nil => exact Or.inl rfl
      | cons r rs =>
        right
        rw [← hres]
        have hpos : (0 : ℚ) < (residuals.length : ℚ) := by
          rw [hres]
          simp only [List.length_cons]
          exact_mod_cast Nat.succ_pos _
        rw [div_lt_iff₀ hpos] at h
        have h2 : (2 : ℚ) * ((residuals.map Int.natAbs).sum : ℚ) < (residuals.length : ℚ) := by
          linarith
        exact_mod_cast h2
    exact ⟨(hA hcase).1, (hI hcase).2⟩

/-- Witness of C16 at the residuals `[0, 1, 0, 0, 0]`, whose mean is 0.2. -/
theorem C16_estimator_bounds_witness :
    AudioCodec.estimateGolombParameter (fun _ _ => 8) [0, 1, 0, 0, 0] = 1 ∧
      ImageCodec.estimateGolombParameter (fun _ _ => 8) [0, 1, 0, 0, 0] = 1 :=
  (C16_estimator_bounds (fun _ _ => 8) (fun _ _ => 8) [0, 1, 0, 0, 0] (by decide)).2.2.2.2
    (by norm_num)

/-- C18, the code at a failing input. The option check accepts `-m 70000`; with it
`encodeChannel` builds the block's coder with `m = 70000` (`b = 16`) and writes the low 16
bits of `m` before the block, which read back as 4464; `decodeChannel` then decodes the
one-sample channel `[1000]` as `[-63]` and leaves four bits unread. -/
theorem C18_fixed_m_not_bounded :
    AudioCodec.checkFixedM 70000 = some 70000 ∧
    newCoder 70000 .INTERLEAVED =
      .ok { m := 70000, b := 16, cutoff := 61072, mode := .INTERLEAVED } ∧
    AudioCodec.encodeChannel (fun _ _ => 1) [1000] [] AudioCodec.ORDER_1 false 70000
        .INTERLEAVED =
      .ok (BitStream.msbFirst 70000 16 ++
        (GolombCoding.mk 70000 16 61072 .INTERLEAVED).encode 1000) ∧
    BitStream.read_n_bits (BitStream.msbFirst 70000 16 ++
        (GolombCoding.mk 70000 16 61072 .INTERLEAVED).encode 1000) 16 =
      some (4464, (GolombCoding.mk 70000 16 61072 .INTERLEAVED).encode 1000) ∧
    AudioCodec.decodeChannel (BitStream.msbFirst 70000 16 ++
        (GolombCoding.mk 70000 16 61072 .INTERLEAVED).encode 1000) 1 AudioCodec.ORDER_1
        .INTERLEAVED =
      .ok ([-63], [false, false, false, false]) := by
  decide

/-- C19, counterexample to the claim as stated: the negative-mode field of a header
written in interleaved mode holds 1, not 0 (the bytes at offset 36 of the AGOL header
and at offset 24 of the GIMG header are `1 0 0 0`), and the decoder maps 0 to
sign-magnitude and 1 to interleaved. -/
theorem C19_negative_mode_code_counterexample :
    (AudioCodec.writeHeader 1 44100 4 AudioCodec.ORDER_1 AudioCodec.INDEPENDENT true 16
        .INTERLEAVED).drop 36 = [1, 0, 0, 0] ∧
      (ImageCodec.writeHeader 3 3 ImageCodec.PAETH true 16 .INTERLEAVED).drop 24 =
        [1, 0, 0, 0] ∧
      NegativeMode.toInt .INTERLEAVED ≠ 0 ∧ NegativeMode.toInt .SIGN_MAGNITUDE ≠ 1 ∧
      NegativeMode.ofInt 0 ≠ .INTERLEAVED ∧ NegativeMode.ofInt 1 ≠ .SIGN_MAGNITUDE := by
  decide

/-- C19, amended. The integer written into the negative-mode field of the AGOL and GIMG
headers is the enumerator value of the mode, 1 when the coder mode is interleaved and 0
when it is sign-magnitude; the decoders read that integer back and map 1 to interleaved
and 0 to sign-magnitude, so they obtain the mode that was written. -/
theorem C19_negative_mode_code (channels sampleRate frames width height : Int)
    (ap : AudioCodec.PredictorType) (sm : AudioCodec.StereoMode)
    (ip : ImageCodec.PredictorType) (adaptiveM : Bool) (fixedM : Nat) (mode : NegativeMode) :
    NegativeMode.toInt .INTERLEAVED = 1 ∧ NegativeMode.toInt .SIGN_MAGNITUDE = 0 ∧
      NegativeMode.ofInt 1 = .INTERLEAVED ∧ NegativeMode.ofInt 0 = .SIGN_MAGNITUDE ∧
      readInt ((AudioCodec.writeHeader channels sampleRate frames ap sm adaptiveM fixedM
        mode).drop 36) = some (mode.toInt, []) ∧
      readInt ((ImageCodec.writeHeader width height ip adaptiveM fixedM mode).drop 24) =
        some (mode.toInt, []) ∧
      NegativeMode.ofInt mode.toInt = mode := by
  have hng := toInt_range mode
  refine ⟨rfl, rfl, rfl, rfl, ?_, ?_, ofInt_toInt mode⟩
  · rw [audio_header_negMode]
    have h := readInt_leBytes mode.toInt hng.1 hng.2 []
    rw [List.append_nil] at h
    exact h
  · rw [image_header_negMode]
    have h := readInt_leBytes mode.toInt hng.1 hng.2 []
    rw [List.append_nil] at h
    exact h

/-- C20. Header round trip and payload offset: the AGOL header (magic, channels, sample
rate, 64-bit frame count, predictor code, stereo mode, adaptive flag, fixed `m`,
negative-mode code, each written by its own `write` with no padding) is 40 bytes long and
the GIMG header (magic, width, height, predictor code, adaptive flag, fixed `m`,
negative-mode code) is 28 bytes long; each decoder, reading its fields in its own order
from a file that holds the header followed by any payload, obtains the values that were
written, and the offset it seeks to before reading the payload, 40 (AGOL) or 28 (GIMG),
is exactly where the payload starts. -/
theorem C20_header_round_trip (channels sampleRate frames width height : Int)
    (ap : AudioCodec.PredictorType) (sm : AudioCodec.StereoMode)
    (ip : ImageCodec.PredictorType) (adaptiveM : Bool) (fixedM : Nat) (mode : NegativeMode)
    (payload : List Nat)
    (hch : -2147483648 ≤ channels ∧ channels < 2147483648)
    (hsr : -2147483648 ≤ sampleRate ∧ sampleRate < 2147483648)
    (hfr : -9223372036854775808 ≤ frames ∧ frames < 9223372036854775808)
    (hw : -2147483648 ≤ width ∧ width < 2147483648)
    (hh : -2147483648 ≤ height ∧ height < 2147483648)
    (hap : -2147483648 ≤ ap ∧ ap < 2147483648)
    (hsm : -2147483648 ≤ sm ∧ sm < 2147483648)
    (hip : -2147483648 ≤ ip ∧ ip < 2147483648)
    (hm : fixedM < 4294967296) :
    ((AudioCodec.writeHeader channels sampleRate frames ap sm adaptiveM fixedM mode).length
        = 40 ∧
      AudioCodec.payloadOffset = 40 ∧
      AudioCodec.readHeader
          (AudioCodec.writeHeader channels sampleRate frames ap sm adaptiveM fixedM mode ++
            payload) =
        .ok { channels := channels, sampleRate := sampleRate, frames := frames,
              predType := ap, stereoType := sm, adaptive := if adaptiveM then 1 else 0,
              m := fixedM, negMode := mode.toInt } ∧
      (AudioCodec.writeHeader channels sampleRate frames ap sm adaptiveM fixedM mode ++
          payload).drop AudioCodec.payloadOffset = payload) ∧
    ((ImageCodec.writeHeader width height ip adaptiveM fixedM mode).length = 28 ∧
      ImageCodec.payloadOffset = 28 ∧
      ImageCodec.readHeader
          (ImageCodec.writeHeader width height ip adaptiveM fixedM mode ++ payload) =
        .ok { width := width, height := height, predType := ip,
              adaptive := if adaptiveM then 1 else 0, m := fixedM,
              negMode := mode.toInt } ∧
      (ImageCodec.writeHeader width height ip adaptiveM fixedM mode ++ payload).drop
          ImageCodec.payloadOffset = payload) := by
  refine ⟨⟨audio_header_length _ _ _ _ _ _ _ _, rfl,
    audio_header_read _ _ _ _ _ _ _ _ payload hch hsr hfr hap hsm hm, ?_⟩,
    ⟨image_header_length _ _ _ _ _ _, rfl,
      image_header_read _ _ _ _ _ _ payload hw hh hip hm, ?_⟩⟩
  · exact drop_append_of_length _ _ _ (audio_header_length _ _ _ _ _ _ _ _)
  · exact drop_append_of_length _ _ _ (image_header_length _ _ _ _ _ _)

/-- Witness of C20: a stereo 44100 Hz file of 1000 frames and a 3×3 image, followed by
three payload bytes. -/
theorem C20_header_round_trip_witness :
    AudioCodec.readHeader
        (AudioCodec.writeHeader 2 44100 1000 AudioCodec.ORDER_2 AudioCodec.MID_SIDE true 16
          .INTERLEAVED ++ [7, 8, 9]) =
      .ok { channels := 2, sampleRate := 44100, frames := 1000,
            predType := AudioCodec.ORDER_2, stereoType := AudioCodec.MID_SIDE,
            adaptive := if true then 1 else 0, m := 16,
            negMode := NegativeMode.toInt .INTERLEAVED } ∧
      (AudioCodec.writeHeader 2 44100 1000 AudioCodec.ORDER_2 AudioCodec.MID_SIDE true 16
          .INTERLEAVED ++ [7, 8, 9]).drop AudioCodec.payloadOffset = [7, 8, 9] :=
  ⟨(C20_header_round_trip 2 44100 1000 3 3 AudioCodec.ORDER_2 AudioCodec.MID_SIDE
      ImageCodec.PAETH true 16 .INTERLEAVED [7, 8, 9] (by decide) (by decide) (by decide)
      (by decide) (by decide) (by decide) (by decide) (by decide) (by decide)).1.2.2.1,
    (C20_header_round_trip 2 44100 1000 3 3 AudioCodec.ORDER_2 AudioCodec.MID_SIDE
      ImageCodec.PAETH true 16 .INTERLEAVED [7, 8, 9] (by decide) (by decide) (by decide)
      (by decide) (by decide) (by decide) (by decide) (by decide) (by decide)).1.2.2.2⟩

/-! ## The checks of the decoders on the header -/

/-- C21. Magic check: the magic values are the ASCII bytes of `AGOL` and `GIMG`. For a
file that starts with the four bytes `b0 b1 b2 b3`: when these are not the magic, the
header read ends with the invalid-format error and so does the whole decoding (audio and
image), which returns no samples and no pixels; when they are the magic, the magic check
passes: neither the header read nor the decoding ends with the invalid-format error. -/
theorem C21_magic_check (b0 b1 b2 b3 : Nat) (rest initial : List Nat) :
    AudioCodec.magicAGOL = ['A', 'G', 'O', 'L'].map Char.toNat ∧
      ImageCodec.magicGIMG = ['G', 'I', 'M', 'G'].map Char.toNat ∧
      (([b0, b1, b2, b3] ≠ AudioCodec.magicAGOL ∧
          AudioCodec.readHeader (b0 :: b1 :: b2 :: b3 :: rest) = .error .invalidMagic ∧
          AudioCodec.decodeFile (b0 :: b1 :: b2 :: b3 :: rest) =
            .error (.header .invalidMagic)) ∨
        ([b0, b1, b2, b3] = AudioCodec.magicAGOL ∧
          AudioCodec.readHeader (b0 :: b1 :: b2 :: b3 :: rest) ≠ .error .invalidMagic ∧
          AudioCodec.decodeFile (b0 :: b1 :: b2 :: b3 :: rest) ≠
            .error (.header .invalidMagic))) ∧
      (([b0, b1, b2, b3] ≠ ImageCodec.magicGIMG ∧
          ImageCodec.readHeader (b0 :: b1 :: b2 :: b3 :: rest) = .error .invalidMagic ∧
          ImageCodec.decodeImage (b0 :: b1 :: b2 :: b3 :: rest) initial =
            .error (.header .invalidMagic)) ∨
        ([b0, b1, b2, b3] = ImageCodec.magicGIMG ∧
          ImageCodec.readHeader (b0 :: b1 :: b2 :: b3 :: rest) ≠ .error .invalidMagic ∧
          ImageCodec.decodeImage (b0 :: b1 :: b2 :: b3 :: rest) initial ≠
            .error (.header .invalidMagic))) := by
  have ht : (b0 :: b1 :: b2 :: b3 :: rest).take 4 = [b0, b1, b2, b3] := rfl
  refine ⟨by decide, by decide, ?_, ?_⟩
  · by_cases h : [b0, b1, b2, b3] = AudioCodec.magicAGOL
    · right
      exact ⟨h, AudioCodec.audio_good_magic _ (ht.trans h),
        AudioCodec.decodeFile_good_magic _ (ht.trans h)⟩
    · left
      have h2 : (b0 :: b1 :: b2 :: b3 :: rest).take 4 ≠ AudioCodec.magicAGOL := by
        rw [ht]; exact h
      exact ⟨h, AudioCodec.audio_bad_magic _ h2, AudioCodec.decodeFile_bad_magic _ h2⟩
  · by_cases h : [b0, b1, b2, b3] = ImageCodec.magicGIMG
    · right
      exact ⟨h, ImageCodec.image_good_magic _ (ht.trans h),
        ImageCodec.decodeImage_good_magic _ initial (ht.trans h)⟩
    · left
      have h2 : (b0 :: b1 :: b2 :: b3 :: rest).take 4 ≠ ImageCodec.magicGIMG := by
        rw [ht]; exact h
      exact ⟨h, ImageCodec.image_bad_magic _ h2,
        ImageCodec.decodeImage_bad_magic _ initial h2⟩

/-- C22, counterexample to the claim as stated: a mono AGOL file of one frame whose header
carries the predictor code 7 is decoded without error to the sample 5, and a 1×1 GIMG
file whose header carries the predictor code 7 is decoded without error to the pixel
100; `predict` substitutes its default prediction for the unknown code, 0 for audio and
128 for images. -/
theorem C22_unknown_predictor_counterexample :
    (∃ h, AudioCodec.decodeFile
        (AudioCodec.writeHeader 1 44100 1 7 0 false 16 .INTERLEAVED ++ [0, 16, 208]) =
          .ok (h, [5]) ∧ h.predType = 7) ∧
      (∃ h, ImageCodec.decodeImage
        (ImageCodec.writeHeader 1 1 7 false 16 .INTERLEAVED ++ [0, 16, 23]) [0] =
          .ok (h, ⟨1, 1, [100]⟩) ∧ h.predType = 7) ∧
      AudioCodec.predict [1, 2] 2 7 = 0 ∧
      ImageCodec.predict ⟨2, 2, [10, 20, 30, 40]⟩ 1 1 7 = 128 := by
  refine ⟨⟨⟨1, 44100, 1, 7, 0, 0, 16, 1⟩, ?_, rfl⟩, ⟨⟨1, 1, 7, 0, 16, 1⟩, ?_, rfl⟩, ?_, ?_⟩
  · decide
  · decide
  · decide
  · decide

/-- C22, amended. Unknown predictor codes are not errors. `predict` returns its default
prediction for every code it does not know: 0 for every audio code outside 0..2 and 128
for every image code outside 0..6, at every position. The audio decoder reads the
predictor code from the header and uses it unchecked: a mono file written with any
predictor code `p` (an `int`), interleaved mode and adaptive or fixed `m` in
`[1, 65535]` is decoded without error to the samples that were encoded, whatever bytes
hold the channel stream and its padding. -/
theorem C22_unknown_predictor (ceilLog : Nat → Nat → Nat) (history : List Int) (index : Nat)
    (img : ImageCodec.Mat) (row col : Nat) (p q : Int) (samples : List Int)
    (sampleRate : Int) (stereoMode : AudioCodec.StereoMode) (adaptiveM : Bool) (fixedM : Nat)
    (hp : p < 0 ∨ 2 < p) (hp32 : -2147483648 ≤ p ∧ p < 2147483648)
    (hq : q < 0 ∨ 6 < q)
    (hs : ∀ s ∈ samples, IsInt16 s) (hn : samples.length < 9223372036854775808)
    (hsr : -2147483648 ≤ sampleRate ∧ sampleRate < 2147483648)
    (hst : -2147483648 ≤ stereoMode ∧ stereoMode < 2147483648)
    (hf : fixedM < 4294967296)
    (hm : adaptiveM = true ∨ (1 ≤ fixedM ∧ fixedM ≤ 65535)) :
    AudioCodec.predict history index p = 0 ∧
      ImageCodec.predict img row col q = 128 ∧
      ∃ bits : List Bool,
        AudioCodec.encodeChannel ceilLog samples [] p adaptiveM fixedM .INTERLEAVED =
          .ok bits ∧
        ∀ bytes tail, BitStream.ofBytes bytes = bits ++ tail →
          ∃ h, AudioCodec.decodeFile
              (AudioCodec.writeHeader 1 sampleRate (samples.length : Int) p stereoMode
                adaptiveM fixedM .INTERLEAVED ++ bytes) = .ok (h, samples) ∧
            h.predictor = p := by
  have hp0 : ¬ (p = AudioCodec.ORDER_1) := by
    unfold AudioCodec.ORDER_1; omega
  have hp1 : ¬ (p = AudioCodec.ORDER_2) := by
    unfold AudioCodec.ORDER_2; omega
  have hp2 : ¬ (p = AudioCodec.ORDER_3) := by
    unfold AudioCodec.ORDER_3; omega
  obtain ⟨bits, henc, hdec⟩ := AudioCodec.decodeFile_mono ceilLog samples hs hn sampleRate
    hsr p hp32 stereoMode hst adaptiveM fixedM hf hm
  refine ⟨?_, ?_, bits, ?_, ?_⟩
  · unfold AudioCodec.predict
    simp only [hp0, hp1, hp2, if_false, ite_self]
  · have hq0 : ¬ (q = ImageCodec.LEFT) := by unfold ImageCodec.LEFT; omega
    have hq1 : ¬ (q = ImageCodec.TOP) := by unfold ImageCodec.TOP; omega
    have hq3 : ¬ (q = ImageCodec.AVG) := by unfold ImageCodec.AVG; omega
    have hq4 : ¬ (q = ImageCodec.PAETH) := by unfold ImageCodec.PAETH; omega
    have hq5 : ¬ (q = ImageCodec.A_PLUS_HALF_B_MINUS_C) := by
      unfold ImageCodec.A_PLUS_HALF_B_MINUS_C; omega
    have hq6 : ¬ (q = ImageCodec.B_PLUS_HALF_A_MINUS_C) := by
      unfold ImageCodec.B_PLUS_HALF_A_MINUS_C; omega
    unfold ImageCodec.predict
    simp only [hq0, hq1, hq3, hq4, hq5, hq6, if_false]
  · have h := henc []
    rw [List.nil_append] at h
    exact h
  · intro bytes tail hb
    exact ⟨_, hdec bytes tail hb, rfl⟩

/-- Witness of C22 (amended) with the audio code 7 and the image code 9. -/
theorem C22_unknown_predictor_witness :
    AudioCodec.predict [1, 2] 2 7 = 0 ∧
      ImageCodec.predict ⟨2, 2, [10, 20, 30, 40]⟩ 1 1 9 = 128 ∧
      ∃ bits : List Bool,
        AudioCodec.encodeChannel (fun _ _ => 1) [5] [] 7 false 16 .INTERLEAVED = .ok bits ∧
        ∀ bytes tail, BitStream.ofBytes bytes = bits ++ tail →
          ∃ h, AudioCodec.decodeFile
              (AudioCodec.writeHeader 1 44100 (([5] : List Int).length : Int) 7 0
                false 16 .INTERLEAVED ++ bytes) = .ok (h, [5]) ∧
            h.predictor = 7 :=
  C22_unknown_predictor (fun _ _ => 1) [1, 2] 2 ⟨2, 2, [10, 20, 30, 40]⟩ 1 1 7 9 [5] 44100 0
    false 16 (Or.inr (by decide)) (by decide) (Or.inr (by decide)) (by decide) (by decide)
    (by decide) (by decide) (by decide) (Or.inr (by decide))

/-! ## Codeword lengths and the worked codewords -/

/-- C23. Codeword length monotonicity: for every `m ≥ 1` the constructor returns a coder
with that `m`, and for all `n1 ≤ n2` the codeword `encodeUnsigned(n1)` of that coder is at
most as long as `encodeUnsigned(n2)`. -/
theorem C23_length_monotone (m : Nat) (mode : NegativeMode) (hm : 1 ≤ m) :
    ∃ g, GolombCoding.new m mode = .ok g ∧ g.m = m ∧
      ∀ n1 n2 : Nat, n1 ≤ n2 →
        (g.encodeUnsigned n1).length ≤ (g.encodeUnsigned n2).length := by
  have hm0 : m ≠ 0 := by omega
  have hnew : ∃ g, GolombCoding.new m mode = .ok g ∧ g.m = m := ⟨_, if_neg hm0, rfl⟩
  obtain ⟨g, hg, hgm⟩ := hnew
  exact ⟨g, hg, hgm, fun n1 n2 h => GolombCoding.length_encodeUnsigned_mono g n1 n2 h⟩

/-- Witness of C23 at `m = 5`: the codewords of 7 and 9 have lengths 4 and 5. -/
theorem C23_length_monotone_witness :
    (1 ≤ 5) ∧ ∃ g, GolombCoding.new 5 .INTERLEAVED = .ok g ∧ g.m = 5 ∧
      ∀ n1 n2 : Nat, n1 ≤ n2 →
        (g.encodeUnsigned n1).length ≤ (g.encodeUnsigned n2).length :=
  ⟨by decide, C23_length_monotone 5 .INTERLEAVED (by decide)⟩

/-- C24, counterexample to the claim as stated: the coder built for `m = 4` has
`cutoff = 4`, not 0, and `encode(10)` is the eight bits `00000 1 00`; it is neither the
unary part followed by `000` nor the sequence `000000 1 000`. -/
theorem C24_scenario_m4_counterexample :
    ∃ g, GolombCoding.new 4 .INTERLEAVED = .ok g ∧ g.cutoff ≠ 0 ∧
      g.encode 10 ≠ List.replicate 5 false ++ [true] ++ [false, false, false] ∧
      g.encode 10 ≠ List.replicate 6 false ++ [true] ++ [false, false, false] ∧
      (g.encode 10).length = 8 := by
  refine ⟨{ m := 4, b := 2, cutoff := 4, mode := .INTERLEAVED }, ?_, ?_, ?_, ?_, ?_⟩ <;> decide

/-- C24, amended. For `m = 4` in interleaved mode the coder has `b = 2` and `cutoff = 4`;
`encode(10)` maps 10 to 20 with `q = 5` and `r = 0`, and as `r < cutoff` the remainder is
emitted as `r = 0` in `b = 2` bits: the codeword is `00000 1 00`, five zero bits, the
terminator and the bits `00`. -/
theorem C24_scenario_m4 :
    ∃ g, GolombCoding.new 4 .INTERLEAVED = .ok g ∧ g.b = 2 ∧ g.cutoff = 4 ∧
      g.mapToUnsigned 10 = 20 ∧ 20 / g.m = 5 ∧ 20 % g.m = 0 ∧ 20 % g.m < g.cutoff ∧
      g.encode 10 = List.replicate 5 false ++ [true] ++ GolombCoding.pushBits 0 2 ∧
      g.encode 10 = [false, false, false, false, false, true, false, false] ∧
      g.decode (g.encode 10) 0 = .ok (10, 8) := by
  refine ⟨{ m := 4, b := 2, cutoff := 4, mode := .INTERLEAVED },
    ?_, ?_, ?_, ?_, ?_, ?_, ?_, ?_, ?_, ?_⟩ <;> decide

/-- C25, counterexample to the claim as stated: the coder built for `m = 5` has
`cutoff = 3`, not 1, and `encode(-3)` in sign-magnitude mode is `1 1 1 1 0`, not
`1 1 1 0 0`. -/
theorem C25_scenario_m5_counterexample :
    ∃ g, GolombCoding.new 5 .SIGN_MAGNITUDE = .ok g ∧ g.cutoff ≠ 1 ∧
      g.encode (-3) ≠ [true, true, true, false, false] := by
  refine ⟨{ m := 5, b := 2, cutoff := 3, mode := .SIGN_MAGNITUDE }, ?_, ?_, ?_⟩ <;> decide

/-- C25, amended. For `m = 5` in sign-magnitude mode the coder has `b = 2` and
`cutoff = 3`; `encode(-3)` is the sign bit 1, the terminator 1 of the empty unary part
(`q = 0`, `r = 3`) and, as `r ≥ cutoff`, the value `r + cutoff = 6` in `b + 1 = 3` bits:
the codeword is `1 1 1 1 0`. -/
theorem C25_scenario_m5 :
    ∃ g, GolombCoding.new 5 .SIGN_MAGNITUDE = .ok g ∧ g.b = 2 ∧ g.cutoff = 3 ∧
      g.mapToUnsigned (-3) = 3 ∧ 3 / g.m = 0 ∧ 3 % g.m = 3 ∧ ¬ (3 % g.m < g.cutoff) ∧
      g.encode (-3) = [true] ++ [true] ++ GolombCoding.pushBits 6 3 ∧
      g.encode (-3) = [true, true, true, true, false] ∧
      g.decode (g.encode (-3)) 0 = .ok (-3, 5) := by
  refine ⟨{ m := 5, b := 2, cutoff := 3, mode := .SIGN_MAGNITUDE },
    ?_, ?_, ?_, ?_, ?_, ?_, ?_, ?_, ?_, ?_⟩ <;> decide

/-! ## The stereo payload -/

/-- C26. Stereo independent-mode round trip: for an interleaved stereo buffer of
`frames` frames of int16 samples, any predictor code, interleaved negative mode and
adaptive or fixed `m` in `[1, 65535]`, the encoder writes the stream of the left channel
followed by the stream of the right channel; the first `decodeChannel` call returns the
left channel and leaves exactly the bits after the first channel stream; the second call
returns the right channel; and the decoder's re-interleaving returns the original
buffer. -/
theorem C26_stereo_independent_round_trip (ceilLog : Nat → Nat → Nat) (samples : List Int)
    (frames : Nat) (hlen : samples.length = 2 * frames) (hs : ∀ s ∈ samples, IsInt16 s)
    (predictor : AudioCodec.PredictorType) (adaptiveM : Bool) (fixedM : Nat)
    (hm : adaptiveM = true ∨ (1 ≤ fixedM ∧ fixedM ≤ 65535)) :
    ∃ bitsL bitsR : List Bool,
      AudioCodec.encodeChannel ceilLog (AudioCodec.deinterleave samples frames).1 []
        predictor adaptiveM fixedM .INTERLEAVED = .ok bitsL ∧
      AudioCodec.encodeChannel ceilLog (AudioCodec.deinterleave samples frames).2 []
        predictor adaptiveM fixedM .INTERLEAVED = .ok bitsR ∧
      (∀ bs, AudioCodec.encodePayload ceilLog samples 2 frames bs predictor
        AudioCodec.INDEPENDENT adaptiveM fixedM .INTERLEAVED = .ok (bs ++ bitsL ++ bitsR)) ∧
      (∀ rest, AudioCodec.decodeChannel (bitsL ++ bitsR ++ rest) frames predictor
        .INTERLEAVED = .ok ((AudioCodec.deinterleave samples frames).1, bitsR ++ rest)) ∧
      (∀ rest, AudioCodec.decodeChannel (bitsR ++ rest) frames predictor .INTERLEAVED =
        .ok ((AudioCodec.deinterleave samples frames).2, rest)) ∧
      AudioCodec.interleave (AudioCodec.deinterleave samples frames).1
        (AudioCodec.deinterleave samples frames).2 frames = samples ∧
      (∀ rest, AudioCodec.decodePayload (bitsL ++ bitsR ++ rest) 2 frames predictor
        AudioCodec.INDEPENDENT .INTERLEAVED = .ok samples) := by
  obtain ⟨hl1, hl2, hs1, hs2⟩ := AudioCodec.deinterleave_facts samples frames hs
  obtain ⟨bitsL, heL, hdL⟩ := AudioCodec.channel_round_trip ceilLog
    (AudioCodec.deinterleave samples frames).1 hs1 predictor adaptiveM fixedM hm
  obtain ⟨bitsR, heR, hdR⟩ := AudioCodec.channel_round_trip ceilLog
    (AudioCodec.deinterleave samples frames).2 hs2 predictor adaptiveM fixedM hm
  rw [hl1] at hdL
  rw [hl2] at hdR
  have hinter := AudioCodec.interleave_deinterleave samples frames hlen
  have hmode : ¬ (AudioCodec.INDEPENDENT = AudioCodec.MID_SIDE) := by decide
  have h21 : ¬ ((2 : Int) = 1) := by decide
  refine ⟨bitsL, bitsR, ?_, ?_, ?_, ?_, hdR, hinter, ?_⟩
  · have h := heL []
    rw [List.nil_append] at h
    exact h
  · have h := heR []
    rw [List.nil_append] at h
    exact h
  · intro bs
    unfold AudioCodec.encodePayload
    simp only [h21, if_false, if_true, hmode, heL, heR]
  · intro rest
    rw [List.append_assoc]
    exact hdL (bitsR ++ rest)
  · intro rest
    have h1 := hdL (bitsR ++ rest)
    rw [← List.append_assoc] at h1
    unfold AudioCodec.decodePayload
    simp only [h21, if_false, if_true, hmode, h1, hdR, hinter]

/-- Witness of C26 on the two frames `(100, -5)`, `(101, -7)` with the Order-2 predictor
and the fixed parameter `m = 4`. -/
theorem C26_stereo_independent_round_trip_witness :
    ∃ bitsL bitsR : List Bool,
      AudioCodec.encodeChannel (fun _ _ => 1) (AudioCodec.deinterleave [100, -5, 101, -7] 2).1
        [] AudioCodec.ORDER_2 false 4 .INTERLEAVED = .ok bitsL ∧
      AudioCodec.encodeChannel (fun _ _ => 1) (AudioCodec.deinterleave [100, -5, 101, -7] 2).2
        [] AudioCodec.ORDER_2 false 4 .INTERLEAVED = .ok bitsR ∧
      (∀ bs, AudioCodec.encodePayload (fun _ _ => 1) [100, -5, 101, -7] 2 2 bs
        AudioCodec.ORDER_2 AudioCodec.INDEPENDENT false 4 .INTERLEAVED =
          .ok (bs ++ bitsL ++ bitsR)) ∧
      (∀ rest, AudioCodec.decodeChannel (bitsL ++ bitsR ++ rest) 2 AudioCodec.ORDER_2
        .INTERLEAVED =
          .ok ((AudioCodec.deinterleave [100, -5, 101, -7] 2).1, bitsR ++ rest)) ∧
      (∀ rest, AudioCodec.decodeChannel (bitsR ++ rest) 2 AudioCodec.ORDER_2 .INTERLEAVED =
        .ok ((AudioCodec.deinterleave [100, -5, 101, -7] 2).2, rest)) ∧
      AudioCodec.interleave (AudioCodec.deinterleave [100, -5, 101, -7] 2).1
        (AudioCodec.deinterleave [100, -5, 101, -7] 2).2 2 = [100, -5, 101, -7] ∧
      (∀ rest, AudioCodec.decodePayload (bitsL ++ bitsR ++ rest) 2 2 AudioCodec.ORDER_2
        AudioCodec.INDEPENDENT .INTERLEAVED = .ok [100, -5, 101, -7]) :=
  C26_stereo_independent_round_trip (fun _ _ => 1) [100, -5, 101, -7] 2 (by decide)
    (by decide) AudioCodec.ORDER_2 false 4 (Or.inr (by decide))

/-! ## The reconstruction clamps -/

/-- C27. The audio reconstruction clamp is a no-op: for int16 samples, any predictor code
and any index `i` inside the channel, the residual that `encodeChannel` computes is the
exact difference `samples[i] - predict(samples, i)`, it lies in `[-65535, 65535]`, and
the decoder, which predicts from the `i` samples it has rebuilt, obtains `samples[i]`
again: the sum `prediction + residual` is already an int16 value, so `clamp16` and the
source's clamp with its cast leave it unchanged. The residual leaves the int16 range:
it is 65535 for the second sample of `-32768, 32767` under Order-1. -/
theorem C27_audio_clamp_noop (samples : List Int) (hs : ∀ s ∈ samples, IsInt16 s)
    (predictor : AudioCodec.PredictorType) (i : Nat) (hi : i < samples.length) :
    (AudioCodec.blockResiduals samples predictor i (i + 1) =
        [toI32 (samples.getD i 0 - AudioCodec.predict samples i predictor)]) ∧
      toI32 (samples.getD i 0 - AudioCodec.predict samples i predictor) =
        samples.getD i 0 - AudioCodec.predict samples i predictor ∧
      -65535 ≤ toI32 (samples.getD i 0 - AudioCodec.predict samples i predictor) ∧
      toI32 (samples.getD i 0 - AudioCodec.predict samples i predictor) ≤ 65535 ∧
      (samples.take i).length = i ∧
      AudioCodec.predict (samples.take i) (samples.take i).length predictor =
        AudioCodec.predict samples i predictor ∧
      AudioCodec.predict (samples.take i) (samples.take i).length predictor +
        toI32 (samples.getD i 0 - AudioCodec.predict samples i predictor) =
          samples.getD i 0 ∧
      clamp16 (AudioCodec.predict (samples.take i) (samples.take i).length predictor +
        toI32 (samples.getD i 0 - AudioCodec.predict samples i predictor)) =
          samples.getD i 0 ∧
      toI16 (clampInt (toI32
        (AudioCodec.predict (samples.take i) (samples.take i).length predictor +
          toI32 (samples.getD i 0 - AudioCodec.predict samples i predictor)))
        (-32768) 32767) = samples.getD i 0 ∧
      toI32 (([-32768, 32767] : List Int).getD 1 0 -
        AudioCodec.predict [-32768, 32767] 1 AudioCodec.ORDER_1) = 65535 := by
  have hlen : (samples.take i).length = i := by
    rw [List.length_take]; omega
  have hx := AudioCodec.isInt16_getD samples hs i
  have hp := AudioCodec.isInt16_predict samples hs i predictor
  obtain ⟨h1, _, _, h4⟩ := AudioCodec.residual_facts _ _ hx hp
  have hsum : AudioCodec.predict samples i predictor +
      (samples.getD i 0 - AudioCodec.predict samples i predictor) = samples.getD i 0 := by
    ring
  rw [hlen, AudioCodec.predict_take, h1]
  unfold IsInt16 at hx hp
  refine ⟨?_, rfl, by omega, by omega, rfl, rfl, hsum, ?_, h4, by decide⟩
  · unfold AudioCodec.blockResiduals
    have h2 : i + 1 - i = 1 := by omega
    rw [h2]
    show [toI32 (samples.getD i 0 - AudioCodec.predict samples i predictor)] = _
    rw [h1]
  · rw [hsum]
    unfold clamp16
    omega

/-- Witness of C27 on the channel `-32768, 32767` at index 1 with the Order-2
predictor. -/
theorem C27_audio_clamp_noop_witness :
    toI32 (([-32768, 32767] : List Int).getD 1 0 -
        AudioCodec.predict [-32768, 32767] 1 AudioCodec.ORDER_2) = 65535 ∧
      toI16 (clampInt (toI32
        (AudioCodec.predict (([-32768, 32767] : List Int).take 1)
          (([-32768, 32767] : List Int).take 1).length AudioCodec.ORDER_2 +
          toI32 (([-32768, 32767] : List Int).getD 1 0 -
            AudioCodec.predict [-32768, 32767] 1 AudioCodec.ORDER_2)))
        (-32768) 32767) = ([-32768, 32767] : List Int).getD 1 0 :=
  have h := C27_audio_clamp_noop [-32768, 32767] (by decide) AudioCodec.ORDER_2 1 (by decide)
  ⟨by decide, h.2.2.2.2.2.2.2.2.1⟩

/-- C28. The image reconstruction clamp is a no-op: for an image with pixels in
`[0, 255]`, any position and any predictor code, the prediction lies in `[-127, 382]`,
the residual that `encodeImage` computes is the exact difference
`pixel - predict(...)` and lies in `[-382, 382]`, and `prediction + residual` is the
pixel, which the decoder's `std::clamp(..., 0, 255)` leaves unchanged. Predictors 5 and 6
reach both ends of the prediction range, outside `[0, 255]`, and the residuals -382 and
382. -/
theorem C28_image_clamp_noop (img : ImageCodec.Mat) (hpx : ∀ x ∈ img.data, x ≤ 255)
    (row col : Nat) (predictor : ImageCodec.PredictorType) :
    -127 ≤ ImageCodec.predict img row col predictor ∧
      ImageCodec.predict img row col predictor ≤ 382 ∧
      toI32 ((img.pixelAt row col : Int) - ImageCodec.predict img row col predictor) =
        (img.pixelAt row col : Int) - ImageCodec.predict img row col predictor ∧
      -382 ≤ toI32 ((img.pixelAt row col : Int) -
        ImageCodec.predict img row col predictor) ∧
      toI32 ((img.pixelAt row col : Int) - ImageCodec.predict img row col predictor) ≤ 382 ∧
      ImageCodec.predict img row col predictor +
        toI32 ((img.pixelAt row col : Int) - ImageCodec.predict img row col predictor) =
          (img.pixelAt row col : Int) ∧
      clampInt (toI32 (ImageCodec.predict img row col predictor +
        toI32 ((img.pixelAt row col : Int) - ImageCodec.predict img row col predictor)))
        0 255 = (img.pixelAt row col : Int) ∧
      ImageCodec.predict ⟨2, 2, [0, 255, 255, 0]⟩ 1 1
        ImageCodec.A_PLUS_HALF_B_MINUS_C = 382 ∧
      ImageCodec.predict ⟨2, 2, [255, 0, 0, 255]⟩ 1 1
        ImageCodec.B_PLUS_HALF_A_MINUS_C = -127 ∧
      toI32 (((ImageCodec.Mat.mk 2 2 [0, 255, 255, 0]).pixelAt 1 1 : Int) -
        ImageCodec.predict ⟨2, 2, [0, 255, 255, 0]⟩ 1 1
          ImageCodec.A_PLUS_HALF_B_MINUS_C) = -382 ∧
      toI32 (((ImageCodec.Mat.mk 2 2 [255, 0, 0, 255]).pixelAt 1 1 : Int) -
        ImageCodec.predict ⟨2, 2, [255, 0, 0, 255]⟩ 1 1
          ImageCodec.B_PLUS_HALF_A_MINUS_C) = 382 := by
  obtain ⟨hb1, hb2⟩ := ImageCodec.predict_bounds_tight img hpx row col predictor
  have hp := ImageCodec.pixelAt_le img hpx row col
  generalize ImageCodec.predict img row col predictor = pred at hb1 hb2 ⊢
  generalize img.pixelAt row col = px at hp ⊢
  have h1 : toI32 ((px : Int) - pred) = (px : Int) - pred := by unfold toI32; omega
  have h2 : pred + ((px : Int) - pred) = (px : Int) := by ring
  have h3 : toI32 (px : Int) = (px : Int) := by unfold toI32; omega
  rw [h1, h2, h3]
  refine ⟨hb1, hb2, rfl, by omega, by omega, rfl, ?_, by decide, by decide,
    by decide, by decide⟩
  unfold clampInt
  split_ifs <;> omega

/-- Witness of C28 on the image `[[0, 255], [255, 0]]` at position `(1, 1)` with
predictor 5, whose prediction there is 382. -/
theorem C28_image_clamp_noop_witness :
    clampInt (toI32 (ImageCodec.predict ⟨2, 2, [0, 255, 255, 0]⟩ 1 1 5 +
        toI32 (((ImageCodec.Mat.mk 2 2 [0, 255, 255, 0]).pixelAt 1 1 : Int) -
          ImageCodec.predict ⟨2, 2, [0, 255, 255, 0]⟩ 1 1 5))) 0 255 =
      ((ImageCodec.Mat.mk 2 2 [0, 255, 255, 0]).pixelAt 1 1 : Int) :=
  (C28_image_clamp_noop ⟨2, 2, [0, 255, 255, 0]⟩ (by decide) 1 1 5).2.2.2.2.2.2.1

/-! ## The block structure of a channel stream, claim -/

/-- C29. Audio block structure: for a channel of `n` samples and adaptive or fixed `m`
in `[1, 65535]`, `encodeChannel` appends exactly the blocks `0, …, ⌈n / 1024⌉ - 1` in
this order and nothing else (nothing at all when `n = 0`); block `j` is the 16-bit `m` of
the block followed by the codewords of the residuals of the samples
`1024·j, …, min(1024·j + 1024, n) - 1` in this order, with no length field; every block
holds 1024 residuals except the last, which holds `n - 1024·(⌈n / 1024⌉ - 1)`; and
`decodeChannel`, on every stream, decodes blocks of exactly these sizes, which it
computes from `n` alone. -/
theorem C29_audio_block_structure (ceilLog : Nat → Nat → Nat) (samples : List Int)
    (predictor : AudioCodec.PredictorType) (adaptiveM : Bool) (fixedM : Nat)
    (negativeMode : NegativeMode)
    (hm : adaptiveM = true ∨ (1 ≤ fixedM ∧ fixedM ≤ 65535)) :
    ∃ coder : Nat → GolombCoding,
      (∀ j, GolombCoding.new (AudioCodec.blockM ceilLog samples predictor adaptiveM fixedM j)
          negativeMode = .ok (coder j) ∧
        (BitStream.msbFirst
          (AudioCodec.blockM ceilLog samples predictor adaptiveM fixedM j) 16).length = 16 ∧
        ∀ rest, BitStream.read_n_bits (BitStream.msbFirst
          (AudioCodec.blockM ceilLog samples predictor adaptiveM fixedM j) 16 ++ rest) 16 =
            some (AudioCodec.blockM ceilLog samples predictor adaptiveM fixedM j, rest)) ∧
      (∀ bs, AudioCodec.encodeChannel ceilLog samples bs predictor adaptiveM fixedM
          negativeMode =
        .ok (bs ++ (List.range (AudioCodec.blockCount samples.length)).flatMap (fun j =>
          BitStream.msbFirst
              (AudioCodec.blockM ceilLog samples predictor adaptiveM fixedM j) 16 ++
            (AudioCodec.blockResiduals samples predictor (1024 * j)
              (min (1024 * j + 1024) samples.length)).flatMap (coder j).encode))) ∧
      (samples.length = 0 → ∀ bs, AudioCodec.encodeChannel ceilLog samples bs predictor
        adaptiveM fixedM negativeMode = .ok bs) ∧
      (∀ j, (AudioCodec.blockResiduals samples predictor (1024 * j)
          (min (1024 * j + 1024) samples.length)).length =
        AudioCodec.blockSize samples.length j) ∧
      AudioCodec.blockCount samples.length * 1024 < samples.length + 1024 ∧
      samples.length ≤ AudioCodec.blockCount samples.length * 1024 ∧
      (∀ j, j + 1 < AudioCodec.blockCount samples.length →
        AudioCodec.blockSize samples.length j = 1024) ∧
      (0 < samples.length →
        AudioCodec.blockSize samples.length (AudioCodec.blockCount samples.length - 1) =
          samples.length - 1024 * (AudioCodec.blockCount samples.length - 1) ∧
        1 ≤ AudioCodec.blockSize samples.length (AudioCodec.blockCount samples.length - 1) ∧
        AudioCodec.blockSize samples.length (AudioCodec.blockCount samples.length - 1)
          ≤ 1024) ∧
      (∀ (bs : BitStream) (mode : NegativeMode),
        AudioCodec.decodeChannel bs samples.length predictor mode =
          AudioCodec.decodeBlocks predictor mode
            ((List.range (AudioCodec.blockCount samples.length)).map
              (AudioCodec.blockSize samples.length)) bs []) := by
  have hr := AudioCodec.blockM_range ceilLog samples predictor adaptiveM fixedM hm
  have hex : ∀ j, ∃ g, GolombCoding.new
      (AudioCodec.blockM ceilLog samples predictor adaptiveM fixedM j) negativeMode = .ok g ∧
      newCoder (AudioCodec.blockM ceilLog samples predictor adaptiveM fixedM j)
        negativeMode = .ok g :=
    fun j => newCoder_ok _ negativeMode (hr j).1 (by have := (hr j).2; omega)
  choose coder hnew hnc using hex
  have hbc : AudioCodec.blockCount samples.length ≤ 0 + samples.length := by
    unfold AudioCodec.blockCount; omega
  have henc := fun bs => AudioCodec.encode_blocks ceilLog samples predictor adaptiveM fixedM
    negativeMode coder hnc samples.length 0 bs hbc
  have hmin : min (1024 * 0) samples.length = 0 := by omega
  simp only [hmin, Nat.sub_zero, ← List.range_eq_range'] at henc
  obtain ⟨f1, f2, f3, f4⟩ := AudioCodec.blockSize_facts samples.length
  refine ⟨coder, ?_, henc, ?_, ?_, f1, f2, f3, f4, ?_⟩
  · intro j
    refine ⟨hnew j, ?_, ?_⟩
    · rfl
    · intro rest
      exact read_n_bits_write_n_bits _ (by have := (hr j).2; omega) rest
  · intro h0 bs
    have h := henc bs
    have hz : AudioCodec.blockCount samples.length = 0 := by
      unfold AudioCodec.blockCount; omega
    rw [hz] at h
    simpa using h
  · intro j
    unfold AudioCodec.blockResiduals AudioCodec.blockSize
    simp
  · intro bs mode
    have h := AudioCodec.decode_blocks samples.length predictor mode samples.length 0 bs []
      hbc
    simp only [hmin, Nat.sub_zero, ← List.range_eq_range'] at h
    exact h

/-- Witness of C29 on a channel of three samples, one block of three residuals, with
the fixed parameter `m = 4`. -/
theorem C29_audio_block_structure_witness :
    AudioCodec.blockCount ([3, -1, 2] : List Int).length = 1 ∧
      AudioCodec.blockSize ([3, -1, 2] : List Int).length 0 = 3 ∧
      ∀ (bs : BitStream) (mode : NegativeMode),
        AudioCodec.decodeChannel bs ([3, -1, 2] : List Int).length AudioCodec.ORDER_1 mode =
          AudioCodec.decodeBlocks AudioCodec.ORDER_1 mode
            ((List.range (AudioCodec.blockCount ([3, -1, 2] : List Int).length)).map
              (AudioCodec.blockSize ([3, -1, 2] : List Int).length)) bs [] :=
  have h := C29_audio_block_structure (fun _ _ => 1) [3, -1, 2] AudioCodec.ORDER_1 false 4
    .INTERLEAVED (Or.inr (by decide))
  ⟨by decide, by decide, h.choose_spec.2.2.2.2.2.2.2.2⟩

/-! ## The Rice special case -/

/-- C30. Rice special case: for `m = 2^k` with `k ≤ 30` the constructor returns a coder
with `b = k` and `cutoff = m`, so every remainder `n mod m` is below `cutoff`; for every
`n` the codeword `encodeUnsigned(n)` is `n / m` zero bits, the terminating one bit and
the remainder in exactly `k` bits, of length `n / m + 1 + k`; and `decodeUnsigned`
succeeds as soon as the terminator and `k` bits after it are present, with the value
built from those `k` bits alone and `run + 1 + k` bits consumed, so the branch that reads
a `(b+1)`-th remainder bit is never taken, and whenever it succeeds it has consumed
`run + 1 + k` bits. -/
theorem C30_rice_special_case (k : Nat) (mode : NegativeMode) (hk : k ≤ 30) :
    ∃ g, GolombCoding.new (2 ^ k) mode = .ok g ∧ g.m = 2 ^ k ∧ g.b = k ∧
      g.cutoff = g.m ∧
      (∀ n : Nat, n % g.m < g.cutoff ∧
        g.encodeUnsigned n =
          List.replicate (n / 2 ^ k) false ++ [true] ++ GolombCoding.pushBits (n % 2 ^ k) k ∧
        (g.encodeUnsigned n).length = n / 2 ^ k + 1 + k) ∧
      (∀ (bits : List Bool) (start : Nat),
        start + GolombCoding.zeroRun (bits.drop start) + 1 + k ≤ bits.length →
        GolombCoding.readBits bits k (start + GolombCoding.zeroRun (bits.drop start) + 1) 0
          < g.cutoff ∧
        g.decodeUnsigned bits start =
          .ok ((GolombCoding.zeroRun (bits.drop start) % 4294967296 * 2 ^ k +
              GolombCoding.readBits bits k
                (start + GolombCoding.zeroRun (bits.drop start) + 1) 0) % 4294967296,
            GolombCoding.zeroRun (bits.drop start) + 1 + k)) ∧
      (∀ (bits : List Bool) (start n used : Nat),
        g.decodeUnsigned bits start = .ok (n, used) →
        used = GolombCoding.zeroRun (bits.drop start) + 1 + k) := by
  have hnew := GolombCoding.new_two_pow k mode (by omega)
  have hpos : 0 < 2 ^ k := Nat.two_pow_pos k
  have hrd : ∀ (bits : List Bool) (pos : Nat), pos + k ≤ bits.length →
      GolombCoding.readBits bits k pos 0 < 2 ^ k := by
    intro bits pos h
    rw [GolombCoding.readBits_eq_foldl bits k pos 0 h]
    have hl : ((bits.drop pos).take k).length = k := by
      rw [List.length_take, List.length_drop]; omega
    have h32 : (2 : Nat) ^ k ≤ 4294967296 := by
      have h3 : 2 ^ k ≤ 2 ^ 32 := Nat.pow_le_pow_right (by decide) (by omega)
      have h4 : (2 : Nat) ^ 32 = 4294967296 := by norm_num
      omega
    have := GolombCoding.foldl_shiftIn_lt ((bits.drop pos).take k) 0 (by rw [hl]; omega)
    rw [hl] at this
    omega
  have hdec : ∀ (bits : List Bool) (start : Nat),
      start + GolombCoding.zeroRun (bits.drop start) + 1 + k ≤ bits.length →
      GolombCoding.decodeUnsigned { m := 2 ^ k, b := k, cutoff := 2 ^ k, mode := mode }
          bits start =
        .ok ((GolombCoding.zeroRun (bits.drop start) % 4294967296 * 2 ^ k +
              GolombCoding.readBits bits k
                (start + GolombCoding.zeroRun (bits.drop start) + 1) 0) % 4294967296,
            GolombCoding.zeroRun (bits.drop start) + 1 + k) := by
    intro bits start h
    have hr := hrd bits (start + GolombCoding.zeroRun (bits.drop start) + 1) h
    unfold GolombCoding.decodeUnsigned
    simp only
    rw [if_neg (by omega), if_neg (by omega), if_neg (by omega), if_pos hr]
    congr 2
    omega
  refine ⟨_, hnew, rfl, rfl, rfl, ?_, ?_, ?_⟩
  · intro n
    have hlt : n % 2 ^ k < 2 ^ k := Nat.mod_lt _ hpos
    refine ⟨hlt, ?_, ?_⟩
    · rw [GolombCoding.encodeUnsigned_eq]
      unfold GolombCoding.remainderBits
      simp only [hlt, if_true, List.append_assoc, List.singleton_append]
    · rw [GolombCoding.length_encodeUnsigned]
      simp only [hlt, if_true]
  · intro bits start h
    exact ⟨hrd bits _ h, hdec bits start h⟩
  · intro bits start n used h
    by_cases hc : start + GolombCoding.zeroRun (bits.drop start) + 1 + k ≤ bits.length
    · rw [hdec bits start hc] at h
      injection h with h
      injection h with _ h2
      exact h2.symm
    · exfalso
      unfold GolombCoding.decodeUnsigned at h
      simp only at h
      split_ifs at h <;> omega

/-- Witness of C30 at `k = 3`, `m = 8`. -/
theorem C30_rice_special_case_witness :
    (3 ≤ 30) ∧ ∃ g, GolombCoding.new (2 ^ 3) .INTERLEAVED = .ok g ∧ g.m = 2 ^ 3 ∧ g.b = 3 ∧
      g.cutoff = g.m ∧
      (∀ n : Nat, n % g.m < g.cutoff ∧
        g.encodeUnsigned n =
          List.replicate (n / 2 ^ 3) false ++ [true] ++ GolombCoding.pushBits (n % 2 ^ 3) 3 ∧
        (g.encodeUnsigned n).length = n / 2 ^ 3 + 1 + 3) ∧
      (∀ (bits : List Bool) (start : Nat),
        start + GolombCoding.zeroRun (bits.drop start) + 1 + 3 ≤ bits.length →
        GolombCoding.readBits bits 3 (start + GolombCoding.zeroRun (bits.drop start) + 1) 0
          < g.cutoff ∧
        g.decodeUnsigned bits start =
          .ok ((GolombCoding.zeroRun (bits.drop start) % 4294967296 * 2 ^ 3 +
              GolombCoding.readBits bits 3
                (start + GolombCoding.zeroRun (bits.drop start) + 1) 0) % 4294967296,
            GolombCoding.zeroRun (bits.drop start) + 1 + 3)) ∧
      (∀ (bits : List Bool) (start n used : Nat),
        g.decodeUnsigned bits start = .ok (n, used) →
        used = GolombCoding.zeroRun (bits.drop start) + 1 + 3) :=
  ⟨by decide, C30_rice_special_case 3 .INTERLEAVED (by decide)⟩

/-! ## The bit stream -/

/-- C31. Bit-stream transparency: a sequence of `write_n_bits(value, width)` calls with
`value < 2^width` (any widths, those up to 32 in particular) appends the bits of the
values, each MSB first, in the order of the calls; `read_n_bits` calls with the same
widths return the same values in the same order and leave what follows the written bits;
and the same values are read from the bytes that `close` produces, which hold the written
bits MSB first within each byte, then the zero padding and the end-of-stream marker. -/
theorem C31_bit_stream_transparency (writes : List (Nat × Nat))
    (hw : ∀ w ∈ writes, w.1 < 2 ^ w.2) :
    (∀ bs, BitStream.writeAll bs writes =
        bs ++ writes.flatMap (fun w => BitStream.msbFirst w.1 w.2)) ∧
      (∀ rest, BitStream.readAll (writes.map Prod.snd)
        (BitStream.writeAll [] writes ++ rest) = some (writes.map Prod.fst, rest)) ∧
      BitStream.ofBytes (BitStream.close (BitStream.writeAll [] writes)) =
        BitStream.writeAll [] writes ++
          (List.replicate ((8 - (BitStream.writeAll [] writes).length % 8) % 8) false ++
            BitStream.msbFirst 128 8) ∧
      BitStream.readAll (writes.map Prod.snd)
          (BitStream.ofBytes (BitStream.close (BitStream.writeAll [] writes))) =
        some (writes.map Prod.fst,
          List.replicate ((8 - (BitStream.writeAll [] writes).length % 8) % 8) false ++
            BitStream.msbFirst 128 8) := by
  have h1 := BitStream.writeAll_eq writes
  have h2 : ∀ rest, BitStream.readAll (writes.map Prod.snd)
      (BitStream.writeAll [] writes ++ rest) = some (writes.map Prod.fst, rest) := by
    intro rest
    rw [h1 [], List.nil_append]
    exact BitStream.readAll_flatMap rest writes hw
  have h3 := BitStream.ofBytes_close (BitStream.writeAll [] writes)
  refine ⟨h1, h2, h3, ?_⟩
  rw [h3]
  exact h2 _

/-- Witness of C31: the writes `(5, 3)`, `(1000, 16)`, `(1, 1)`, `(0, 7)` are 27 bits,
held in four bytes and followed by the marker byte. -/
theorem C31_bit_stream_transparency_witness :
    BitStream.close (BitStream.writeAll [] [(5, 3), (1000, 16), (1, 1), (0, 7)]) =
        [160, 125, 16, 0, 128] ∧
      BitStream.readAll [3, 16, 1, 7]
          (BitStream.ofBytes
            (BitStream.close (BitStream.writeAll [] [(5, 3), (1000, 16), (1, 1), (0, 7)]))) =
        some ([5, 1000, 1, 0],
          List.replicate
            ((8 - (BitStream.writeAll [] [(5, 3), (1000, 16), (1, 1), (0, 7)]).length % 8) % 8)
            false ++ BitStream.msbFirst 128 8) :=
  ⟨by decide,
    (C31_bit_stream_transparency [(5, 3), (1000, 16), (1, 1), (0, 7)] (by decide)).2.2.2⟩

/-! ## The image codec in sign-magnitude mode -/

/-- C32, the code at a failing input. The 1×1 image with the pixel 100 under the `LEFT`
predictor (prediction 128, residual -28) with fixed `m = 16` in sign-magnitude mode is
written as the 16-bit `m` followed by the codeword `1 0 1 1100` (sign bit, one zero,
terminator, remainder); the pixel loop of `decodeImage` takes the sign bit for the unary
terminator, collects the next four bits and hands `1 0 1 1 1` to `decode`, which fails
with "Incomplete remainder code". The 1×2 image `200, 190` fails in the same way at its
second pixel (residual -10), while the 1×1 image with the pixel 200 (residual 72, not
negative) is decoded. -/
theorem C32_image_sign_magnitude_fails :
    ImageCodec.encodePixels (fun _ _ => 1) ⟨1, 1, [100]⟩ ImageCodec.LEFT false 16
        .SIGN_MAGNITUDE [] =
      .ok (BitStream.msbFirst 16 16 ++ [true, false, true, true, true, false, false]) ∧
    ImageCodec.decodePixels 1 1 ImageCodec.LEFT .SIGN_MAGNITUDE 16 [0]
        (BitStream.msbFirst 16 16 ++ [true, false, true, true, true, false, false]) =
      .error (.golomb .incompleteRemainder) ∧
    ImageCodec.encodePixels (fun _ _ => 1) ⟨1, 2, [200, 190]⟩ ImageCodec.LEFT false 16
        .SIGN_MAGNITUDE [] =
      .ok (BitStream.msbFirst 16 16 ++
        [false, false, false, false, false, true, true, false, false, false,
         true, true, true, false, true, false]) ∧
    ImageCodec.decodePixels 1 2 ImageCodec.LEFT .SIGN_MAGNITUDE 16 [0, 0]
        (BitStream.msbFirst 16 16 ++
          [false, false, false, false, false, true, true, false, false, false,
           true, true, true, false, true, false]) =
      .error (.golomb .incompleteRemainder) ∧
    ImageCodec.encodePixels (fun _ _ => 1) ⟨1, 1, [200]⟩ ImageCodec.LEFT false 16
        .SIGN_MAGNITUDE [] =
      .ok (BitStream.msbFirst 16 16 ++
        [false, false, false, false, false, true, true, false, false, false]) ∧
    ImageCodec.decodePixels 1 1 ImageCodec.LEFT .SIGN_MAGNITUDE 16 [0]
        (BitStream.msbFirst 16 16 ++
          [false, false, false, false, false, true, true, false, false, false]) =
      .ok (⟨1, 1, [200]⟩, []) := by
  decide

/-! ## Codewords inside longer bit sequences -/

/-- C33. Codewords are self-delimiting: for `1 ≤ m ≤ 65535`, both negative modes, every
`n` with `|n| < 2^30` and all bit sequences `pre` and `rest`,
`decode(pre ++ encode(n) ++ rest, length(pre))` returns `(n, length(encode(n)))`; and on
a concatenation of the codewords of values with `|v| < 2^30`, placed between any `pre`
and `rest`, successive `decode` calls, each starting where the previous one stopped,
return the values in order and stop right after the last codeword. -/
theorem C33_self_delimiting (m : Nat) (mode : NegativeMode) (n : Int) (values : List Int)
    (pre rest : List Bool) (hm1 : 1 ≤ m) (hm2 : m ≤ 65535)
    (hn : -1073741824 < n ∧ n < 1073741824)
    (hvals : ∀ v ∈ values, -1073741824 < v ∧ v < 1073741824) :
    ∃ g, GolombCoding.new m mode = .ok g ∧
      g.decode (pre ++ g.encode n ++ rest) pre.length = .ok (n, (g.encode n).length) ∧
      g.decodeMany (pre ++ values.flatMap g.encode ++ rest) values.length pre.length =
        .ok (values, pre.length + (values.flatMap g.encode).length) := by
  obtain ⟨g, hg⟩ : ∃ g, GolombCoding.new m mode = .ok g :=
    ⟨_, GolombCoding.new_ok m mode hm1 (by omega)⟩
  obtain ⟨hv, _, hmode⟩ := GolombCoding.valid_of_new m mode g hg (by omega)
  have hin : ∀ v : Int, -1073741824 < v ∧ v < 1073741824 → g.InRange v := by
    intro v h
    unfold GolombCoding.InRange
    rw [hmode]
    cases mode <;> simp only <;> omega
  exact ⟨g, hg, GolombCoding.decode_encode_at g hv n (hin n hn) pre rest,
    GolombCoding.decodeMany_encode g hv rest values pre (fun v h => hin v (hvals v h))⟩

/-- Witness of C33 with `m = 5` in sign-magnitude mode: the codeword of -3 after two
bits, and the codewords of 4, -1, 0 decoded one after another. -/
theorem C33_self_delimiting_witness :
    ∃ g, GolombCoding.new 5 .SIGN_MAGNITUDE = .ok g ∧
      g.decode ([true, false] ++ g.encode (-3) ++ [false]) [true, false].length =
        .ok (-3, (g.encode (-3)).length) ∧
      g.decodeMany ([true, false] ++ [4, -1, 0].flatMap g.encode ++ [false])
          [4, -1, 0].length [true, false].length =
        .ok ([4, -1, 0], [true, false].length + ([4, -1, 0].flatMap g.encode).length) :=
  C33_self_delimiting 5 .SIGN_MAGNITUDE (-3) [4, -1, 0] [true, false] [false] (by decide)
    (by decide) (by decide) (by decide)

/-! ## Mid-side conversion -/

/-- C34. Exact domain of mid-side losslessness: for int16 `l` and `r`,
`convertToMidSide` computes `mid = (l + r) >> 1`, which is an int16 value (no wrapping),
and `side = l - r` wrapped to 16 bits, and `convertFromMidSide` applied to them returns
`(l, r)` if and only if `-32768 ≤ l - r ≤ 32767`; on whole channels of int16 samples of
equal length the round trip returns the two channels if and only if every frame
satisfies this condition. -/
theorem C34_mid_side_domain (l r : Int) (left right : List Int) (hl : IsInt16 l)
    (hr : IsInt16 r) (hlen : left.length = right.length) (hL : ∀ s ∈ left, IsInt16 s)
    (hR : ∀ s ∈ right, IsInt16 s) :
    (AudioCodec.convertToMidSide1 l r).1 = (l + r) / 2 ∧
      IsInt16 ((l + r) / 2) ∧
      (AudioCodec.convertToMidSide1 l r).2 = toI16 (l - r) ∧
      (AudioCodec.convertFromMidSide1 (AudioCodec.convertToMidSide1 l r).1
          (AudioCodec.convertToMidSide1 l r).2 = (l, r) ↔
        (-32768 ≤ l - r ∧ l - r ≤ 32767)) ∧
      (AudioCodec.convertFromMidSide (AudioCodec.convertToMidSide left right).1
          (AudioCodec.convertToMidSide left right).2 = (left, right) ↔
        ∀ i, i < left.length →
          -32768 ≤ left.getD i 0 - right.getD i 0 ∧
            left.getD i 0 - right.getD i 0 ≤ 32767) := by
  obtain ⟨f1, f2, f3, _, f5⟩ := AudioCodec.midSide_frame l r hl hr
  refine ⟨f1, f2, f3, f5, ?_⟩
  rw [AudioCodec.midSide_channels left right hlen]
  constructor
  · intro h i hi
    exact (AudioCodec.midSide_frame _ _ (AudioCodec.isInt16_getD left hL i)
      (AudioCodec.isInt16_getD right hR i)).2.2.2.2.mp (h i hi)
  · intro h i hi
    exact (AudioCodec.midSide_frame _ _ (AudioCodec.isInt16_getD left hL i)
      (AudioCodec.isInt16_getD right hR i)).2.2.2.2.mpr (h i hi)

/-- Witness of C34: the frame `(0, -32768)` is outside the domain and is not recovered;
the channels `100, 100` and `50, 51` are inside and are recovered. -/
theorem C34_mid_side_domain_witness :
    (AudioCodec.convertFromMidSide1 (AudioCodec.convertToMidSide1 0 (-32768)).1
          (AudioCodec.convertToMidSide1 0 (-32768)).2 = (0, -32768) ↔
        (-32768 ≤ (0 : Int) - (-32768) ∧ (0 : Int) - (-32768) ≤ 32767)) ∧
      (AudioCodec.convertFromMidSide (AudioCodec.convertToMidSide [100, 100] [50, 51]).1
          (AudioCodec.convertToMidSide [100, 100] [50, 51]).2 = ([100, 100], [50, 51]) ↔
        ∀ i, i < ([100, 100] : List Int).length →
          -32768 ≤ ([100, 100] : List Int).getD i 0 - ([50, 51] : List Int).getD i 0 ∧
            ([100, 100] : List Int).getD i 0 - ([50, 51] : List Int).getD i 0 ≤ 32767) :=
  have h := C34_mid_side_domain 0 (-32768) [100, 100] [50, 51] (by decide) (by decide)
    (by decide) (by decide) (by decide)
  ⟨h.2.2.2.1, h.2.2.2.2⟩

/-! ## Decoding arbitrary bit sequences -/

/-- C35, counterexample to the claim as stated, with `m = 65535` (`b = 15`,
`cutoff = 1`) in interleaved mode. (1) On 32768 zero bits, the terminator and the sixteen
bits `1000 0000 0000 0000`, `decode` succeeds with the unsigned value `2^31 - 1`, which is
below `2^31`, and returns `(2^30, 32785)`, consuming all 32785 bits; but `encode(2^30)`
ends with `1000 0000 0000 0001`, so the consumed bits are not `encode(2^30)`. (2) On
65538 zero bits, the terminator and fifteen zero bits, the product `q * m` wraps around
`2^32`: `decode` succeeds with the unsigned value 65534 and returns `(32767, 65554)`,
while `encode(32767)` has 17 bits and decodes to 32767 as well; two distinct bit strings
decode to the same value. -/
theorem C35_canonical_counterexample :
    ∃ g, GolombCoding.new 65535 .INTERLEAVED = .ok g ∧
      (List.replicate 32768 false ++ true :: true :: List.replicate 15 false).length =
        32785 ∧
      g.decodeUnsigned
          (List.replicate 32768 false ++ true :: true :: List.replicate 15 false) 0 =
        .ok (2147483647, 32785) ∧
      g.decode (List.replicate 32768 false ++ true :: true :: List.replicate 15 false) 0 =
        .ok (1073741824, 32785) ∧
      g.encode 1073741824 =
        List.replicate 32768 false ++ true :: true :: (List.replicate 14 false ++ [true]) ∧
      g.encode 1073741824 ≠
        List.replicate 32768 false ++ true :: true :: List.replicate 15 false ∧
      g.decodeUnsigned (List.replicate 65538 false ++ true :: List.replicate 15 false) 0 =
        .ok (65534, 65554) ∧
      g.decode (List.replicate 65538 false ++ true :: List.replicate 15 false) 0 =
        .ok (32767, 65554) ∧
      g.encode 32767 = List.replicate 17 true ∧
      g.decode (g.encode 32767) 0 = .ok (32767, 17) := by
  have hu1 : (GolombCoding.mk 65535 15 1 .INTERLEAVED).decodeUnsigned
      (List.replicate 32768 false ++ true :: true :: List.replicate 15 false) 0 =
      .ok (2147483647, 32785) :=
    (GolombCoding.decodeUnsigned_unary _ [] (true :: List.replicate 15 false) 32768).trans
      (by decide)
  have hu2 : (GolombCoding.mk 65535 15 1 .INTERLEAVED).decodeUnsigned
      (List.replicate 65538 false ++ true :: List.replicate 15 false) 0 =
      .ok (65534, 65554) :=
    (GolombCoding.decodeUnsigned_unary _ [] (List.replicate 15 false) 65538).trans
      (by decide)
  have henc : (GolombCoding.mk 65535 15 1 .INTERLEAVED).encode 1073741824 =
      List.replicate 32768 false ++ true :: true :: (List.replicate 14 false ++ [true]) := by
    have hmap : (GolombCoding.mk 65535 15 1 .INTERLEAVED).mapToUnsigned 1073741824 =
        2147483648 := by decide
    have hq : 2147483648 / 65535 = 32768 := by norm_num
    have hr : (GolombCoding.mk 65535 15 1 .INTERLEAVED).remainderBits (2147483648 % 65535) =
        true :: (List.replicate 14 false ++ [true]) := by decide
    show (GolombCoding.mk 65535 15 1 .INTERLEAVED).encodeUnsigned
      ((GolombCoding.mk 65535 15 1 .INTERLEAVED).mapToUnsigned 1073741824) = _
    rw [hmap, GolombCoding.encodeUnsigned_eq]
    show List.replicate (2147483648 / 65535) false ++ true ::
      (GolombCoding.mk 65535 15 1 .INTERLEAVED).remainderBits (2147483648 % 65535) = _
    rw [hq, hr]
  refine ⟨GolombCoding.mk 65535 15 1 .INTERLEAVED, by decide, ?_, hu1, ?_, henc, ?_, hu2, ?_,
    by decide, by decide⟩
  · rw [List.length_append, List.length_replicate, List.length_cons, List.length_cons,
      List.length_replicate]
  · exact (GolombCoding.decode_of_decodeUnsigned _ rfl _ 0 _ _ hu1).trans (by decide)
  · rw [henc]
    intro h
    have h2 := List.append_cancel_left h
    revert h2
    decide
  · exact (GolombCoding.decode_of_decodeUnsigned _ rfl _ 0 _ _ hu2).trans (by decide)

/-- C35, amended. Decodable bit strings are canonical in interleaved mode exactly when
the 32-bit arithmetic of `decodeUnsigned` did not wrap around: for `1 ≤ m ≤ 65535`, every
bit sequence and every start at which `decodeUnsigned` succeeds with the unsigned value
`u < 2^31 - 1` and `k` bits consumed, `decode` succeeds with `(n, k)`,
`n = mapToSigned(u)`, and the `k` bits consumed, `bits[start .. start + k)`, are exactly
`encode(n)` if and only if `q·m ≤ u` for the number `q` of zero bits scanned from
`start`, that is, if and only if `q·m + r` did not wrap around `2^32`. This is the case
whenever `(q + 1)·m ≤ 2^32`, in particular in every bit sequence of at most 65536 bits.
Two such decodings without wrap-around that return the same value have consumed the same
bits. -/
theorem C35_canonical (m : Nat) (g : GolombCoding) (bits : List Bool) (start u k : Nat)
    (hm1 : 1 ≤ m) (hm2 : m ≤ 65535) (hg : GolombCoding.new m .INTERLEAVED = .ok g)
    (hdu : g.decodeUnsigned bits start = .ok (u, k)) (hu : u < 2147483647) :
    g.decode bits start = .ok (g.mapToSigned u false, k) ∧
      ((bits.drop start).take k = g.encode (g.mapToSigned u false) ↔
        GolombCoding.zeroRun (bits.drop start) * m ≤ u) ∧
      ((GolombCoding.zeroRun (bits.drop start) + 1) * m ≤ 4294967296 →
        GolombCoding.zeroRun (bits.drop start) * m ≤ u) ∧
      (bits.length ≤ 65536 → GolombCoding.zeroRun (bits.drop start) * m ≤ u) ∧
      (∀ (bits2 : List Bool) (start2 u2 k2 : Nat),
        g.decodeUnsigned bits2 start2 = .ok (u2, k2) → u2 < 2147483647 →
        GolombCoding.zeroRun (bits2.drop start2) * m ≤ u2 →
        GolombCoding.zeroRun (bits.drop start) * m ≤ u →
        g.mapToSigned u2 false = g.mapToSigned u false →
        (bits2.drop start2).take k2 = (bits.drop start).take k) := by
  obtain ⟨hv, hgm, hmode⟩ := GolombCoding.valid_of_new m .INTERLEAVED g hg (by omega)
  have henc : ∀ v : Nat, v < 2147483647 →
      g.encode (g.mapToSigned v false) = g.encodeUnsigned v := by
    intro v hv2
    unfold GolombCoding.encode
    rw [hmode]
    simp only
    rw [GolombCoding.mapToUnsigned_mapToSigned g hmode v hv2]
  have hfits : (GolombCoding.zeroRun (bits.drop start) + 1) * m ≤ 4294967296 →
      GolombCoding.zeroRun (bits.drop start) * m ≤ u := by
    intro hq
    have h := GolombCoding.decodeUnsigned_le_of_fits g hv bits start u k
      (by rw [hgm]; exact hq) hdu
    rw [hgm] at h
    exact h
  have hiff := GolombCoding.decodeUnsigned_canonical_iff g hv bits start u k hdu
  rw [hgm] at hiff
  refine ⟨GolombCoding.decode_of_decodeUnsigned g hmode bits start u k hdu, ?_, hfits, ?_, ?_⟩
  · rw [henc u hu]
    exact hiff
  · intro hlen
    apply hfits
    have h1 := GolombCoding.decodeUnsigned_used g bits start u k hdu
    have h2 := (GolombCoding.decodeUnsigned_bounds g bits start u k hdu).2
    have h3 : GolombCoding.zeroRun (bits.drop start) + 1 ≤ 65536 := by omega
    have h4 : (GolombCoding.zeroRun (bits.drop start) + 1) * m ≤ 65536 * 65535 :=
      Nat.mul_le_mul h3 hm2
    omega
  · intro bits2 start2 u2 k2 hdu2 hu2 hnw2 hnw hsame
    have hiff2 := GolombCoding.decodeUnsigned_canonical_iff g hv bits2 start2 u2 k2 hdu2
    rw [hgm] at hiff2
    rw [hiff2.mpr hnw2, hiff.mpr hnw, ← henc u2 hu2, ← henc u hu, hsame]

/-- Witness of C35 (amended) with `m = 5`: the bits `0 1 1 1 0` after one leading bit
decode to the unsigned value 8, hence to 4, and are `encode(4)`. -/
theorem C35_canonical_witness :
    (GolombCoding.mk 5 2 3 .INTERLEAVED).decode
        [true, false, true, true, true, false, true] 1 =
        .ok ((GolombCoding.mk 5 2 3 .INTERLEAVED).mapToSigned 8 false, 5) ∧
      ((([true, false, true, true, true, false, true] : List Bool).drop 1).take 5 =
          (GolombCoding.mk 5 2 3 .INTERLEAVED).encode
            ((GolombCoding.mk 5 2 3 .INTERLEAVED).mapToSigned 8 false) ↔
        GolombCoding.zeroRun (([true, false, true, true, true, false, true] : List Bool).drop 1)
          * 5 ≤ 8) :=
  have h := C35_canonical 5 (GolombCoding.mk 5 2 3 .INTERLEAVED)
    [true, false, true, true, true, false, true] 1 8 5 (by decide) (by decide) (by decide)
    (by decide) (by decide)
  ⟨h.1, h.2.1⟩

/-- C36. Decode is total and stays in bounds: for every `m ≥ 1`, both modes, every bit
sequence and every start index, the run of `decode` (and of `decodeUnsigned`) with
explicit element accesses and a scan loop limited to `bits.size() + 1` evaluations of
its condition ends without an out-of-bounds access and without reaching the limit, with
the result of the method: an exception, or a pair `(n, k)`; in the latter case `k ≥ 1`
(`k ≥ 2` in sign-magnitude mode) and `start + k ≤ bits.size()`. -/
theorem C36_decode_in_bounds (m : Nat) (mode : NegativeMode) (bits : List Bool)
    (start : Nat) (hm : 1 ≤ m) :
    ∃ g, GolombCoding.new m mode = .ok g ∧
      g.decodeChecked bits start = .ok (g.decode bits start) ∧
      g.decodeUnsignedChecked bits start = .ok (g.decodeUnsigned bits start) ∧
      GolombCoding.scanChecked bits (bits.length + 1) 0 start =
        .ok (GolombCoding.zeroRun (bits.drop start) % 4294967296,
          start + GolombCoding.zeroRun (bits.drop start)) ∧
      ((∃ e, g.decode bits start = .error e) ∨
        ∃ n k, g.decode bits start = .ok (n, k) ∧ 1 ≤ k ∧
          (mode = .SIGN_MAGNITUDE → 2 ≤ k) ∧ start + k ≤ bits.length) ∧
      (∀ u k, g.decodeUnsigned bits start = .ok (u, k) → 1 ≤ k ∧ start + k ≤ bits.length) := by
  obtain ⟨g, hg, _, hmode⟩ := GolombCoding.new_exists m mode hm
  refine ⟨g, hg, GolombCoding.decodeChecked_eq g bits start,
    GolombCoding.decodeUnsignedChecked_eq g bits start, ?_, ?_, ?_⟩
  · have h := GolombCoding.scanChecked_eq bits (bits.length + 1) 0 start (by omega)
      (by decide)
    rw [Nat.zero_add] at h
    exact h
  · cases hd : g.decode bits start with
    | error e => exact Or.inl ⟨e, rfl⟩
    | ok p =>
      obtain ⟨n, k⟩ := p
      obtain ⟨b1, b2, b3⟩ := GolombCoding.decode_bounds g bits start n k hd
      rw [hmode] at b2
      exact Or.inr ⟨n, k, rfl, b1, b2, b3⟩
  · intro u k h
    exact GolombCoding.decodeUnsigned_bounds g bits start u k h

/-- Witness of C36 with `m = 5` in sign-magnitude mode: on `1 1 1 1 0` from the start the
run ends with `(-3, 5)`, and on the same bits from index 3 it ends with the exception
"Incomplete unary code". -/
theorem C36_decode_in_bounds_witness :
    ∃ g, GolombCoding.new 5 .SIGN_MAGNITUDE = .ok g ∧
      g.decodeChecked [true, true, true, true, false] 0 = .ok (.ok (-3, 5)) ∧
      g.decodeChecked [true, true, true, true, false] 3 = .ok (.error .incompleteUnary) := by
  obtain ⟨g, hg, h, _⟩ := C36_decode_in_bounds 5 .SIGN_MAGNITUDE
    [true, true, true, true, false] 0 (by decide)
  have hg2 : g = GolombCoding.mk 5 2 3 .SIGN_MAGNITUDE := by
    have h5 : GolombCoding.new 5 .SIGN_MAGNITUDE =
        .ok (GolombCoding.mk 5 2 3 .SIGN_MAGNITUDE) := by decide
    rw [h5] at hg
    injection hg with hg
    exact hg.symm
  subst hg2
  exact ⟨_, by decide, h.trans (by decide), by decide⟩

/-! ## Updating the parameter -/

/-- C37. The method `setM` is not atomic: on the coder built for some `m` with
`1 ≤ m < 2^31` (where `calculateParameters` is defined), `setM(0)` throws after it has overwritten `m`, so that afterwards `getM()`
returns 0 while `b` and `cutoff` still hold the values computed for the previous `m`,
`floor(log2 m)` and `2^(b+1) - m`, a state that no constructor call produces; `setM(k)`
with `1 ≤ k < 2^31` succeeds and leaves the coder in the state of a freshly constructed
`GolombCoding(k, mode)`, with `b = floor(log2 k)` and `cutoff = 2^(b+1) - k`. -/
theorem C37_setM_not_atomic (m k : Nat) (mode : NegativeMode) (hm : 1 ≤ m)
    (hm2 : m < 2147483648) (hk : 1 ≤ k) (hk2 : k < 2147483648) :
    ∃ g0, GolombCoding.new m mode = .ok g0 ∧
      (g0.setM 0).2 = .error .mNotPositive ∧
      (g0.setM 0).1.getM = 0 ∧
      (g0.setM 0).1.b = g0.b ∧ g0.b = floorLog2 m ∧
      (g0.setM 0).1.cutoff = g0.cutoff ∧ g0.cutoff = 2 ^ (floorLog2 m + 1) - m ∧
      (g0.setM 0).1.getMode = mode ∧
      (∀ m1 mode1, GolombCoding.new m1 mode1 ≠ .ok (g0.setM 0).1) ∧
      ∃ g1, GolombCoding.new k mode = .ok g1 ∧ g0.setM k = (g1, .ok ()) ∧
        g1.getM = k ∧ g1.b = floorLog2 k ∧ g1.cutoff = 2 ^ (floorLog2 k + 1) - k ∧
        g1.getMode = mode := by
  have hm3 : m < 4294967296 := by omega
  have hk3 : k < 4294967296 := by omega
  obtain ⟨g0, hg0⟩ : ∃ g0, GolombCoding.new m mode = .ok g0 :=
    ⟨_, GolombCoding.new_ok m mode hm hm3⟩
  have hg0eq := hg0
  rw [GolombCoding.new_ok m mode hm hm3] at hg0eq
  injection hg0eq with hg0eq
  obtain ⟨g1, h1, h2⟩ := GolombCoding.setM_pos g0 k hk
  have hmode : g0.mode = mode := by rw [← hg0eq]
  rw [hmode] at h1
  have hg1eq := h1
  rw [GolombCoding.new_ok k mode hk hk3] at hg1eq
  injection hg1eq with hg1eq
  refine ⟨g0, hg0, ?_⟩
  rw [GolombCoding.setM_zero]
  refine ⟨rfl, rfl, rfl, by rw [← hg0eq], rfl, by rw [← hg0eq], hmode, ?_, g1, h1, h2,
    by rw [← hg1eq]; rfl, by rw [← hg1eq], by rw [← hg1eq], by rw [← hg1eq]; rfl⟩
  intro m1 mode1 hc
  by_cases h0 : 1 ≤ m1
  · obtain ⟨g2, e1, e2, _⟩ := GolombCoding.new_exists m1 mode1 h0
    rw [e1] at hc
    injection hc with hc
    rw [hc] at e2
    simp only at e2
    omega
  · have hz : m1 = 0 := by omega
    subst hz
    cases hc

/-- Witness of C37: the coder built for `m = 5`, then `setM(0)` and `setM(16)`. -/
theorem C37_setM_not_atomic_witness :
    ∃ g0, GolombCoding.new 5 .INTERLEAVED = .ok g0 ∧
      (g0.setM 0).2 = .error .mNotPositive ∧
      (g0.setM 0).1.getM = 0 ∧
      (g0.setM 0).1.b = g0.b ∧ g0.b = floorLog2 5 ∧
      (g0.setM 0).1.cutoff = g0.cutoff ∧ g0.cutoff = 2 ^ (floorLog2 5 + 1) - 5 ∧
      (g0.setM 0).1.getMode = .INTERLEAVED ∧
      (∀ m1 mode1, GolombCoding.new m1 mode1 ≠ .ok (g0.setM 0).1) ∧
      ∃ g1, GolombCoding.new 16 .INTERLEAVED = .ok g1 ∧ g0.setM 16 = (g1, .ok ()) ∧
        g1.getM = 16 ∧ g1.b = floorLog2 16 ∧ g1.cutoff = 2 ^ (floorLog2 16 + 1) - 16 ∧
        g1.getMode = .INTERLEAVED :=
  C37_setM_not_atomic 5 16 .INTERLEAVED (by decide) (by decide) (by decide) (by decide)

/-! ## Prediction on linear signals -/

/-- C38. Order-2 prediction is exact on linear signals: for a channel of int16 samples
that is an arithmetic progression, `s[j] = s0 + j·d`, the prediction of the Order-2
predictor at every index `i ≥ 2` is `s[i]` and the residual that `encodeChannel`
computes there is 0; the same holds for the Order-3 predictor at every index `i ≥ 3`. -/
theorem C38_linear_prediction_exact (samples : List Int) (s0 d : Int) (i : Nat)
    (hs : ∀ s ∈ samples, IsInt16 s)
    (hlin : ∀ j, j < samples.length → samples.getD j 0 = s0 + (j : Int) * d)
    (hi : i < samples.length) :
    (2 ≤ i →
        AudioCodec.predict samples i AudioCodec.ORDER_2 = samples.getD i 0 ∧
        toI32 (samples.getD i 0 - AudioCodec.predict samples i AudioCodec.ORDER_2) = 0 ∧
        AudioCodec.blockResiduals samples AudioCodec.ORDER_2 i (i + 1) = [0]) ∧
      (3 ≤ i →
        AudioCodec.predict samples i AudioCodec.ORDER_3 = samples.getD i 0 ∧
        toI32 (samples.getD i 0 - AudioCodec.predict samples i AudioCodec.ORDER_3) = 0 ∧
        AudioCodec.blockResiduals samples AudioCodec.ORDER_3 i (i + 1) = [0]) := by
  obtain ⟨h2, h3⟩ := AudioCodec.predict_linear samples s0 d hs hlin i hi
  have hsub : i + 1 - i = 1 := by omega
  have hz : toI32 (samples.getD i 0 - samples.getD i 0) = 0 := by
    rw [sub_self]
    rfl
  constructor
  · intro h
    have e := h2 h
    refine ⟨e, by rw [e, hz], ?_⟩
    unfold AudioCodec.blockResiduals
    rw [hsub]
    show [toI32 (samples.getD i 0 - AudioCodec.predict samples i AudioCodec.ORDER_2)] = _
    rw [e, hz]
  · intro h
    have e := h3 h
    refine ⟨e, by rw [e, hz], ?_⟩
    unfold AudioCodec.blockResiduals
    rw [hsub]
    show [toI32 (samples.getD i 0 - AudioCodec.predict samples i AudioCodec.ORDER_3)] = _
    rw [e, hz]

/-- Witness of C38 on the progression `10, 13, 16, 19, 22` at index 3. -/
theorem C38_linear_prediction_exact_witness :
    AudioCodec.predict [10, 13, 16, 19, 22] 3 AudioCodec.ORDER_2 = 19 ∧
      AudioCodec.blockResiduals [10, 13, 16, 19, 22] AudioCodec.ORDER_2 3 (3 + 1) = [0] ∧
      AudioCodec.predict [10, 13, 16, 19, 22] 3 AudioCodec.ORDER_3 = 19 ∧
      AudioCodec.blockResiduals [10, 13, 16, 19, 22] AudioCodec.ORDER_3 3 (3 + 1) = [0] :=
  have h := C38_linear_prediction_exact [10, 13, 16, 19, 22] 10 3 3 (by decide)
    (by
      intro j hj
      have hj5 : j < 5 := hj
      interval_cases j <;> rfl)
    (by decide)
  ⟨(h.1 (by decide)).1, (h.1 (by decide)).2.2, (h.2 (by decide)).1, (h.2 (by decide)).2.2⟩
